import Mathlib

/-!
# Matrix service: out-of-core transpose, arbitrary-precision sum and product

A shallow embedding of the Go sources `invert.go`, `calculate.go`, `echo.go` and
`matrix.go`.

* A CSV record is a `List String`; a CSV source is the list of records its
  `csv.Reader` yields, in order.  The reader's field-count check
  (`FieldsPerRecord`) is part of the model, byte-level parsing is not.
* A temporary shard file is the list of records appended to it through its
  `csv.Writer`.
* Go `int` values are lengths and indices of slices held in memory; they are
  modelled by `Nat` (no arithmetic in the code can reach `2^63`).
* The context is modelled by the value `ctx.Err()` has at each check-point of the
  read loop (`none` while the context is not done).
* Disk and network failures are not modelled: every `Write`, `Seek` and
  `CreateTemp` succeeds.
* A request is what the handlers read of it: the error of `c.MultipartForm()`, the
  files under the form key `file`, the error of `fileHeader.Open()`, the records of
  the upload and the context.
-/

namespace MatrixService

/-! ## Go library primitives -/

/-- A CSV record: an ordered sequence of field strings. -/
abbrev Record := List String

/-- Go `unicode.IsSpace`: the Unicode White_Space code points. -/
def isSpace (c : Char) : Bool :=
  let n := c.toNat
  n = 0x09 || n = 0x0A || n = 0x0B || n = 0x0C || n = 0x0D || n = 0x20 ||
  n = 0x85 || n = 0xA0 || n = 0x1680 || (0x2000 ≤ n && n ≤ 0x200A) ||
  n = 0x2028 || n = 0x2029 || n = 0x202F || n = 0x205F || n = 0x3000

/-- Go `strings.TrimSpace`: the string without its leading and trailing white space. -/
def trimSpace (s : String) : String :=
  String.mk ((s.data.dropWhile isSpace).reverse.dropWhile isSpace).reverse

/-- The error of a done context, `ctx.Err()`. -/
inductive CtxErr where
  | deadlineExceeded
  | canceled
  deriving DecidableEq, Repr

/-- The context as the read loops observe it: `ctx k` is `ctx.Err()` at the
check-point reached after `k` records have been read, `none` while `ctx.Done()`
is not ready. -/
abbrev Ctx := Nat → Option CtxErr

/-- Error values of the handlers, and the run-time panic. -/
inductive Err where
  /-- The error `io.EOF`. -/
  | eof
  /-- The error `csv.ErrFieldCount`, raised by `Reader.Read`. -/
  | fieldCount
  /-- The value `echo.NewHTTPError(status, msg)`. -/
  | http (status : Nat) (msg : String)
  /-- The value `echo.NewHTTPError(400, "CSV parsing error: "+cerr.Error())` that
  `sumMatrix`, `multiplyMatrix` and `flattenMatrix` return for a reader error. -/
  | csvParsing
  /-- A run-time panic (index out of range, integer divide by zero). -/
  | panic
  deriving DecidableEq, Repr

/-- The field-count check of `csv.Reader.Read`: with `FieldsPerRecord > 0` a record
of another length is reported as `ErrFieldCount` (`none`); with `FieldsPerRecord = 0`
the first record read sets it; a negative value disables the check.  The result
is the value of `FieldsPerRecord` after the read. -/
def checkFields (fieldsPerRecord : Int) (record : Record) : Option Int :=
  if fieldsPerRecord > 0 then
    if (record.length : Int) ≠ fieldsPerRecord then none else some fieldsPerRecord
  else if fieldsPerRecord = 0 then some record.length
  else some fieldsPerRecord

/-- The rewriting `csv.Reader` applies to every line it reads, inside quoted fields
too: a carriage return right before a line feed is dropped (`\r\n` becomes `\n`). -/
def dropCarriageReturns : List Char → List Char
  | [] => []
  | c :: rest =>
    if c = '\r' ∧ rest.head? = some '\n' then dropCarriageReturns rest
    else c :: dropCarriageReturns rest

/-- A field as a `csv.Reader` yields it from a file in which a `csv.Writer` (with
`UseCRLF = false`) wrote it: the writer quotes a field that holds `\r` or `\n` and
writes both characters as they are, the reader rewrites `\r\n` to `\n`. -/
def readField (field : String) : String := String.mk (dropCarriageReturns field.data)

/-- The records a `csv.Reader` yields from a file that a `csv.Writer` wrote: an
empty field is written unquoted, so a record with no field, or with a single
empty field, is written as a blank line, and the reader skips blank lines; in the
fields of the other records `\r\n` is read as `\n`. -/
def readBack (file : List Record) : List Record :=
  (file.filter fun record => !(record == [] || record == [""])).map
    fun record => record.map readField

/-! ## invert.go -/

/-- Number of rows handled each time. -/
def blockSize : Nat := 6

/-- Number of temporary files. -/
def tmpFileCount : Nat := 3

/-- The struct `TempFileHelper`: `tempFiles` holds, for each temporary file, the
records written to it so far through the `csv.Writer` of the same index. -/
structure TempFileHelper where
  tempFiles : List (List Record)
  colRanges : List (Nat × Nat)
  colNum : Nat
  deriving DecidableEq, Repr

/-- The loop of `NewTempFileHelper` that fills `colRanges`: `n` ranges of width
`cols`, the first starting at `currentCol`. -/
def colRangesLoop (cols : Nat) : Nat → Nat → List (Nat × Nat)
  | 0, _ => []
  | n + 1, currentCol =>
    (currentCol, currentCol + cols) :: colRangesLoop cols n (currentCol + cols)

/-- The function `NewTempFileHelper`: the column ranges, the (empty) temporary
files, and `colNum`, which the creation loop leaves at the width of the last range. -/
def NewTempFileHelper (totalCols : Nat) : TempFileHelper :=
  let baseCols := totalCols / tmpFileCount
  let extraCols := totalCols % tmpFileCount
  let cols := if extraCols > 0 then baseCols + 1 else baseCols
  let colRanges := colRangesLoop cols tmpFileCount 0
  { tempFiles := List.replicate tmpFileCount [],
    colRanges := colRanges,
    colNum := match colRanges.getLast? with
      | some (start, endCol) => endCol - start
      | none => 0 }

/-- The assignment `result[j][i] = v`. -/
def setCell (result : List Record) (j i : Nat) (v : String) : List Record :=
  match result[j]? with
  | some row => result.set j (row.set i v)
  | none => result

/-- The function `invertInMemory`: `result` is allocated as `cols` rows of `rows`
empty strings and filled by the two nested loops; `none` is the index-out-of-range
panic of `matrix[i][j]`. -/
def invertInMemory (matrix : List Record) : Option (List Record) :=
  match matrix with
  | [] => some []
  | first :: _ =>
    let rows := matrix.length
    let cols := first.length
    let result : List Record := List.replicate cols (List.replicate rows "")
    (List.range rows).foldlM (fun result i =>
      (List.range cols).foldlM (fun result j =>
        match matrix[i]? with
        | none => none
        | some row =>
          match row[j]? with
          | none => none
          | some v => some (setCell result j i v)) result) result

/-- The placeholder row `[]string{" "}`. -/
def placeholder : Record := [" "]

/-- The loop over `fileIdx` of `ProcessBlock`, on the column ranges and files that
remain: it stops at the first range that starts at or after `len(invertedMatrix)`;
otherwise it appends the rows `invertedMatrix[start:end]` (with `end` cut down to
`len(invertedMatrix)`) and then `placeholderNum - 1` placeholder rows. -/
def writeShards (invertedMatrix : List Record) :
    List (Nat × Nat) → List (List Record) → List (List Record)
  | (start, endCol) :: ranges, file :: files =>
    if start ≥ invertedMatrix.length then file :: files
    else
      let placeholderNum :=
        if endCol > invertedMatrix.length then endCol - invertedMatrix.length + 1 else 0
      let endCol := if endCol > invertedMatrix.length then invertedMatrix.length else endCol
      let written := (invertedMatrix.drop start).take (endCol - start)
      (file ++ written ++ List.replicate (placeholderNum - 1) placeholder)
        :: writeShards invertedMatrix ranges files
  | _, files => files

/-- The method `ProcessBlock`; `none` is a panic of `invertInMemory`. -/
def TempFileHelper.ProcessBlock (th : TempFileHelper) (block : List Record) :
    Option TempFileHelper :=
  match invertInMemory block with
  | none => none
  | some invertedMatrix =>
    some { th with tempFiles := writeShards invertedMatrix th.colRanges th.tempFiles }

/-- The placeholder test of `StreamOutput`:
`len(record) == 1 && strings.TrimSpace(record[0]) == ""`. -/
def isPlaceholder (record : Record) : Bool :=
  match record with
  | [field] => trimSpace field == ""
  | _ => false

/-- The inner loop of `StreamOutput` on the records of one file, from index
`colIdx`: a placeholder record is skipped (the loop counter still advances), any
other record is appended to `row[colIdx % colNum]`; `none` is the panic of
`colIdx % 0`. -/
def readFile (colNum : Nat) : Nat → List Record → List Record → Option (List Record)
  | _, [], row => some row
  | colIdx, record :: records, row =>
    if isPlaceholder record then readFile colNum (colIdx + 1) records row
    else if colNum = 0 then none
    else
      readFile colNum (colIdx + 1) records
        (row.modify (fun slot => slot ++ record) (colIdx % colNum))

/-- The outer loop of `StreamOutput` over the temporary files: a file from which
no record is read ends the loop; after any other file the `colNum` slots of `row`
are written out, empty or not, and `row` is reset. -/
def streamFiles (colNum : Nat) : List (List Record) → List Record → Option (List Record)
  | [], out => some out
  | file :: files, out =>
    match readBack file with
    | [] => some out
    | record :: records =>
      match readFile colNum 0 (record :: records) (List.replicate colNum []) with
      | none => none
      | some row => streamFiles colNum files (out ++ row)

/-- The method `StreamOutput`: the records written to the response. -/
def TempFileHelper.StreamOutput (th : TempFileHelper) : Option (List Record) :=
  streamFiles th.colNum th.tempFiles []


/-- Effects of `invertMatrix` on the file system. -/
inductive FsEvent where
  /-- The call `os.MkdirTemp(tempDir, "matrix_invert")`. -/
  | mkdirTemp
  /-- The call `os.CreateTemp` for the temporary file of the given index. -/
  | createTemp (fileIdx : Nat)
  /-- The call `file.Close()` of `TempFileHelper.Close`. -/
  | closeFile (fileIdx : Nat)
  /-- The call `os.Remove(file.Name())` of `TempFileHelper.Close`. -/
  | removeFile (fileIdx : Nat)
  /-- The call `os.RemoveAll(tmpDir)`. -/
  | removeAll
  deriving DecidableEq, Repr

/-- The method `TempFileHelper.Close`: every temporary file is closed and removed. -/
def TempFileHelper.Close (th : TempFileHelper) : List FsEvent :=
  (List.range th.tempFiles.length).flatMap fun idx => [.closeFile idx, .removeFile idx]

/-- What a handler has done when it returns. -/
structure Outcome where
  /-- The returned error, `none` for `nil`. -/
  err : Option Err
  /-- The status and message of a call `http.Error(resp, msg, status)`, if any. -/
  httpError : Option (Nat × String)
  /-- The CSV records written to the response, in order. -/
  output : List Record
  /-- The file-system calls made, in order. -/
  fs : List FsEvent
  deriving DecidableEq, Repr

/-- The `case <-ctx.Done()` branch of the read loops of `invertMatrix`, `sumMatrix`
and `multiplyMatrix`: `http.Error(resp, "Processing timeout", 504)` when the error
is `context.DeadlineExceeded`, and `return nil` in every case. -/
def ctxDone (e : CtxErr) : Option Err × Option (Nat × String) :=
  (none, if e = .deadlineExceeded then some (504, "Processing timeout") else none)

/-- How the `BlockLoop` of `invertMatrix` ends. -/
inductive LoopExit where
  /-- The statement `break BlockLoop`, with the helper as the loop leaves it. -/
  | finished (helper : TempFileHelper)
  /-- A `return` inside the loop. -/
  | returned (err : Option Err) (httpError : Option (Nat × String))
  /-- A panic of `ProcessBlock`. -/
  | panicked
  deriving DecidableEq, Repr

/-- The `BlockLoop` of `invertMatrix`, at the check-point reached after `n`
records: `fieldsPerRecord` is the state of `reader`, `block` the rows buffered so
far, the last argument the records `reader` has not yet read. -/
def blockLoop (ctx : Ctx) :
    Nat → Int → TempFileHelper → List Record → List Record → LoopExit
  | n, _, helper, block, [] =>
    match ctx n with
    | some e => .returned (ctxDone e).1 (ctxDone e).2
    | none =>
      if block.length > 0 then
        match helper.ProcessBlock block with
        | none => .panicked
        | some helper => .finished helper
      else .finished helper
  | n, fieldsPerRecord, helper, block, record :: src =>
    match ctx n with
    | some e => .returned (ctxDone e).1 (ctxDone e).2
    | none =>
      match checkFields fieldsPerRecord record with
      | none => .returned (some .fieldCount) none
      | some fieldsPerRecord =>
        if (block ++ [record]).length = blockSize then
          match helper.ProcessBlock (block ++ [record]) with
          | none => .panicked
          | some helper => blockLoop ctx (n + 1) fieldsPerRecord helper [] src
        else blockLoop ctx (n + 1) fieldsPerRecord helper (block ++ [record]) src

/-- The function `invertMatrix` on the records of `src`.  The calls
`helper.Close()` and `os.RemoveAll(tmpDir)` are commented out in the deferred
function, so no exit path makes them. -/
def invertMatrix (ctx : Ctx) (src : List Record) : Outcome :=
  match src with
  | [] => { err := some .eof, httpError := none, output := [], fs := [.mkdirTemp] }
  | firstRow :: _ =>
    let totalCols := firstRow.length
    let helper := NewTempFileHelper totalCols
    let fs := FsEvent.mkdirTemp :: (List.range tmpFileCount).map FsEvent.createTemp
    match blockLoop ctx 0 0 helper [] src with
    | .returned err httpError => { err := err, httpError := httpError, output := [], fs := fs }
    | .panicked => { err := some .panic, httpError := none, output := [], fs := fs }
    | .finished helper =>
      match helper.StreamOutput with
      | none => { err := some .panic, httpError := none, output := [], fs := fs }
      | some out => { err := none, httpError := none, output := out, fs := fs }

/-- A context that is never done. -/
def background : Ctx := fun _ => none

/-- A context whose deadline has passed before the first check-point. -/
def expired : Ctx := fun _ => some .deadlineExceeded


/-! ## calculate.go -/

/-- The value of a base-10 digit, as `big.Int.SetString(s, 10)` reads it. -/
def digitValue (c : Char) : Option Nat :=
  if '0' ≤ c ∧ c ≤ '9' then some (c.toNat - '0'.toNat) else none

/-- The digit scan of `big.Int.SetString(s, 10)`: every character must be a
base-10 digit; `acc` is the value of the digits read so far. -/
def scanDigits : List Char → Nat → Option Nat
  | [], acc => some acc
  | c :: cs, acc =>
    match digitValue c with
    | none => none
    | some d => scanDigits cs (acc * 10 + d)

/-- Go `(*big.Int).SetString(s, 10)`: an optional sign `+` or `-`, then at least
one base-10 digit, then the end of the string; `none` stands for `succ == false`. -/
def setString (s : String) : Option Int :=
  match s.data with
  | [] => none
  | c :: cs =>
    if c = '-' then
      if cs.isEmpty then none else (scanDigits cs 0).map fun n => -(n : Int)
    else if c = '+' then
      if cs.isEmpty then none else (scanDigits cs 0).map fun n => (n : Int)
    else (scanDigits (c :: cs) 0).map fun n => (n : Int)

/-- The loop `for _, num := range record` of `sumMatrix`: the new value of `sum`,
or the field `num` that `SetString` refused. -/
def sumRecord : List String → Int → Except String Int
  | [], sum => .ok sum
  | num :: record, sum =>
    match setString (trimSpace num) with
    | none => .error num
    | some tmp => sumRecord record (sum + tmp)

/-- The read loop of `sumMatrix`, at the check-point reached after `n` records. -/
def sumLoop (ctx : Ctx) : Nat → Int → Int → List Record → Outcome
  | n, _, sum, [] =>
    match ctx n with
    | some e => { err := (ctxDone e).1, httpError := (ctxDone e).2, output := [], fs := [] }
    | none => { err := none, httpError := none, output := [[toString sum]], fs := [] }
  | n, fieldsPerRecord, sum, record :: src =>
    match ctx n with
    | some e => { err := (ctxDone e).1, httpError := (ctxDone e).2, output := [], fs := [] }
    | none =>
      match checkFields fieldsPerRecord record with
      | none => { err := some .csvParsing, httpError := none, output := [], fs := [] }
      | some fieldsPerRecord =>
        match sumRecord record sum with
        | .ok sum => sumLoop ctx (n + 1) fieldsPerRecord sum src
        | .error num =>
          { err := some (.http 400 (num ++ " is not a number")), httpError := none,
            output := [], fs := [] }

/-- The function `sumMatrix` on the records of `src`: `sum` starts at `0` and the
reader with `FieldsPerRecord = 0`. -/
def sumMatrix (ctx : Ctx) (src : List Record) : Outcome :=
  sumLoop ctx 0 0 0 src

/-- How the loop over the fields of one record ends in `multiplyMatrix`. -/
inductive FieldScan where
  /-- Every field was read; the product is handed to the next record. -/
  | next (product : Int)
  /-- The field `num` was refused by `SetString`. -/
  | notNumber (num : String)
  /-- The product became zero. -/
  | zero
  deriving DecidableEq, Repr

/-- The loop `for _, num := range record` of `multiplyMatrix`, with its return as
soon as the product is zero. -/
def multiplyRecord : List String → Int → FieldScan
  | [], product => .next product
  | num :: record, product =>
    match setString (trimSpace num) with
    | none => .notNumber num
    | some tmp => if product * tmp = 0 then .zero else multiplyRecord record (product * tmp)

/-- The read loop of `multiplyMatrix`, at the check-point reached after `n` records. -/
def multiplyLoop (ctx : Ctx) : Nat → Int → Int → List Record → Outcome
  | n, _, product, [] =>
    match ctx n with
    | some e => { err := (ctxDone e).1, httpError := (ctxDone e).2, output := [], fs := [] }
    | none => { err := none, httpError := none, output := [[toString product]], fs := [] }
  | n, fieldsPerRecord, product, record :: src =>
    match ctx n with
    | some e => { err := (ctxDone e).1, httpError := (ctxDone e).2, output := [], fs := [] }
    | none =>
      match checkFields fieldsPerRecord record with
      | none => { err := some .csvParsing, httpError := none, output := [], fs := [] }
      | some fieldsPerRecord =>
        match multiplyRecord record product with
        | .next product => multiplyLoop ctx (n + 1) fieldsPerRecord product src
        | .notNumber num =>
          { err := some (.http 400 (num ++ " is not a number")), httpError := none,
            output := [], fs := [] }
        | .zero => { err := none, httpError := none, output := [["0"]], fs := [] }

/-- The function `multiplyMatrix` on the records of `src`: `product` starts at `1`
and the reader with `FieldsPerRecord = 0`. -/
def multiplyMatrix (ctx : Ctx) (src : List Record) : Outcome :=
  multiplyLoop ctx 0 0 1 src


/-! ## echo.go -/

/-- The function `minimum`. -/
def minimum (a b : Nat) : Nat := if a < b then a else b

/-- The function `flushChunk`: the rows it writes, one per pass of the loop
`for len(data) > 0`, each holding the next `minimum(10000, len(data))` fields. -/
def flushChunk (data : List String) : List Record :=
  if _h : 0 < data.length then
    data.take (minimum 10000 data.length)
      :: flushChunk (data.drop (minimum 10000 data.length))
  else []
termination_by data.length
decreasing_by
  simp only [List.length_drop, minimum]
  split <;> omega

/-- The `case <-ctx.Done()` branch of the read loops of `echoMatrix` and
`flattenMatrix`: the error `echo.NewHTTPError(504, "Processing timeout")` when the
context error is `context.DeadlineExceeded`, and `nil` otherwise. -/
def ctxDoneError (e : CtxErr) : Option Err :=
  if e = .deadlineExceeded then some (.http 504 "Processing timeout") else none

/-- The message `fmt.Sprintf("Not a matrix: line: %d, columns: %d", rowCount, expectedCols)`. -/
def notAMatrix (rowCount expectedCols : Nat) : String :=
  "Not a matrix: line: " ++ toString rowCount ++ ", columns: " ++ toString expectedCols

/-- The message
`fmt.Sprintf("column number inconsistent: row: %d expects %d colums", rowCount+1, expectedCols)`. -/
def columnInconsistent (rowCount expectedCols : Nat) : String :=
  "column number inconsistent: row: " ++ toString (rowCount + 1) ++ " expects "
    ++ toString expectedCols ++ " colums"

/-- The read loop of `echoMatrix`, at the check-point reached after `rowCount`
records: `written` holds the records handed to `csvWriter.Write` so far.  The
reader has `FieldsPerRecord = -1`, so it reports no field-count error.  Every
`return` is followed by the deferred `csvWriter.Flush()`, so what was written
reaches the response on every path. -/
def echoLoop (ctx : Ctx) : Nat → Nat → List Record → List Record → Outcome
  | rowCount, expectedCols, written, [] =>
    match ctx rowCount with
    | some e => { err := ctxDoneError e, httpError := none, output := written, fs := [] }
    | none =>
      if rowCount ≠ expectedCols then
        { err := some (.http 400 (notAMatrix rowCount expectedCols)), httpError := none,
          output := written, fs := [] }
      else { err := none, httpError := none, output := written, fs := [] }
  | rowCount, expectedCols, written, record :: src =>
    match ctx rowCount with
    | some e => { err := ctxDoneError e, httpError := none, output := written, fs := [] }
    | none =>
      if record.length ≠ (if rowCount = 0 then record.length else expectedCols) then
        { err := some (.http 400 (columnInconsistent rowCount
            (if rowCount = 0 then record.length else expectedCols))),
          httpError := none, output := written, fs := [] }
      else
        echoLoop ctx (rowCount + 1) (if rowCount = 0 then record.length else expectedCols)
          (written ++ [record]) src

/-- The function `echoMatrix` on the records of `src`. -/
def echoMatrix (ctx : Ctx) (src : List Record) : Outcome :=
  echoLoop ctx 0 0 [] src

/-- The read loop of `flattenMatrix`, at the check-point reached after `rowCount`
records: `fieldsPerRecord` is the state of the reader (it starts at `0`, so the
reader itself reports rows of another width), `flattenedRecord` the fields gathered
since the last `flushChunk`, `written` the rows written (and flushed) so far. -/
def flattenLoop (ctx : Ctx) :
    Nat → Int → Nat → List String → List Record → List Record → Outcome
  | rowCount, _, expectedCols, flattenedRecord, written, [] =>
    match ctx rowCount with
    | some e => { err := ctxDoneError e, httpError := none, output := written, fs := [] }
    | none =>
      if rowCount ≠ expectedCols then
        { err := some (.http 400 (notAMatrix rowCount expectedCols)), httpError := none,
          output := written, fs := [] }
      else if flattenedRecord.length > 0 then
        { err := none, httpError := none, output := written ++ [flattenedRecord], fs := [] }
      else { err := none, httpError := none, output := written, fs := [] }
  | rowCount, fieldsPerRecord, expectedCols, flattenedRecord, written, record :: src =>
    match ctx rowCount with
    | some e => { err := ctxDoneError e, httpError := none, output := written, fs := [] }
    | none =>
      match checkFields fieldsPerRecord record with
      | none => { err := some .csvParsing, httpError := none, output := written, fs := [] }
      | some fieldsPerRecord =>
        if record.length ≠ (if rowCount = 0 then record.length else expectedCols) then
          { err := some (.http 400 (columnInconsistent rowCount
              (if rowCount = 0 then record.length else expectedCols))),
            httpError := none, output := written, fs := [] }
        else if (flattenedRecord ++ record).length ≥ 100000 then
          flattenLoop ctx (rowCount + 1) fieldsPerRecord
            (if rowCount = 0 then record.length else expectedCols) []
            (written ++ flushChunk (flattenedRecord ++ record)) src
        else
          flattenLoop ctx (rowCount + 1) fieldsPerRecord
            (if rowCount = 0 then record.length else expectedCols)
            (flattenedRecord ++ record) written src

/-- The function `flattenMatrix` on the records of `src`. -/
def flattenMatrix (ctx : Ctx) (src : List Record) : Outcome :=
  flattenLoop ctx 0 0 0 [] [] src

/-! ## matrix.go -/

/-- The fields of a `multipart.FileHeader` that `fetchFileHeader` looks at. -/
structure FileHeader where
  Filename : String
  Size : Int
  deriving DecidableEq, Repr

/-- The loop of Go `filepath.Ext`, on the characters of the path from the last
one backwards: it stops at a path separator, and at the first dot it returns the
suffix that begins there (`suffix` holds the characters already passed). -/
def extLoop : List Char → List Char → List Char
  | [], _ => []
  | c :: rest, suffix =>
    if c = '/' then []
    else if c = '.' then '.' :: suffix
    else extLoop rest (c :: suffix)

/-- Go `filepath.Ext` (with `/` as the path separator): the suffix beginning at the
final dot of the final element of the path, empty if there is no dot. -/
def Ext (path : String) : String := String.mk (extLoop path.data.reverse [])

/-- The lower-case mapping `strings.ToLower` applies to one rune.  Outside ASCII Go
uses the Unicode table, of which only the two entries that produce an ASCII letter
are kept (KELVIN SIGN to `k`, LATIN CAPITAL LETTER I WITH DOT ABOVE to `i`); every
other rune outside ASCII is mapped to a rune outside ASCII, which a comparison with
an ASCII string cannot tell from the rune itself. -/
def lowerRune (c : Char) : Char :=
  if c.toNat = 0x212A then 'k'
  else if c.toNat = 0x130 then 'i'
  else c.toLower

/-- Go `strings.ToLower`. -/
def ToLower (s : String) : String := String.mk (s.data.map lowerRune)

/-- The function `validateFileType`: `none` for `nil`, otherwise the message of the
error. -/
def validateFileType (fileHeader : FileHeader) : Option String :=
  if ToLower (Ext fileHeader.Filename) ≠ ".csv" then some "only csv file supported"
  else none

/-- The function `fetchFileHeader` on the files `form.File["file"]`: the file
header, or the message of the error. -/
def fetchFileHeader (files : List FileHeader) : Except String FileHeader :=
  match files with
  | [] => .error "no files found in the form"
  | fileHeader :: _ =>
    if fileHeader.Size = 0 then .error "empty file"
    else
      match validateFileType fileHeader with
      | some err => .error err
      | none => .ok fileHeader

/-! ## The handlers -/

/-- The constant `Option_echo`. -/
def Option_echo : String := "Echo"

/-- The constant `Option_invert`. -/
def Option_invert : String := "Invert"

/-- The constant `Option_flatten`. -/
def Option_flatten : String := "Flatten"

/-- The constant `Method_Addition`. -/
def Method_Addition : String := "Addition"

/-- The constant `Method_Multiply`. -/
def Method_Multiply : String := "Multiplication"

/-- What the handlers read of a request `c echo.Context`. -/
structure Request where
  /-- The message of the error of `c.MultipartForm()`, `none` when the form is
  parsed. -/
  formError : Option String
  /-- The files `form.File["file"]`. -/
  files : List FileHeader
  /-- The message of the error of `fileHeader.Open()`, `none` when the file opens. -/
  openError : Option String
  /-- The records a `csv.Reader` yields from the uploaded file. -/
  records : List Record
  /-- The text `cerr.Error()` of the error the reader reports for a record of
  another width (it names a line of the file, which `records` does not keep). -/
  readerError : String
  /-- The context `context.WithTimeout(c.Request().Context(), maxProcessTime)`. -/
  ctx : Ctx

/-- The function `prepareReaderWriter`: the source file (`records` stands for what
is read from it), or the message of the error `perr`.  Setting the headers of the
response is not modelled. -/
def prepareReaderWriter (c : Request) : Except String (List Record) :=
  match fetchFileHeader c.files with
  | .error err => .error err
  | .ok _ =>
    match c.openError with
    | some err => .error ("fail to open file: " ++ err)
    | none => .ok c.records

/-- The function `printMatrix`. -/
def printMatrix (c : Request) (printOption : String) : Outcome :=
  match c.formError with
  | some err =>
    { err := some (.http 400 ("form parse error: " ++ err)), httpError := none,
      output := [], fs := [] }
  | none =>
    match prepareReaderWriter c with
    | .error perr =>
      { err := some (.http 400 perr), httpError := none, output := [], fs := [] }
    | .ok srcFile =>
      if printOption = Option_echo then echoMatrix c.ctx srcFile
      else if printOption = Option_invert then invertMatrix c.ctx srcFile
      else if printOption = Option_flatten then flattenMatrix c.ctx srcFile
      else echoMatrix c.ctx srcFile

/-- The string `err.Error()` of an error value: `code=<code>, message=<message>`
for `echo.NewHTTPError(code, message)`; `readerError` is the text of the error of
the CSV reader. -/
def errorString (readerError : String) : Err → String
  | .eof => "EOF"
  | .fieldCount => readerError
  | .http status msg => "code=" ++ toString status ++ ", message=" ++ msg
  | .csvParsing => "code=400, message=CSV parsing error: " ++ readerError
  | .panic => ""

/-- The statement `if err = f(ctx, srcFile, resp); err != nil { return
echo.NewHTTPError(http.StatusBadRequest, err.Error()) }` of `calcMatrix`, followed
by `return nil`, on the outcome of `f`. -/
def wrapError (readerError : String) (outcome : Outcome) : Outcome :=
  match outcome.err with
  | none => outcome
  | some .panic => outcome
  | some err => { outcome with err := some (.http 400 (errorString readerError err)) }

/-- The function `calcMatrix`.  When `prepareReaderWriter` fails with `perr`, the
source evaluates `err.Error()` on `err`, the error of `c.MultipartForm()`, which is
`nil` at that point: a nil dereference, the run-time panic. -/
def calcMatrix (c : Request) (method : String) : Outcome :=
  match c.formError with
  | some err =>
    { err := some (.http 400 ("form parse error: " ++ err)), httpError := none,
      output := [], fs := [] }
  | none =>
    match prepareReaderWriter c with
    | .error _ => { err := some .panic, httpError := none, output := [], fs := [] }
    | .ok srcFile =>
      if method = Method_Addition then wrapError c.readerError (sumMatrix c.ctx srcFile)
      else if method = Method_Multiply then
        wrapError c.readerError (multiplyMatrix c.ctx srcFile)
      else
        { err := some (.http 400 ("invalid method: " ++ method)), httpError := none,
          output := [], fs := [] }

/-- The handler `Echo` of `/echo`. -/
def Echo (c : Request) : Outcome := printMatrix c Option_echo

/-- The handler `Invert` of `/invert`. -/
def Invert (c : Request) : Outcome := printMatrix c Option_invert

/-- The handler `Flatten` of `/flatten`. -/
def Flatten (c : Request) : Outcome := printMatrix c Option_flatten

/-- The handler `Sum` of `/sum`. -/
def Sum (c : Request) : Outcome := calcMatrix c Method_Addition

/-- The handler `Multiply` of `/multiply`. -/
def Multiply (c : Request) : Outcome := calcMatrix c Method_Multiply

/-! ## Specification-side definitions -/

/-- Column `j` lies in the range `[start, end)`. -/
def inRange (range : Nat × Nat) (j : Nat) : Prop := range.1 ≤ j ∧ j < range.2

instance (range : Nat × Nat) (j : Nat) : Decidable (inRange range j) := by
  unfold inRange; infer_instance

/-- The width `end - start` of a column range. -/
def width (range : Nat × Nat) : Nat := range.2 - range.1

/-- The partition the specification describes for `totalCols` columns: the last
range ends at `totalCols`, exactly `totalCols % tmpFileCount` ranges have the base
width `totalCols / tmpFileCount` plus one, and every other range has the base width. -/
def exactPartition (totalCols : Nat) (ranges : List (Nat × Nat)) : Prop :=
  ranges.getLast?.map Prod.snd = some totalCols ∧
  (ranges.filter fun range => width range = totalCols / tmpFileCount + 1).length
    = totalCols % tmpFileCount ∧
  ∀ range ∈ ranges, width range = totalCols / tmpFileCount ∨
    width range = totalCols / tmpFileCount + 1

instance (totalCols : Nat) (ranges : List (Nat × Nat)) :
    Decidable (exactPartition totalCols ranges) := by
  unfold exactPartition; infer_instance

/-- The width every range of `NewTempFileHelper` gets: `totalCols / 3`, plus one
when the division leaves a remainder. -/
def shardWidth (totalCols : Nat) : Nat :=
  if totalCols % tmpFileCount > 0 then totalCols / tmpFileCount + 1
  else totalCols / tmpFileCount

/-- The integer a field stands for: what `SetString` reads from the trimmed field. -/
def fieldValue (num : String) : Int := (setString (trimSpace num)).getD 0

/-- The field is a base-10 integer: `SetString` accepts it once trimmed. -/
def isNumber (num : String) : Prop := (setString (trimSpace num)).isSome = true

instance (num : String) : Decidable (isNumber num) := by
  unfold isNumber; infer_instance

/-- The exact sum of all fields, in row-major order. -/
def exactSum (src : List Record) : Int :=
  (src.map fun record => (record.map fieldValue).sum).sum

/-- The exact product of all fields, in row-major order. -/
def exactProduct (src : List Record) : Int :=
  (src.map fun record => (record.map fieldValue).prod).prod

/-- Column `j` of the input: `[input[0][j], input[1][j], ..., input[R-1][j]]`. -/
def column (src : List Record) (j : Nat) : Record := src.map fun row => row.getD j ""

/-- The transpose of an input whose first row has `C` fields: its `C` columns, in
column order. -/
def transpose (src : List Record) : List Record :=
  match src with
  | [] => []
  | first :: _ => (List.range first.length).map (column src)

/-- The file-system calls `invertMatrix` makes once the first row has been read:
the temporary directory and the `tmpFileCount` temporary files are created,
nothing is closed or removed. -/
def createdOnly : List FsEvent :=
  FsEvent.mkdirTemp :: (List.range tmpFileCount).map FsEvent.createTemp

/-- The `cols × rows` matrix whose cell `[j][i]` is `g j i`. -/
def grid (cols rows : Nat) (g : Nat → Nat → String) : List Record :=
  (List.range cols).map fun j => (List.range rows).map fun i => g j i

/-- The fields that the records of one shard file, read from loop index `colIdx`
on, contribute to slot `s`: the fields of every record that is not a placeholder
and whose loop index is `s` modulo `colNum`, in file order. -/
def slotFields (colNum : Nat) : Nat → List Record → Nat → Record
  | _, [], _ => []
  | colIdx, record :: records, s =>
    (if !isPlaceholder record && colIdx % colNum == s then record else [])
      ++ slotFields colNum (colIdx + 1) records s

/-- The slots `row` with the fields `f s` appended to slot `s`. -/
def fillSlots (row : List Record) (f : Nat → Record) : List Record :=
  (List.range row.length).map fun s => row.getD s [] ++ f s

/-- The rows `StreamOutput` writes for the temporary files it reads: the `colNum`
slots of every file, up to the first file from which no record is read. -/
def emitted (colNum : Nat) : List (List Record) → List Record
  | [] => []
  | file :: files =>
    if (readBack file).isEmpty then []
    else fillSlots (List.replicate colNum []) (slotFields colNum 0 (readBack file))
      ++ emitted colNum files

/-- The records `ProcessBlock` appends to the shard with range `[start, end)` for
a block whose in-memory transpose is `invertedMatrix`: nothing when the range starts
at or after `len(invertedMatrix)`, otherwise the rows `start .. min(end, len) - 1`
followed by `end - len` placeholder rows. -/
def appended (invertedMatrix : List Record) (range : Nat × Nat) : List Record :=
  if range.1 ≥ invertedMatrix.length then []
  else (invertedMatrix.drop range.1).take (min range.2 invertedMatrix.length - range.1)
    ++ List.replicate (range.2 - invertedMatrix.length) placeholder

/-- The blocks the `BlockLoop` of `invertMatrix` hands to `ProcessBlock`, from the
rows buffered in `block` and the records still to read: a block is handed over when
it reaches `blockSize` rows, and a last, shorter block at the end of the input. -/
def blocksOf : List Record → List Record → List (List Record)
  | block, [] => if block.length > 0 then [block] else []
  | block, record :: src =>
    if (block ++ [record]).length = blockSize then (block ++ [record]) :: blocksOf [] src
    else blocksOf (block ++ [record]) src

/-- The method `ProcessBlock` applied to each block in turn. -/
def processBlocks (th : TempFileHelper) : List (List Record) → Option TempFileHelper
  | [] => some th
  | block :: blocks =>
    match th.ProcessBlock block with
    | none => none
    | some th => processBlocks th blocks

/-- What a record read from a shard contributes to its slot: its fields, or
nothing when it is a placeholder (or when there is no record). -/
def contribution (record : Option Record) : Record :=
  match record with
  | some r => if isPlaceholder r then [] else r
  | none => []

/-- No field of the input is empty or consists of white space only. -/
def nonBlank (src : List Record) : Prop := ∀ r ∈ src, ∀ f ∈ r, trimSpace f ≠ ""

/-- No field of the input holds a carriage return right before a line feed: every
field is read from a shard as it was written. -/
def plainNewlines (src : List Record) : Prop := ∀ r ∈ src, ∀ f ∈ r, readField f = f

instance (src : List Record) : Decidable (plainNewlines src) := by
  unfold plainNewlines; infer_instance

instance (src : List Record) : Decidable (nonBlank src) := by
  unfold nonBlank; infer_instance

/-- The number of shards whose column range starts below `C`. -/
def activeShards (C : Nat) : Nat :=
  ((NewTempFileHelper C).colRanges.filter fun range => range.1 < C).length

/-- The number of slots of the shards that receive data beyond the `C` columns of
the input: `m * ceil(C / 3) - C`, with `m` the number of shards whose range starts
below `C`. -/
def padding (C : Nat) : Nat := activeShards C * shardWidth C - C

/-- Slot `j` of the reassembled output: column `j` of the input when `j < C`,
no field otherwise. -/
def outputRow (src : List Record) (C j : Nat) : Record :=
  if j < C then column src j else []

/-- The first field, in row-major order, that is not a base-10 integer once
trimmed. -/
def firstNonNumber (src : List Record) : Option String :=
  src.flatten.find? fun num => !decide (isNumber num)

/-- The number of records a read loop reads from `src`, starting at the check-point
reached after `n` records: it stops at the first check-point at which the context
is done. -/
def recordsRead (ctx : Ctx) : Nat → List Record → Nat
  | _, [] => 0
  | n, _ :: src => if (ctx n).isSome then 0 else recordsRead ctx (n + 1) src + 1

/-- The two strings are equal ignoring the case of their letters. -/
def equalsIgnoringCase (a b : String) : Prop :=
  a.data.map Char.toLower = b.data.map Char.toLower

instance (a b : String) : Decidable (equalsIgnoringCase a b) := by
  unfold equalsIgnoringCase; infer_instance

/-- The quotient `a / b` rounded up. -/
def ceilDiv (a b : Nat) : Nat := (a + b - 1) / b

/-- The inner loop of `StreamOutput` as the specification describes it: the slot of
a row is `k % colNum` where `k` counts only the rows read so far that are not
placeholders, so a placeholder does not advance the counter. -/
def readFileCountingReal (colNum : Nat) :
    Nat → List Record → List Record → Option (List Record)
  | _, [], row => some row
  | k, record :: records, row =>
    if isPlaceholder record then readFileCountingReal colNum k records row
    else if colNum = 0 then none
    else
      readFileCountingReal colNum (k + 1) records
        (row.modify (fun slot => slot ++ record) (k % colNum))

/-- The fields of all the rows of a shard at positions `p` with `p % colNum = s`
that are not placeholder rows, in shard order. -/
def slotSpec (colNum : Nat) (records : List Record) (s : Nat) : Record :=
  ((records.enum.filter fun pr => decide (pr.1 % colNum = s) && !isPlaceholder pr.2).map
    Prod.snd).flatten

/-- The loop over the fields of one record as the scan of every field, without the
return at a zero product: every field is read by `SetString` and multiplied in. -/
def multiplyRecordNoShortCircuit : List String → Int → Except String Int
  | [], product => .ok product
  | num :: record, product =>
    match setString (trimSpace num) with
    | none => .error num
    | some tmp => multiplyRecordNoShortCircuit record (product * tmp)

/-- The read loop of the product without the short-circuit, at the check-point
reached after `n` records: it differs from `multiplyLoop` only in that a zero
product does not end it. -/
def multiplyLoopNoShortCircuit (ctx : Ctx) : Nat → Int → Int → List Record → Outcome
  | n, _, product, [] =>
    match ctx n with
    | some e => { err := (ctxDone e).1, httpError := (ctxDone e).2, output := [], fs := [] }
    | none => { err := none, httpError := none, output := [[toString product]], fs := [] }
  | n, fieldsPerRecord, product, record :: src =>
    match ctx n with
    | some e => { err := (ctxDone e).1, httpError := (ctxDone e).2, output := [], fs := [] }
    | none =>
      match checkFields fieldsPerRecord record with
      | none => { err := some .csvParsing, httpError := none, output := [], fs := [] }
      | some fieldsPerRecord =>
        match multiplyRecordNoShortCircuit record product with
        | .ok product => multiplyLoopNoShortCircuit ctx (n + 1) fieldsPerRecord product src
        | .error num =>
          { err := some (.http 400 (num ++ " is not a number")), httpError := none,
            output := [], fs := [] }

/-- The product of all fields computed by scanning every field, without the zero
short-circuit of `multiplyMatrix`. -/
def multiplyMatrixNoShortCircuit (ctx : Ctx) (src : List Record) : Outcome :=
  multiplyLoopNoShortCircuit ctx 0 0 1 src

/-- A request that uploads the file `test.txt` with the 15 bytes `invalid content`,
on a context that is never done. -/
def txtUpload : Request :=
  { formError := none, files := [{ Filename := "test.txt", Size := 15 }],
    openError := none, records := [["invalid content"]],
    readerError := "", ctx := background }

/-- A request whose form holds no file. -/
def noUpload : Request :=
  { formError := none, files := [], openError := none, records := [],
    readerError := "", ctx := background }

/-- A request that uploads the empty file `empty.csv`. -/
def emptyUpload : Request :=
  { formError := none, files := [{ Filename := "empty.csv", Size := 0 }],
    openError := none, records := [], readerError := "", ctx := background }

/-! ## The column partition plan -/

theorem colRanges_eq (totalCols : Nat) :
    (NewTempFileHelper totalCols).colRanges =
      [(0, shardWidth totalCols), (shardWidth totalCols, 2 * shardWidth totalCols),
       (2 * shardWidth totalCols, 3 * shardWidth totalCols)] := by
  simp only [NewTempFileHelper, shardWidth, tmpFileCount, colRangesLoop]
  split <;> simp <;> omega

theorem colNum_eq (totalCols : Nat) :
    (NewTempFileHelper totalCols).colNum = shardWidth totalCols := by
  simp only [NewTempFileHelper, shardWidth, tmpFileCount, colRangesLoop,
    List.getLast?_cons_cons, List.getLast?_singleton]
  omega

theorem shardWidth_bounds (totalCols : Nat) :
    totalCols ≤ 3 * shardWidth totalCols ∧ 3 * shardWidth totalCols < totalCols + 3 ∧
    (3 * shardWidth totalCols = totalCols ↔ totalCols % 3 = 0) := by
  simp only [shardWidth, tmpFileCount]
  split <;> omega


/-- C5 (as the code has it): the three column ranges of `NewTempFileHelper` all have
the same width `shardWidth totalCols`, which is `totalCols / 3` rounded up; their
union is `[0, 3 * shardWidth totalCols)`, the last range ends at
`3 * shardWidth totalCols`, which is at least `totalCols` and equals `totalCols`
exactly when `totalCols % 3 = 0`; the ranges form the partition of the
specification exactly in that case. -/
theorem colRanges_equal_widths (totalCols : Nat) :
    ((NewTempFileHelper totalCols).colRanges.length = tmpFileCount) ∧
    (∀ range ∈ (NewTempFileHelper totalCols).colRanges,
      width range = shardWidth totalCols) ∧
    (∀ j, (∃ range ∈ (NewTempFileHelper totalCols).colRanges, inRange range j)
      ↔ j < 3 * shardWidth totalCols) ∧
    ((NewTempFileHelper totalCols).colRanges.getLast?.map Prod.snd
      = some (3 * shardWidth totalCols)) ∧
    totalCols ≤ 3 * shardWidth totalCols ∧
    (3 * shardWidth totalCols = totalCols ↔ totalCols % tmpFileCount = 0) ∧
    (exactPartition totalCols (NewTempFileHelper totalCols).colRanges
      ↔ totalCols % tmpFileCount = 0) := by
  obtain ⟨hle, hlt, hiff⟩ := shardWidth_bounds totalCols
  rw [colRanges_eq]
  refine ⟨rfl, ?_, ?_, ?_, hle, ?_, ?_⟩
  · intro range hrange
    simp only [List.mem_cons, List.mem_singleton, List.not_mem_nil, or_false] at hrange
    rcases hrange with h | h | h <;> subst h <;> simp only [width] <;> omega
  · intro j
    simp only [List.mem_cons, List.mem_singleton, List.not_mem_nil, or_false, inRange,
      exists_eq_or_imp, exists_eq_left]
    omega
  · simp [List.getLast?_cons_cons]
  · simpa [tmpFileCount] using hiff
  · simp only [exactPartition, tmpFileCount, List.getLast?_cons_cons,
      List.getLast?_singleton, Option.map_some', Option.some.injEq, List.mem_cons,
      List.mem_singleton, List.not_mem_nil, or_false, forall_eq_or_imp, forall_eq, width]
    constructor
    · rintro ⟨h, -, -⟩
      exact hiff.mp h
    · intro h
      have hw : shardWidth totalCols = totalCols / 3 := by
        simp [shardWidth, tmpFileCount, h]
      refine ⟨hiff.mpr h, ?_, ?_⟩
      · rw [hw, h]
        simp [List.filter, width]
        have h1 : ¬ (totalCols / 3 = totalCols / 3 + 1) := by omega
        have h2 : ¬ (2 * (totalCols / 3) - totalCols / 3 = totalCols / 3 + 1) := by omega
        have h3 : ¬ (3 * (totalCols / 3) - 2 * (totalCols / 3) = totalCols / 3 + 1) := by
          omega
        simp [h1, h2, h3]
      · rw [hw]
        omega

/-- C5 (counterexample): for `totalCols = 4` the ranges are `[0,2)`, `[2,4)`, `[4,6)`:
the last range ends at 6, not at 4, and three ranges, not `4 % 3 = 1`, are one
wider than the base width `4 / 3 = 1`. -/
theorem colRanges_not_exact_at_four :
    (NewTempFileHelper 4).colRanges = [(0, 2), (2, 4), (4, 6)] ∧
    ¬ exactPartition 4 (NewTempFileHelper 4).colRanges := by
  decide

/-- C6: for every `totalCols` the column ranges of `NewTempFileHelper` are three
ranges that are ordered (the first starts at 0 and each starts where the previous
one ends), pairwise disjoint (no column index lies in two of them), and jointly
exhaustive: every column index below `totalCols` lies in exactly one range. -/
theorem colRanges_disjoint_ordered_exhaustive (totalCols : Nat) :
    ((NewTempFileHelper totalCols).colRanges.length = tmpFileCount) ∧
    ((NewTempFileHelper totalCols).colRanges.head?.map Prod.fst = some 0) ∧
    ((NewTempFileHelper totalCols).colRanges.Chain' fun a b => b.1 = a.2) ∧
    ((NewTempFileHelper totalCols).colRanges.Pairwise
      fun a b => ∀ j, ¬ (inRange a j ∧ inRange b j)) ∧
    (∀ j, j < totalCols →
      ∃! i : Nat, ∃ range, (NewTempFileHelper totalCols).colRanges[i]? = some range ∧
        inRange range j) := by
  obtain ⟨hle, -, -⟩ := shardWidth_bounds totalCols
  rw [colRanges_eq]
  refine ⟨rfl, rfl, ?_, ?_, ?_⟩
  · simp [List.Chain']
  · simp only [List.pairwise_cons, List.mem_cons, List.mem_singleton, List.not_mem_nil,
      or_false, forall_eq_or_imp, forall_eq, inRange, List.Pairwise.nil, and_true,
      false_implies, implies_true]
    refine ⟨⟨?_, ?_⟩, ?_⟩ <;> intro j <;> omega
  · intro j hj
    by_cases h1 : j < shardWidth totalCols
    · refine ⟨0, ⟨(0, shardWidth totalCols), rfl, ?_⟩, ?_⟩
      · simp only [inRange]; omega
      · rintro i ⟨range, hi, hr⟩
        match i, hi with
        | 0, _ => rfl
        | 1, hi =>
          simp only [List.getElem?_cons_succ, List.getElem?_cons_zero,
            Option.some.injEq] at hi
          subst hi; simp only [inRange] at hr; omega
        | 2, hi =>
          simp only [List.getElem?_cons_succ, List.getElem?_cons_zero,
            Option.some.injEq] at hi
          subst hi; simp only [inRange] at hr; omega
        | n + 3, hi => simp at hi
    · by_cases h2 : j < 2 * shardWidth totalCols
      · refine ⟨1, ⟨(shardWidth totalCols, 2 * shardWidth totalCols), rfl, ?_⟩, ?_⟩
        · simp only [inRange]; omega
        · rintro i ⟨range, hi, hr⟩
          match i, hi with
          | 0, hi =>
            simp only [List.getElem?_cons_zero, Option.some.injEq] at hi
            subst hi; simp only [inRange] at hr; omega
          | 1, _ => rfl
          | 2, hi =>
            simp only [List.getElem?_cons_succ, List.getElem?_cons_zero,
              Option.some.injEq] at hi
            subst hi; simp only [inRange] at hr; omega
          | n + 3, hi => simp at hi
      · refine ⟨2, ⟨(2 * shardWidth totalCols, 3 * shardWidth totalCols), rfl, ?_⟩, ?_⟩
        · simp only [inRange]; omega
        · rintro i ⟨range, hi, hr⟩
          match i, hi with
          | 0, hi =>
            simp only [List.getElem?_cons_zero, Option.some.injEq] at hi
            subst hi; simp only [inRange] at hr; omega
          | 1, hi =>
            simp only [List.getElem?_cons_succ, List.getElem?_cons_zero,
              Option.some.injEq] at hi
            subst hi; simp only [inRange] at hr; omega
          | 2, _ => rfl
          | n + 3, hi => simp at hi


/-! ## The read loop of `invertMatrix` -/

theorem checkFields_same (fieldsPerRecord : Int) (L : Nat) (record : Record)
    (hfpr : fieldsPerRecord = 0 ∨ fieldsPerRecord = L) (hlen : record.length = L) :
    checkFields fieldsPerRecord record = some (L : Int) := by
  unfold checkFields
  rcases hfpr with h | h <;> subst h
  · simp [hlen]
  · by_cases hL : (0 : Int) < L
    · simp [hL, hlen]
    · have : (L : Int) = 0 := by omega
      simp [this, hlen]

theorem checkFields_other (L : Nat) (record : Record) (hL : 0 < L)
    (hlen : record.length ≠ L) : checkFields (L : Int) record = none := by
  unfold checkFields
  have h1 : (0 : Int) < L := by omega
  have h2 : (record.length : Int) ≠ L := by omega
  simp [h1, h2]

theorem foldlM_isSome {α β : Type} (f : β → α → Option β) (l : List α)
    (h : ∀ b, ∀ a ∈ l, (f b a).isSome = true) (init : β) :
    (l.foldlM f init).isSome = true := by
  induction l generalizing init with
  | nil => simp [List.foldlM]
  | cons a l ih =>
    obtain ⟨b, hb⟩ := Option.isSome_iff_exists.mp (h init a (List.mem_cons_self _ _))
    simp only [List.foldlM_cons, hb, Option.some_bind, Option.bind_eq_bind]
    exact ih (fun b x hx => h b x (List.mem_cons_of_mem _ hx)) b

/-- On a block whose rows all have the same number of fields `invertInMemory` does
not panic. -/
theorem invertInMemory_isSome (L : Nat) (matrix : List Record)
    (hrect : ∀ row ∈ matrix, row.length = L) : (invertInMemory matrix).isSome = true := by
  cases matrix with
  | nil => rfl
  | cons first rest =>
    simp only [invertInMemory]
    apply foldlM_isSome
    intro result i hi
    apply foldlM_isSome
    intro result j hj
    have hi' : i < (first :: rest).length := List.mem_range.mp hi
    have hj' : j < first.length := List.mem_range.mp hj
    have hrow : ((first :: rest)[i]).length = L := hrect _ (List.getElem_mem _)
    have hfirst : first.length = L := hrect _ (List.mem_cons_self _ _)
    have hj'' : j < ((first :: rest)[i]).length := by omega
    simp [List.getElem?_eq_getElem hi', List.getElem?_eq_getElem hj'']

theorem ProcessBlock_isSome (L : Nat) (th : TempFileHelper) (block : List Record)
    (hrect : ∀ row ∈ block, row.length = L) :
    ∃ th', th.ProcessBlock block = some th' := by
  obtain ⟨inv, hinv⟩ := Option.isSome_iff_exists.mp (invertInMemory_isSome L block hrect)
  exact ⟨{ th with tempFiles := writeShards inv th.colRanges th.tempFiles },
    by simp [TempFileHelper.ProcessBlock, hinv]⟩

/-- A record of another length than the rows read before it ends the loop with
`csv.ErrFieldCount`. -/
theorem blockLoop_fieldCount (ctx : Ctx) (L : Nat) (hL : 0 < L) :
    ∀ (src : List Record) (n : Nat) (fieldsPerRecord : Int) (helper : TempFileHelper)
      (block : List Record) (k : Nat) (row : Record),
      (fieldsPerRecord = L ∨ (fieldsPerRecord = 0 ∧ ∀ r ∈ src.head?, r.length = L)) →
      (∀ r ∈ block, r.length = L) →
      src[k]? = some row → row.length ≠ L →
      (∀ m, n ≤ m → m ≤ n + k → ctx m = none) →
      blockLoop ctx n fieldsPerRecord helper block src = .returned (some .fieldCount) none := by
  intro src
  induction src with
  | nil => intro n fpr helper block k row _ _ hrow; simp at hrow
  | cons r src ih =>
    intro n fpr helper block k row hfpr hblock hrow hlen hctx
    have hc : ctx n = none := hctx n (le_refl _) (by omega)
    by_cases hr : r.length = L
    · have hcheck : checkFields fpr r = some (L : Int) := by
        apply checkFields_same _ _ _ _ hr
        rcases hfpr with h | ⟨h, -⟩
        · exact Or.inr h
        · exact Or.inl h
      cases k with
      | zero =>
        simp only [List.getElem?_cons_zero, Option.some.injEq] at hrow
        subst hrow
        exact absurd hr hlen
      | succ k =>
        simp only [List.getElem?_cons_succ] at hrow
        have hblock' : ∀ x ∈ block ++ [r], x.length = L := by
          intro x hx
          rcases List.mem_append.mp hx with h | h
          · exact hblock x h
          · simp only [List.mem_singleton] at h; subst h; exact hr
        have hctx' : ∀ m, n + 1 ≤ m → m ≤ n + 1 + k → ctx m = none :=
          fun m h1 h2 => hctx m (by omega) (by omega)
        simp only [blockLoop, hc, hcheck]
        split
        · obtain ⟨th', hth'⟩ := ProcessBlock_isSome L helper _ hblock'
          simp only [hth']
          exact ih _ _ th' [] k row (Or.inl rfl) (by simp) hrow hlen hctx'
        · exact ih _ _ helper _ k row (Or.inl rfl) hblock' hrow hlen hctx'
    · have hfpr' : fpr = L := by
        rcases hfpr with h | ⟨-, h⟩
        · exact h
        · exact absurd (h r (by simp)) hr
      subst hfpr'
      simp only [blockLoop, hc, checkFields_other L r hL hr]

/-- Whatever the context does, an input with a record of another length than the
rows before it never lets the loop reach `break BlockLoop`: it ends in a `return`. -/
theorem blockLoop_returns (ctx : Ctx) (L : Nat) (hL : 0 < L) :
    ∀ (src : List Record) (n : Nat) (fieldsPerRecord : Int) (helper : TempFileHelper)
      (block : List Record) (k : Nat) (row : Record),
      (fieldsPerRecord = L ∨ (fieldsPerRecord = 0 ∧ ∀ r ∈ src.head?, r.length = L)) →
      (∀ r ∈ block, r.length = L) →
      src[k]? = some row → row.length ≠ L →
      ∃ err httpError,
        blockLoop ctx n fieldsPerRecord helper block src = .returned err httpError := by
  intro src
  induction src with
  | nil => intro n fpr helper block k row _ _ hrow; simp at hrow
  | cons r src ih =>
    intro n fpr helper block k row hfpr hblock hrow hlen
    cases hc : ctx n with
    | some e => exact ⟨(ctxDone e).1, (ctxDone e).2, by simp only [blockLoop, hc]⟩
    | none =>
      by_cases hr : r.length = L
      · have hcheck : checkFields fpr r = some (L : Int) := by
          apply checkFields_same _ _ _ _ hr
          rcases hfpr with h | ⟨h, -⟩
          · exact Or.inr h
          · exact Or.inl h
        cases k with
        | zero =>
          simp only [List.getElem?_cons_zero, Option.some.injEq] at hrow
          subst hrow
          exact absurd hr hlen
        | succ k =>
          simp only [List.getElem?_cons_succ] at hrow
          have hblock' : ∀ x ∈ block ++ [r], x.length = L := by
            intro x hx
            rcases List.mem_append.mp hx with h | h
            · exact hblock x h
            · simp only [List.mem_singleton] at h; subst h; exact hr
          simp only [blockLoop, hc, hcheck]
          split
          · obtain ⟨th', hth'⟩ := ProcessBlock_isSome L helper _ hblock'
            simp only [hth']
            exact ih _ _ th' [] k row (Or.inl rfl) (by simp) hrow hlen
          · exact ih _ _ helper _ k row (Or.inl rfl) hblock' hrow hlen
      · have hfpr' : fpr = L := by
          rcases hfpr with h | ⟨-, h⟩
          · exact h
          · exact absurd (h r (by simp)) hr
        subst hfpr'
        exact ⟨some .fieldCount, none,
          by simp only [blockLoop, hc, checkFields_other L r hL hr]⟩

/-- A context that is done at a check-point the loop reaches ends the loop there,
through the `ctx.Done()` branch. -/
theorem blockLoop_ctxDone (ctx : Ctx) (L : Nat) (e : CtxErr) :
    ∀ (src : List Record) (n : Nat) (fieldsPerRecord : Int) (helper : TempFileHelper)
      (block : List Record) (k : Nat),
      (fieldsPerRecord = 0 ∨ fieldsPerRecord = L) →
      (∀ r ∈ block, r.length = L) →
      k ≤ src.length → (∀ r ∈ src.take k, r.length = L) →
      (∀ m, n ≤ m → m < n + k → ctx m = none) → ctx (n + k) = some e →
      blockLoop ctx n fieldsPerRecord helper block src
        = .returned (ctxDone e).1 (ctxDone e).2 := by
  intro src
  induction src with
  | nil =>
    intro n fpr helper block k _ _ hk _ _ hdone
    have hk0 : k = 0 := by simpa using hk
    subst hk0
    simp only [Nat.add_zero] at hdone
    simp only [blockLoop, hdone]
  | cons r src ih =>
    intro n fpr helper block k hfpr hblock hk hgood hctx hdone
    cases k with
    | zero =>
      simp only [Nat.add_zero] at hdone
      simp only [blockLoop, hdone]
    | succ k =>
      have hc : ctx n = none := hctx n (le_refl _) (by omega)
      have hr : r.length = L := hgood r (by simp)
      have hcheck := checkFields_same fpr L r hfpr hr
      have hblock' : ∀ x ∈ block ++ [r], x.length = L := by
        intro x hx
        rcases List.mem_append.mp hx with h | h
        · exact hblock x h
        · simp only [List.mem_singleton] at h; subst h; exact hr
      have hgood' : ∀ x ∈ src.take k, x.length = L :=
        fun x hx => hgood x (by simp [List.take_succ_cons, hx])
      have hctx' : ∀ m, n + 1 ≤ m → m < n + 1 + k → ctx m = none :=
        fun m h1 h2 => hctx m (by omega) (by omega)
      have hdone' : ctx (n + 1 + k) = some e := by
        rw [← hdone]; congr 1; omega
      have hk' : k ≤ src.length := by simpa using hk
      simp only [blockLoop, hc, hcheck]
      split
      · obtain ⟨th', hth'⟩ := ProcessBlock_isSome L helper _ hblock'
        simp only [hth']
        exact ih _ _ th' [] k (Or.inr rfl) (by simp) hk' hgood' hctx' hdone'
      · exact ih _ _ helper _ k (Or.inr rfl) hblock' hk' hgood' hctx' hdone'


/-! ## Transposition: what the pipeline writes -/

/-- C1 (failing input): on the one-row input `a, ,b` the pipeline writes the rows
`[a]`, `[]`, `[b]`: the transposed row `[" "]` of column 1 is read back from its
shard as a placeholder and dropped, so output row 1 has lost the input value
`" "` and is not column 1 of the input. -/
theorem invertMatrix_blank_field_lost :
    invertMatrix background [["a", " ", "b"]] =
      { err := none, httpError := none, output := [["a"], [], ["b"]], fs := createdOnly } ∧
    column [["a", " ", "b"]] 1 = [" "] ∧
    (invertMatrix background [["a", " ", "b"]]).output[1]? ≠
      some (column [["a", " ", "b"]] 1) := by
  decide

/-- C2 (failing input): on the 1×5 input `1,2,3,4,5` the pipeline writes six rows,
the five columns and then a row with no field, although the input has five columns. -/
theorem invertMatrix_extra_row :
    invertMatrix background [["1", "2", "3", "4", "5"]] =
      { err := none, httpError := none,
        output := [["1"], ["2"], ["3"], ["4"], ["5"], []], fs := createdOnly } ∧
    (invertMatrix background [["1", "2", "3", "4", "5"]]).output.length = 6 := by
  decide

/-- C3 (failing input): transposing the one-row matrix `x, ` gives the rows `[x]`,
`[]`; transposing these rows again fails with `ErrFieldCount`, and transposing what
a `csv.Reader` reads back from them (the blank line is skipped) gives `[x]`:
neither is the matrix `x, `. -/
theorem invertMatrix_round_trip_fails :
    (invertMatrix background [["x", " "]]).output = [["x"], []] ∧
    invertMatrix background (invertMatrix background [["x", " "]]).output =
      { err := some .fieldCount, httpError := none, output := [], fs := createdOnly } ∧
    (invertMatrix background (readBack (invertMatrix background [["x", " "]]).output)).output
      = [["x"]] ∧
    (invertMatrix background (invertMatrix background [["x", " "]]).output).output
      ≠ [["x", " "]] ∧
    (invertMatrix background (readBack (invertMatrix background [["x", " "]]).output)).output
      ≠ [["x", " "]] := by
  decide

/-! ## Error paths of `invertMatrix` -/

/-- C4: if some row of the input has a number of fields different from that of the
first row (a record a `csv.Reader` yields has at least one field), then, whatever
the context does, the read loop of `invertMatrix` ends in a `return`, so
`StreamOutput` is not reached and no row is written to the output; and when the
context is not done at the check-points up to that row, the value `invertMatrix`
returns is the error `csv.ErrFieldCount`. -/
theorem invertMatrix_rejects_inconsistent_row (ctx : Ctx) (first : Record)
    (rest : List Record) (k : Nat) (row : Record)
    (hfirst : first ≠ [])
    (hrow : (first :: rest)[k]? = some row) (hlen : row.length ≠ first.length) :
    (∃ err httpError,
      blockLoop ctx 0 0 (NewTempFileHelper first.length) [] (first :: rest)
        = .returned err httpError) ∧
    (invertMatrix ctx (first :: rest)).output = [] ∧
    ((∀ m, m ≤ k → ctx m = none) →
      invertMatrix ctx (first :: rest) =
        { err := some .fieldCount, httpError := none, output := [], fs := createdOnly }) := by
  have hL : 0 < first.length := List.length_pos.mpr hfirst
  obtain ⟨err, httpError, hret⟩ := blockLoop_returns ctx first.length hL (first :: rest) 0 0
    (NewTempFileHelper first.length) [] k row (Or.inr ⟨rfl, by simp⟩) (by simp) hrow hlen
  refine ⟨⟨err, httpError, hret⟩, ?_, ?_⟩
  · simp only [invertMatrix, hret]
  · intro hctx
    have hloop := blockLoop_fieldCount ctx first.length hL (first :: rest) 0 0
      (NewTempFileHelper first.length) [] k row
      (Or.inr ⟨rfl, by simp⟩) (by simp) hrow hlen (fun m _ h => hctx m (by omega))
    simp only [invertMatrix, hloop, createdOnly]

/-- C4 (witness): the rows `[1,2]`, `[3,4,5]`. -/
theorem invertMatrix_rejects_inconsistent_row_witness :
    invertMatrix background [["1", "2"], ["3", "4", "5"]] =
      { err := some .fieldCount, httpError := none, output := [], fs := createdOnly } :=
  (invertMatrix_rejects_inconsistent_row background ["1", "2"] [["3", "4", "5"]] 1
    ["3", "4", "5"] (by decide) rfl (by decide)).2.2 (fun _ _ => rfl)

/-- C7 (counterexample): with the deadline expired before the first check-point,
`invertMatrix` on the rows `[1,2]`, `[3,4]` returns `nil`, the success result. -/
theorem invertMatrix_deadline_returns_nil :
    (invertMatrix expired [["1", "2"], ["3", "4"]]).err = none := by
  decide

/-- C7 (as the code has it): if the deadline has expired when `invertMatrix` reaches
the check-point after `k` records (the context was not done at the earlier
check-points and the `k` records read had the field count of the first row), then
`invertMatrix` terminates and returns `nil` to its caller; the timeout is signalled
on the response only, by `http.Error(resp, "Processing timeout", 504)`, and no
transposed row has been written. -/
theorem invertMatrix_deadline (ctx : Ctx) (first : Record) (rest : List Record) (k : Nat)
    (hk : k ≤ (first :: rest).length)
    (hgood : ∀ r ∈ (first :: rest).take k, r.length = first.length)
    (hctx : ∀ m, m < k → ctx m = none) (hdone : ctx k = some .deadlineExceeded) :
    invertMatrix ctx (first :: rest) =
      { err := none, httpError := some (504, "Processing timeout"), output := [],
        fs := createdOnly } := by
  have hloop := blockLoop_ctxDone ctx first.length .deadlineExceeded (first :: rest) 0 0
    (NewTempFileHelper first.length) [] k (Or.inl rfl) (by simp) hk hgood
    (fun m _ h => hctx m (by omega)) (by simpa using hdone)
  simp only [invertMatrix, hloop, createdOnly, ctxDone]
  rfl

/-- C7 (witness): the deadline expires after the first of the rows `[1,2]`, `[3,4]`
has been read. -/
theorem invertMatrix_deadline_witness :
    invertMatrix (fun m => if m = 0 then none else some .deadlineExceeded)
        [["1", "2"], ["3", "4"]] =
      { err := none, httpError := some (504, "Processing timeout"), output := [],
        fs := createdOnly } :=
  invertMatrix_deadline (fun m => if m = 0 then none else some .deadlineExceeded)
    ["1", "2"] [["3", "4"]] 1 (by decide) (by decide)
    (fun m hm => by simp [Nat.lt_one_iff.mp hm]) rfl

/-- No exit path of `invertMatrix` closes or removes a temporary file or removes
the temporary directory, and every exit path has created the directory. -/
theorem invertMatrix_never_cleans (ctx : Ctx) (src : List Record) :
    FsEvent.mkdirTemp ∈ (invertMatrix ctx src).fs ∧
    FsEvent.removeAll ∉ (invertMatrix ctx src).fs ∧
    ∀ fileIdx, FsEvent.closeFile fileIdx ∉ (invertMatrix ctx src).fs ∧
      FsEvent.removeFile fileIdx ∉ (invertMatrix ctx src).fs := by
  cases src with
  | nil => simp [invertMatrix]
  | cons first rest =>
    simp only [invertMatrix]
    split
    · simp [tmpFileCount]
    · simp [tmpFileCount]
    · split <;> simp [tmpFileCount]

/-- C8 (failing input): when `invertMatrix` returns from the rows `[1,2]`, `[3,4]`
(the success path) the temporary directory and the three temporary files have
been created and none of them has been closed or removed, although
`TempFileHelper.Close` would close and remove the three files. -/
theorem invertMatrix_leaves_temp_files :
    (invertMatrix background [["1", "2"], ["3", "4"]]).err = none ∧
    (invertMatrix background [["1", "2"], ["3", "4"]]).fs =
      [.mkdirTemp, .createTemp 0, .createTemp 1, .createTemp 2] ∧
    (NewTempFileHelper 2).Close =
      [.closeFile 0, .removeFile 0, .closeFile 1, .removeFile 1, .closeFile 2,
       .removeFile 2] ∧
    FsEvent.removeAll ∉ (invertMatrix background [["1", "2"], ["3", "4"]]).fs := by
  decide


/-! ## `SetString` reads what `String` prints -/

theorem digitValue_digitChar (k : Nat) (hk : k < 10) :
    digitValue (Nat.digitChar k) = some k := by
  interval_cases k <;> rfl

theorem digitChar_plain (k : Nat) (hk : k < 10) :
    isSpace (Nat.digitChar k) = false ∧ Nat.digitChar k ≠ '-' ∧ Nat.digitChar k ≠ '+' := by
  interval_cases k <;> decide

theorem toDigitsCore_scan :
    ∀ (fuel n : Nat) (ds : List Char), n < fuel →
      scanDigits (Nat.toDigitsCore 10 fuel n ds) 0 = scanDigits ds n := by
  intro fuel
  induction fuel with
  | zero => intro n ds h; omega
  | succ fuel ih =>
    intro n ds h
    simp only [Nat.toDigitsCore]
    split
    · rename_i h0
      have hn : n % 10 = n := by omega
      have hd := digitValue_digitChar (n % 10) (Nat.mod_lt _ (by decide))
      rw [hn] at hd
      simp [scanDigits, hd, hn]
    · rename_i h0
      rw [ih (n / 10) _ (by omega)]
      simp only [scanDigits, digitValue_digitChar (n % 10) (Nat.mod_lt _ (by decide))]
      congr 1
      omega

theorem toDigitsCore_plain :
    ∀ (fuel n : Nat) (ds : List Char),
      (∀ c ∈ ds, isSpace c = false ∧ c ≠ '-' ∧ c ≠ '+') →
      ∀ c ∈ Nat.toDigitsCore 10 fuel n ds, isSpace c = false ∧ c ≠ '-' ∧ c ≠ '+' := by
  intro fuel
  induction fuel with
  | zero => intro n ds h; simpa [Nat.toDigitsCore] using h
  | succ fuel ih =>
    intro n ds h
    have hcons : ∀ c ∈ Nat.digitChar (n % 10) :: ds,
        isSpace c = false ∧ c ≠ '-' ∧ c ≠ '+' := by
      intro c hc
      rcases List.mem_cons.mp hc with hc | hc
      · subst hc; exact digitChar_plain _ (Nat.mod_lt _ (by decide))
      · exact h c hc
    simp only [Nat.toDigitsCore]
    split
    · exact hcons
    · exact ih _ _ hcons

theorem toDigitsCore_ne_nil :
    ∀ (fuel n : Nat) (ds : List Char), ds ≠ [] ∨ 0 < fuel →
      Nat.toDigitsCore 10 fuel n ds ≠ [] := by
  intro fuel
  induction fuel with
  | zero =>
    intro n ds h
    rcases h with h | h
    · simpa [Nat.toDigitsCore] using h
    · omega
  | succ fuel ih =>
    intro n ds _
    simp only [Nat.toDigitsCore]
    split
    · simp
    · exact ih _ _ (Or.inl (by simp))

theorem dropWhile_isSpace_plain (l : List Char) (h : ∀ c ∈ l, isSpace c = false) :
    l.dropWhile isSpace = l := by
  cases l with
  | nil => rfl
  | cons c cs => simp [List.dropWhile, h c (List.mem_cons_self _ _)]

theorem trimSpace_plain (s : String) (h : ∀ c ∈ s.data, isSpace c = false) :
    trimSpace s = s := by
  unfold trimSpace
  rw [dropWhile_isSpace_plain _ h,
    dropWhile_isSpace_plain _ (fun c hc => h c (List.mem_reverse.mp hc)), List.reverse_reverse]

/-- The decimal representation of a natural number is read back by `SetString`. -/
theorem setString_repr (m : Nat) : setString (Nat.repr m) = some (m : Int) := by
  have hne : Nat.toDigitsCore 10 (m + 1) m [] ≠ [] :=
    toDigitsCore_ne_nil _ _ _ (Or.inr (Nat.succ_pos _))
  have hplain := toDigitsCore_plain (m + 1) m [] (by simp)
  have hscan := toDigitsCore_scan (m + 1) m [] (Nat.lt_succ_self _)
  simp only [setString, Nat.repr, Nat.toDigits, List.asString]
  cases hl : Nat.toDigitsCore 10 (m + 1) m [] with
  | nil => exact absurd hl hne
  | cons c cs =>
    rw [hl] at hplain hscan
    obtain ⟨-, h1, h2⟩ := hplain c (List.mem_cons_self _ _)
    simp only [h1, h2, if_false]
    rw [hscan]
    simp [scanDigits]

/-- The decimal representation of an integer is read back by `SetString`, and
`TrimSpace` leaves it unchanged. -/
theorem setString_toString (n : Int) :
    trimSpace (toString n) = toString n ∧ setString (toString n) = some n := by
  cases n with
  | ofNat m =>
    have hs : toString (Int.ofNat m) = Nat.repr m := rfl
    rw [hs]
    refine ⟨trimSpace_plain _ ?_, setString_repr m⟩
    intro c hc
    exact (toDigitsCore_plain (m + 1) m [] (by simp) c hc).1
  | negSucc m =>
    have hs : toString (Int.negSucc m) = "-" ++ Nat.repr (m + 1) := rfl
    rw [hs]
    have hdata : ("-" ++ Nat.repr (m + 1)).data
        = '-' :: Nat.toDigitsCore 10 (m + 1 + 1) (m + 1) [] := rfl
    have hne : Nat.toDigitsCore 10 (m + 1 + 1) (m + 1) [] ≠ [] :=
      toDigitsCore_ne_nil _ _ _ (Or.inr (Nat.succ_pos _))
    have hplain := toDigitsCore_plain (m + 1 + 1) (m + 1) [] (by simp)
    have hscan := toDigitsCore_scan (m + 1 + 1) (m + 1) [] (Nat.lt_succ_self _)
    constructor
    · apply trimSpace_plain
      rw [hdata]
      intro c hc
      rcases List.mem_cons.mp hc with hc | hc
      · subst hc; decide
      · exact (hplain c hc).1
    · simp only [setString, hdata]
      have hemp : (Nat.toDigitsCore 10 (m + 1 + 1) (m + 1) []).isEmpty = false := by
        cases hl : Nat.toDigitsCore 10 (m + 1 + 1) (m + 1) [] with
        | nil => exact absurd hl hne
        | cons c cs => rfl
      simp only [if_true, hemp]
      rw [hscan]
      simp only [scanDigits, Option.map_some', Bool.false_eq_true, if_false]
      rfl

/-- Every integer, written in decimal, is a field that `isNumber` accepts and whose
`fieldValue` is that integer. -/
theorem fieldValue_toString (n : Int) :
    isNumber (toString n) ∧ fieldValue (toString n) = n := by
  obtain ⟨h1, h2⟩ := setString_toString n
  simp [isNumber, fieldValue, h1, h2]

/-! ## Sum and product -/

theorem exactSum_cons (record : Record) (src : List Record) :
    exactSum (record :: src) = (record.map fieldValue).sum + exactSum src := by
  simp [exactSum]

theorem exactProduct_cons (record : Record) (src : List Record) :
    exactProduct (record :: src) = (record.map fieldValue).prod * exactProduct src := by
  simp [exactProduct]

theorem setString_of_isNumber (num : String) (h : isNumber num) :
    setString (trimSpace num) = some (fieldValue num) := by
  obtain ⟨v, hv⟩ := Option.isSome_iff_exists.mp h
  simp [fieldValue, hv]

theorem sumRecord_ok :
    ∀ (record : Record) (sum : Int), (∀ num ∈ record, isNumber num) →
      sumRecord record sum = .ok (sum + (record.map fieldValue).sum) := by
  intro record
  induction record with
  | nil => intro sum _; simp [sumRecord]
  | cons num record ih =>
    intro sum h
    have hnum := setString_of_isNumber num (h num (by simp))
    simp only [sumRecord, hnum]
    rw [ih _ (fun x hx => h x (List.mem_cons_of_mem _ hx))]
    simp [add_assoc]

theorem sumLoop_ok (ctx : Ctx) (L : Nat) :
    ∀ (src : List Record) (n : Nat) (fieldsPerRecord : Int) (sum : Int),
      (fieldsPerRecord = 0 ∨ fieldsPerRecord = L) →
      (∀ r ∈ src, r.length = L) → (∀ r ∈ src, ∀ num ∈ r, isNumber num) →
      (∀ m, n ≤ m → m ≤ n + src.length → ctx m = none) →
      sumLoop ctx n fieldsPerRecord sum src =
        { err := none, httpError := none, output := [[toString (sum + exactSum src)]],
          fs := [] } := by
  intro src
  induction src with
  | nil =>
    intro n fpr sum _ _ _ hctx
    have hc : ctx n = none := hctx n (le_refl _) (by omega)
    simp [sumLoop, hc, exactSum]
  | cons r src ih =>
    intro n fpr sum hfpr hwf hnum hctx
    have hc : ctx n = none := hctx n (le_refl _) (by omega)
    have hcheck := checkFields_same fpr L r hfpr (hwf r (by simp))
    have hrec := sumRecord_ok r sum (hnum r (by simp))
    simp only [sumLoop, hc, hcheck, hrec]
    rw [ih (n + 1) L _ (Or.inr rfl) (fun x hx => hwf x (List.mem_cons_of_mem _ hx))
      (fun x hx => hnum x (List.mem_cons_of_mem _ hx))
      (fun m h1 h2 => hctx m (by omega) (by simp only [List.length_cons]; omega))]
    rw [exactSum_cons, add_assoc]

theorem multiplyRecord_ok :
    ∀ (record : Record) (product : Int), product ≠ 0 →
      (∀ num ∈ record, isNumber num) →
      multiplyRecord record product =
        if product * (record.map fieldValue).prod = 0 then .zero
        else .next (product * (record.map fieldValue).prod) := by
  intro record
  induction record with
  | nil => intro product hp _; simp [multiplyRecord, hp]
  | cons num record ih =>
    intro product hp h
    have hnum := setString_of_isNumber num (h num (by simp))
    simp only [multiplyRecord, hnum, List.map_cons, List.prod_cons]
    by_cases hz : product * fieldValue num = 0
    · have : product * (fieldValue num * (record.map fieldValue).prod) = 0 := by
        rw [← mul_assoc, hz, zero_mul]
      simp [hz, this]
    · rw [if_neg hz, ih _ hz (fun x hx => h x (List.mem_cons_of_mem _ hx)), mul_assoc]

theorem multiplyLoop_ok (ctx : Ctx) (L : Nat) :
    ∀ (src : List Record) (n : Nat) (fieldsPerRecord : Int) (product : Int),
      product ≠ 0 → (fieldsPerRecord = 0 ∨ fieldsPerRecord = L) →
      (∀ r ∈ src, r.length = L) → (∀ r ∈ src, ∀ num ∈ r, isNumber num) →
      (∀ m, n ≤ m → m ≤ n + src.length → ctx m = none) →
      multiplyLoop ctx n fieldsPerRecord product src =
        { err := none, httpError := none,
          output := [[toString (product * exactProduct src)]], fs := [] } := by
  intro src
  induction src with
  | nil =>
    intro n fpr product _ _ _ _ hctx
    have hc : ctx n = none := hctx n (le_refl _) (by omega)
    simp [multiplyLoop, hc, exactProduct]
  | cons r src ih =>
    intro n fpr product hp hfpr hwf hnum hctx
    have hc : ctx n = none := hctx n (le_refl _) (by omega)
    have hcheck := checkFields_same fpr L r hfpr (hwf r (by simp))
    have hrec := multiplyRecord_ok r product hp (hnum r (by simp))
    simp only [multiplyLoop, hc, hcheck, hrec, exactProduct_cons]
    by_cases hz : product * (r.map fieldValue).prod = 0
    · simp only [if_pos hz]
      rw [← mul_assoc, hz, zero_mul]
      rfl
    · simp only [if_neg hz]
      rw [ih (n + 1) L _ hz (Or.inr rfl) (fun x hx => hwf x (List.mem_cons_of_mem _ hx))
        (fun x hx => hnum x (List.mem_cons_of_mem _ hx))
        (fun m h1 h2 => hctx m (by omega) (by simp only [List.length_cons]; omega))]
      rw [mul_assoc]

/-- C9: for every well-formed input (every row has the same number `L` of fields,
so the reader reports no error) whose fields are all base-10 integers once trimmed,
and a context that is not done while the input is read, `sumMatrix` returns `nil`
and writes exactly one row with one field, the decimal representation of the exact
integer sum of all fields. -/
theorem sumMatrix_exact (ctx : Ctx) (src : List Record) (L : Nat)
    (hwf : ∀ r ∈ src, r.length = L)
    (hnum : ∀ r ∈ src, ∀ num ∈ r, isNumber num)
    (hctx : ∀ m, m ≤ src.length → ctx m = none) :
    sumMatrix ctx src =
      { err := none, httpError := none, output := [[toString (exactSum src)]], fs := [] } := by
  have h := sumLoop_ok ctx L src 0 0 0 (Or.inl rfl) hwf hnum (fun m _ h => hctx m (by omega))
  simpa [sumMatrix] using h

/-- C9 (witness): `[1,2]`, `[3,4]` gives `10`, and two copies of
`123456789012345678901234567890` give `246913578024691357802469135780`. -/
theorem sumMatrix_exact_witness :
    sumMatrix background [["1", "2"], ["3", "4"]] =
      { err := none, httpError := none, output := [["10"]], fs := [] } ∧
    sumMatrix background
        [["123456789012345678901234567890", "123456789012345678901234567890"]] =
      { err := none, httpError := none, output := [["246913578024691357802469135780"]],
        fs := [] } :=
  ⟨sumMatrix_exact background [["1", "2"], ["3", "4"]] 2 (by decide) (by decide)
      (fun _ _ => rfl),
   sumMatrix_exact background
      [["123456789012345678901234567890", "123456789012345678901234567890"]] 2
      (by decide) (by decide) (fun _ _ => rfl)⟩

/-- The sum of an integer matrix written in decimal: `sumMatrix` writes the decimal
representation of the sum of its entries. -/
theorem sumMatrix_of_integers (ctx : Ctx) (vals : List (List Int)) (L : Nat)
    (hwf : ∀ r ∈ vals, r.length = L)
    (hctx : ∀ m, m ≤ vals.length → ctx m = none) :
    sumMatrix ctx (vals.map fun r => r.map toString) =
      { err := none, httpError := none,
        output := [[toString (vals.map List.sum).sum]], fs := [] } := by
  have hval : ∀ r : List Int, (r.map toString).map fieldValue = r := by
    intro r
    rw [List.map_map]
    conv_rhs => rw [← List.map_id r]
    apply List.map_congr_left
    intro n _
    exact (fieldValue_toString n).2
  have hsum : exactSum (vals.map fun r => r.map toString) = (vals.map List.sum).sum := by
    unfold exactSum
    rw [List.map_map]
    congr 1
    apply List.map_congr_left
    intro r _
    simp only [Function.comp_apply, hval]
  have h := sumLoop_ok ctx L (vals.map fun r => r.map toString) 0 0 0 (Or.inl rfl)
    (by
      intro r hr
      obtain ⟨r', hr', rfl⟩ := List.mem_map.mp hr
      simpa using hwf r' hr')
    (by
      intro r hr num hnum
      obtain ⟨r', _, rfl⟩ := List.mem_map.mp hr
      obtain ⟨n, _, rfl⟩ := List.mem_map.mp hnum
      exact (fieldValue_toString n).1)
    (fun m _ hm => hctx m (by simpa using hm))
  rw [hsum] at h
  simpa [sumMatrix] using h

/-- C10: for every well-formed input (every row has the same number `L` of fields)
whose fields are all base-10 integers once trimmed, and a context that is not done
while the input is read, `multiplyMatrix` returns `nil` and writes exactly one row
with one field, the decimal representation of the exact integer product of all
fields; the field is `"0"` whenever some field of the input is zero. -/
theorem multiplyMatrix_exact (ctx : Ctx) (src : List Record) (L : Nat)
    (hwf : ∀ r ∈ src, r.length = L)
    (hnum : ∀ r ∈ src, ∀ num ∈ r, isNumber num)
    (hctx : ∀ m, m ≤ src.length → ctx m = none) :
    multiplyMatrix ctx src =
      { err := none, httpError := none, output := [[toString (exactProduct src)]],
        fs := [] } ∧
    ((∃ r ∈ src, ∃ num ∈ r, fieldValue num = 0) →
      (multiplyMatrix ctx src).output = [["0"]]) := by
  have h := multiplyLoop_ok ctx L src 0 0 1 one_ne_zero (Or.inl rfl) hwf hnum
    (fun m _ h => hctx m (by omega))
  have h' : multiplyMatrix ctx src =
      { err := none, httpError := none, output := [[toString (exactProduct src)]],
        fs := [] } := by
    simpa [multiplyMatrix] using h
  refine ⟨h', ?_⟩
  rintro ⟨r, hr, num, hnum0, hzero⟩
  have hprod : exactProduct src = 0 := by
    unfold exactProduct
    apply List.prod_eq_zero
    apply List.mem_map.mpr
    refine ⟨r, hr, ?_⟩
    apply List.prod_eq_zero
    exact List.mem_map.mpr ⟨num, hnum0, hzero⟩
  rw [h', hprod]
  rfl

/-- C10 (witness): `[2,3]`, `[4,5]` gives `120`, and `[2,0]`, `[3,4]` gives `0`. -/
theorem multiplyMatrix_exact_witness :
    multiplyMatrix background [["2", "3"], ["4", "5"]] =
      { err := none, httpError := none, output := [["120"]], fs := [] } ∧
    (multiplyMatrix background [["2", "0"], ["3", "4"]]).output = [["0"]] :=
  ⟨(multiplyMatrix_exact background [["2", "3"], ["4", "5"]] 2 (by decide) (by decide)
      (fun _ _ => rfl)).1,
   (multiplyMatrix_exact background [["2", "0"], ["3", "4"]] 2 (by decide) (by decide)
      (fun _ _ => rfl)).2 ⟨["2", "0"], by decide, "0", by decide, by decide⟩⟩


/-- The product of an integer matrix written in decimal: `multiplyMatrix` writes the
decimal representation of the product of its entries. -/
theorem multiplyMatrix_of_integers (ctx : Ctx) (vals : List (List Int)) (L : Nat)
    (hwf : ∀ r ∈ vals, r.length = L)
    (hctx : ∀ m, m ≤ vals.length → ctx m = none) :
    multiplyMatrix ctx (vals.map fun r => r.map toString) =
      { err := none, httpError := none,
        output := [[toString (vals.map List.prod).prod]], fs := [] } := by
  have hval : ∀ r : List Int, (r.map toString).map fieldValue = r := by
    intro r
    rw [List.map_map]
    conv_rhs => rw [← List.map_id r]
    apply List.map_congr_left
    intro n _
    exact (fieldValue_toString n).2
  have hprod : exactProduct (vals.map fun r => r.map toString)
      = (vals.map List.prod).prod := by
    unfold exactProduct
    rw [List.map_map]
    congr 1
    apply List.map_congr_left
    intro r _
    simp only [Function.comp_apply, hval]
  have h := multiplyLoop_ok ctx L (vals.map fun r => r.map toString) 0 0 1 one_ne_zero
    (Or.inl rfl)
    (by
      intro r hr
      obtain ⟨r', hr', rfl⟩ := List.mem_map.mp hr
      simpa using hwf r' hr')
    (by
      intro r hr num hnum
      obtain ⟨r', _, rfl⟩ := List.mem_map.mp hr
      obtain ⟨n, _, rfl⟩ := List.mem_map.mp hnum
      exact (fieldValue_toString n).1)
    (fun m _ hm => hctx m (by simpa using hm))
  rw [hprod] at h
  simpa [multiplyMatrix] using h

/-! ## The in-memory transposition of one block -/

theorem getElem?_range_map {α : Type} (n : Nat) (f : Nat → α) (m : Nat) :
    ((List.range n).map f)[m]? = if m < n then some (f m) else none := by
  by_cases h : m < n
  · simp [h, List.getElem?_range h]
  · simp [h, List.getElem?_eq_none (l := List.range n) (by simpa using h)]

theorem setCell_grid (cols rows : Nat) (g : Nat → Nat → String) (j i : Nat) (v : String)
    (hj : j < cols) :
    setCell (grid cols rows g) j i v
      = grid cols rows fun j' i' => if j' = j ∧ i' = i then v else g j' i' := by
  have hrow : (grid cols rows g)[j]? = some ((List.range rows).map fun i => g j i) := by
    simp [grid, getElem?_range_map, hj]
  simp only [setCell, hrow]
  apply List.ext_getElem?
  intro j'
  simp only [List.getElem?_set, grid, getElem?_range_map, List.length_map, List.length_range]
  by_cases hjj : j = j'
  · subst hjj
    simp only [if_true, hj, Option.some.injEq]
    apply List.ext_getElem?
    intro i'
    simp only [List.getElem?_set, getElem?_range_map, List.length_map, List.length_range,
      true_and]
    by_cases hii : i = i'
    · subst hii; simp
    · have hii' : ¬ i' = i := fun h => hii h.symm
      simp [hii, hii']
  · have hjj' : ¬ j' = j := fun h => hjj h.symm
    simp [hjj, hjj']

/-- The inner loop of `invertInMemory` for row `i`: after `k` columns. -/
theorem invertInMemory_inner (matrix : List Record) (cols rows i : Nat) (row : Record)
    (hrow : matrix[i]? = some row) (hlen : row.length = cols)
    (g : Nat → Nat → String) :
    ∀ k, k ≤ cols →
      (List.range k).foldlM (fun result j =>
        match matrix[i]? with
        | none => none
        | some row =>
          match row[j]? with
          | none => none
          | some v => some (setCell result j i v)) (grid cols rows g)
      = some (grid cols rows fun j' i' =>
          if i' = i ∧ j' < k then row.getD j' "" else g j' i') := by
  intro k
  induction k with
  | zero => intro _; simp
  | succ k ih =>
    intro hk
    have hk' : k < row.length := by omega
    rw [List.range_succ, List.foldlM_append, ih (by omega)]
    simp only [Option.bind_eq_bind, Option.some_bind, List.foldlM_cons, List.foldlM_nil, hrow,
      List.getElem?_eq_getElem hk', Option.pure_def, Option.bind_some]
    rw [setCell_grid _ _ _ _ _ _ (by omega)]
    congr 1
    unfold grid
    apply List.map_congr_left
    intro j' _
    apply List.map_congr_left
    intro i' _
    by_cases h1 : j' = k
    · subst h1
      by_cases h2 : i' = i
      · simp [h2, List.getD_eq_getElem?_getD, List.getElem?_eq_getElem hk']
      · simp [h2]
    · by_cases h2 : i' = i
      · have : j' < k + 1 ↔ j' < k := by omega
        simp [h1, h2, this]
      · simp [h1, h2]


theorem replicate_eq_grid (cols rows : Nat) :
    List.replicate cols (List.replicate rows "") = grid cols rows fun _ _ => "" := by
  unfold grid
  apply List.ext_getElem?
  intro j
  simp only [List.getElem?_replicate, getElem?_range_map]
  split
  · congr 1
    apply List.ext_getElem?
    intro i
    simp only [List.getElem?_replicate, getElem?_range_map]
  · rfl

/-- The outer loop of `invertInMemory`: after `k` rows. -/
theorem invertInMemory_outer (matrix : List Record) (cols : Nat)
    (hrect : ∀ row ∈ matrix, row.length = cols) (g : Nat → Nat → String) :
    ∀ k, k ≤ matrix.length →
      (List.range k).foldlM (fun result i =>
        (List.range cols).foldlM (fun result j =>
          match matrix[i]? with
          | none => none
          | some row =>
            match row[j]? with
            | none => none
            | some v => some (setCell result j i v)) result) (grid cols matrix.length g)
      = some (grid cols matrix.length fun j' i' =>
          if i' < k then (matrix.getD i' []).getD j' "" else g j' i') := by
  intro k
  induction k with
  | zero => intro _; simp
  | succ k ih =>
    intro hk
    have hk' : k < matrix.length := by omega
    have hrow : matrix[k]? = some matrix[k] := List.getElem?_eq_getElem hk'
    rw [List.range_succ, List.foldlM_append, ih (by omega)]
    simp only [Option.bind_eq_bind, Option.some_bind, List.foldlM_cons, List.foldlM_nil,
      Option.pure_def]
    have hinner := invertInMemory_inner matrix cols matrix.length k matrix[k] hrow
      (hrect _ (List.getElem_mem _))
      (fun j' i' => if i' < k then (matrix.getD i' []).getD j' "" else g j' i') cols
      (le_refl _)
    rw [Option.bind_eq_some]
    refine ⟨_, hinner, ?_⟩
    simp only [Option.some.injEq]
    unfold grid
    apply List.map_congr_left
    intro j' hj'
    apply List.map_congr_left
    intro i' _
    have hj'' : j' < cols := List.mem_range.mp hj'
    by_cases h1 : i' = k
    · subst h1
      simp [hj'', List.getD_eq_getElem?_getD, hrow]
    · have : i' < k + 1 ↔ i' < k := by omega
      simp [h1, this]

/-- On a block whose rows all have the same number of fields `invertInMemory`
returns the transpose of the block, cell `[j][i]` being `block[i][j]`. -/
theorem invertInMemory_eq_transpose (matrix : List Record) (L : Nat)
    (hrect : ∀ row ∈ matrix, row.length = L) :
    invertInMemory matrix = some (transpose matrix) := by
  cases matrix with
  | nil => rfl
  | cons first rest =>
    have hfirst : first.length = L := hrect _ (List.mem_cons_self _ _)
    have houter := invertInMemory_outer (first :: rest) first.length
      (fun row h => (hrect row h).trans hfirst.symm) (fun _ _ => "") (first :: rest).length
      (le_refl _)
    simp only [invertInMemory, replicate_eq_grid]
    rw [houter]
    congr 1
    simp only [transpose, grid]
    apply List.map_congr_left
    intro j _
    apply List.ext_getElem?
    intro i
    rw [getElem?_range_map]
    simp only [column, List.getElem?_map]
    by_cases hi : i < (first :: rest).length
    · have hi' : i < rest.length + 1 := by simpa using hi
      simp [hi', List.getD_eq_getElem?_getD, List.getElem?_eq_getElem hi]
    · have hi' : ¬ i < rest.length + 1 := by simpa using hi
      simp [hi', List.getElem?_eq_none (l := first :: rest) (by simpa using hi)]


/-! ## Reassembly: what `StreamOutput` reads from the shards -/

theorem getElem?_fillSlots (row : List Record) (f : Nat → Record) (s : Nat) :
    (fillSlots row f)[s]? = if s < row.length then some (row.getD s [] ++ f s) else none := by
  unfold fillSlots
  rw [getElem?_range_map]

theorem length_fillSlots (row : List Record) (f : Nat → Record) :
    (fillSlots row f).length = row.length := by
  simp [fillSlots]

theorem fillSlots_nil_fields (row : List Record) : fillSlots row (fun _ => []) = row := by
  apply List.ext_getElem?
  intro s
  rw [getElem?_fillSlots]
  by_cases h : s < row.length
  · simp [h, List.getD_eq_getElem?_getD, List.getElem?_eq_getElem h]
  · simp [h, List.getElem?_eq_none (l := row) (by simpa using h)]

theorem fillSlots_modify (row : List Record) (record : Record) (k : Nat)
    (f : Nat → Record) :
    fillSlots (row.modify (fun slot => slot ++ record) k) f
      = fillSlots row fun s => (if k = s then record else []) ++ f s := by
  apply List.ext_getElem?
  intro s
  simp only [getElem?_fillSlots, List.length_modify, List.getD_eq_getElem?_getD,
    List.getElem?_modify]
  by_cases h : s < row.length
  · by_cases hk : k = s
    · simp [h, hk, List.getElem?_eq_getElem h]
    · simp [h, hk, List.getElem?_eq_getElem h]
  · simp [h]

/-- The inner loop of `StreamOutput`: with `colNum > 0` it does not panic and
appends to every slot `s` the fields `slotFields colNum colIdx records s`. -/
theorem readFile_eq (colNum : Nat) (hcol : 0 < colNum) :
    ∀ (records : List Record) (colIdx : Nat) (row : List Record),
      readFile colNum colIdx records row
        = some (fillSlots row (slotFields colNum colIdx records)) := by
  intro records
  induction records with
  | nil =>
    intro colIdx row
    simp only [readFile]
    rw [show slotFields colNum colIdx [] = fun _ => [] from funext fun _ => rfl,
      fillSlots_nil_fields]
  | cons record records ih =>
    intro colIdx row
    by_cases hp : isPlaceholder record = true
    · simp only [readFile, hp, if_true]
      rw [ih]
      congr 2
      funext s
      simp [slotFields, hp]
    · have hc : ¬ colNum = 0 := by omega
      have hp' : isPlaceholder record = false := by simpa using hp
      simp only [readFile, hp', hc, if_false, Bool.false_eq_true]
      rw [ih, fillSlots_modify]
      congr 2
      funext s
      by_cases hs : colIdx % colNum = s
      · simp [slotFields, hp', hs]
      · simp [slotFields, hp', hs]

/-- The outer loop of `StreamOutput`: with `colNum > 0` it does not panic and
writes, after what was written before, the rows `emitted colNum files`. -/
theorem streamFiles_eq (colNum : Nat) (hcol : 0 < colNum) :
    ∀ (files : List (List Record)) (out : List Record),
      streamFiles colNum files out = some (out ++ emitted colNum files) := by
  intro files
  induction files with
  | nil => intro out; simp [streamFiles, emitted]
  | cons file files ih =>
    intro out
    cases hrb : readBack file with
    | nil => simp [streamFiles, emitted, hrb]
    | cons record records =>
      simp only [streamFiles, emitted, hrb, readFile_eq colNum hcol, ih, List.isEmpty_cons,
        Bool.false_eq_true, if_false, List.append_assoc]


/-! ## Sharding: what `ProcessBlock` writes -/

theorem colRangesLoop_length (cols : Nat) :
    ∀ (n currentCol : Nat), (colRangesLoop cols n currentCol).length = n := by
  intro n
  induction n with
  | zero => intro _; rfl
  | succ n ih => intro c; simp [colRangesLoop, ih]

theorem colRangesLoop_start_le (cols : Nat) :
    ∀ (n currentCol : Nat), ∀ range ∈ colRangesLoop cols n currentCol,
      currentCol ≤ range.1 := by
  intro n
  induction n with
  | zero => intro c range h; simp [colRangesLoop] at h
  | succ n ih =>
    intro c range h
    simp only [colRangesLoop, List.mem_cons] at h
    rcases h with h | h
    · subst h; exact le_refl _
    · exact le_trans (Nat.le_add_right _ _) (ih _ range h)

theorem zipWith_append_nil (ranges : List (Nat × Nat)) (files : List (List Record))
    (f : Nat × Nat → List Record) (hlen : files.length = ranges.length)
    (hf : ∀ range ∈ ranges, f range = []) :
    List.zipWith (fun range file => file ++ f range) ranges files = files := by
  induction ranges generalizing files with
  | nil =>
    cases files with
    | nil => rfl
    | cons _ _ => simp at hlen
  | cons range ranges ih =>
    cases files with
    | nil => simp at hlen
    | cons file files =>
      simp only [List.zipWith_cons_cons, hf range (List.mem_cons_self _ _), List.append_nil]
      rw [ih files (by simpa using hlen) (fun r hr => hf r (List.mem_cons_of_mem _ hr))]

/-- The loop over `fileIdx` of `ProcessBlock`, on the ranges `NewTempFileHelper`
computes: every file gets the records `appended invertedMatrix range` of its range
(the `break` skips only ranges that get nothing). -/
theorem writeShards_eq (invertedMatrix : List Record) (cols : Nat) :
    ∀ (n currentCol : Nat) (files : List (List Record)), files.length = n →
      writeShards invertedMatrix (colRangesLoop cols n currentCol) files
        = List.zipWith (fun range file => file ++ appended invertedMatrix range)
            (colRangesLoop cols n currentCol) files := by
  intro n
  induction n with
  | zero =>
    intro c files hlen
    have : files = [] := List.length_eq_zero.mp hlen
    subst this
    simp [colRangesLoop, writeShards]
  | succ n ih =>
    intro c files hlen
    cases files with
    | nil => simp at hlen
    | cons file files =>
      have hlen' : files.length = n := by simpa using hlen
      by_cases hstart : c ≥ invertedMatrix.length
      · have hall : ∀ range ∈ colRangesLoop cols (n + 1) c,
            appended invertedMatrix range = [] := by
          intro range hr
          have := colRangesLoop_start_le cols (n + 1) c range hr
          simp only [appended]
          rw [if_pos (by omega)]
        rw [zipWith_append_nil _ _ _ (by simp [colRangesLoop_length, hlen']) hall]
        simp only [colRangesLoop, writeShards, hstart, if_true]
      · simp only [colRangesLoop, writeShards, hstart, if_false, List.zipWith_cons_cons,
          ih _ files hlen', appended]
        congr 1
        by_cases hend : c + cols > invertedMatrix.length
        · have h1 : min (c + cols) invertedMatrix.length = invertedMatrix.length := by omega
          have h2 : c + cols - invertedMatrix.length + 1 - 1
              = c + cols - invertedMatrix.length := by omega
          simp only [hend, if_true, h1, h2, List.append_assoc]
        · have h1 : min (c + cols) invertedMatrix.length = c + cols := by omega
          have h2 : c + cols - invertedMatrix.length = 0 := by omega
          simp only [hend, if_false, h1, h2, Nat.zero_sub, List.replicate_zero,
            List.append_nil]

/-- Every shard whose range `[start, start + cols)` starts below `len(invertedMatrix)`
gets exactly `cols` records (rows and placeholders) per block. -/
theorem length_appended (invertedMatrix : List Record) (start cols : Nat)
    (hstart : start < invertedMatrix.length) :
    (appended invertedMatrix (start, start + cols)).length = cols := by
  simp only [appended]
  rw [if_neg (by omega)]
  simp only [List.length_append, List.length_take, List.length_drop, List.length_replicate]
  omega


/-! ## The read loop on a rectangular input -/

/-- On an input whose rows all have `L` fields, with a context that is not done
while it is read, the `BlockLoop` ends with `break BlockLoop` after `ProcessBlock`
has been applied to the blocks `blocksOf block src`, in order. -/
theorem blockLoop_finished (ctx : Ctx) (L : Nat) :
    ∀ (src : List Record) (n : Nat) (fieldsPerRecord : Int) (helper : TempFileHelper)
      (block : List Record),
      (fieldsPerRecord = 0 ∨ fieldsPerRecord = L) →
      (∀ r ∈ src, r.length = L) →
      (∀ m, n ≤ m → m ≤ n + src.length → ctx m = none) →
      blockLoop ctx n fieldsPerRecord helper block src =
        match processBlocks helper (blocksOf block src) with
        | some helper => .finished helper
        | none => .panicked := by
  intro src
  induction src with
  | nil =>
    intro n fpr helper block _ _ hctx
    have hc : ctx n = none := hctx n (le_refl _) (by omega)
    simp only [blockLoop, hc, blocksOf]
    split
    · simp only [processBlocks]
      cases helper.ProcessBlock block <;> rfl
    · rfl
  | cons r src ih =>
    intro n fpr helper block hfpr hrect hctx
    have hc : ctx n = none := hctx n (le_refl _) (by omega)
    have hcheck := checkFields_same fpr L r hfpr (hrect r (by simp))
    have hrect' : ∀ x ∈ src, x.length = L := fun x hx => hrect x (List.mem_cons_of_mem _ hx)
    have hctx' : ∀ m, n + 1 ≤ m → m ≤ n + 1 + src.length → ctx m = none :=
      fun m h1 h2 => hctx m (by omega) (by simp only [List.length_cons]; omega)
    simp only [blockLoop, hc, hcheck, blocksOf]
    split
    · simp only [processBlocks]
      cases helper.ProcessBlock (block ++ [r]) with
      | none => rfl
      | some th => exact ih _ _ th [] (Or.inr rfl) hrect' hctx'
    · exact ih _ _ helper _ (Or.inr rfl) hrect' hctx'

theorem flatten_blocksOf :
    ∀ (src block : List Record), (blocksOf block src).flatten = block ++ src := by
  intro src
  induction src with
  | nil =>
    intro block
    simp only [blocksOf]
    split
    · simp
    · have : block = [] := List.length_eq_zero.mp (by omega)
      simp [this]
  | cons r src ih =>
    intro block
    simp only [blocksOf]
    split
    · simp [ih]
    · simp [ih]

theorem blocksOf_ne_nil :
    ∀ (src block : List Record), ∀ b ∈ blocksOf block src, b ≠ [] := by
  intro src
  induction src with
  | nil =>
    intro block b hb
    simp only [blocksOf] at hb
    split at hb
    · simp only [List.mem_singleton] at hb
      subst hb
      exact List.length_pos.mp (by assumption)
    · simp at hb
  | cons r src ih =>
    intro block b hb
    simp only [blocksOf] at hb
    split at hb
    · rcases List.mem_cons.mp hb with h | h
      · subst h; simp
      · exact ih _ b h
    · exact ih _ b hb

theorem blocksOf_length_le :
    ∀ (src block : List Record), block.length < blockSize →
      ∀ b ∈ blocksOf block src, b.length ≤ blockSize := by
  intro src
  induction src with
  | nil =>
    intro block hlen b hb
    simp only [blocksOf] at hb
    split at hb
    · simp only [List.mem_singleton] at hb
      subst hb
      omega
    · simp at hb
  | cons r src ih =>
    intro block hlen b hb
    simp only [blocksOf] at hb
    split at hb
    · rename_i heq
      rcases List.mem_cons.mp hb with h | h
      · subst h; omega
      · exact ih [] (by simp [blockSize]) b h
    · rename_i hne
      have : (block ++ [r]).length < blockSize := by
        simp only [List.length_append, List.length_singleton] at hne ⊢
        omega
      exact ih _ this b hb


theorem zipWith_append_append (ranges : List (Nat × Nat)) (files : List (List Record))
    (A B : Nat × Nat → List Record) :
    List.zipWith (fun range file => file ++ B range) ranges
        (List.zipWith (fun range file => file ++ A range) ranges files)
      = List.zipWith (fun range file => file ++ (A range ++ B range)) ranges files := by
  induction ranges generalizing files with
  | nil => simp
  | cons range ranges ih =>
    cases files with
    | nil => simp
    | cons file files => simp [ih, List.append_assoc]

/-- The method `ProcessBlock` on a block whose rows all have the same number of
fields: every temporary file gets the records `appended (transpose block) range`
of its column range. -/
theorem ProcessBlock_eq (th : TempFileHelper) (cols n currentCol L : Nat)
    (block : List Record)
    (hranges : th.colRanges = colRangesLoop cols n currentCol)
    (hfiles : th.tempFiles.length = n) (hrect : ∀ r ∈ block, r.length = L) :
    th.ProcessBlock block = some { th with
      tempFiles := List.zipWith (fun range file => file ++ appended (transpose block) range)
        th.colRanges th.tempFiles } := by
  simp only [TempFileHelper.ProcessBlock, invertInMemory_eq_transpose block L hrect]
  rw [hranges, writeShards_eq _ _ _ _ _ hfiles]

/-- After `ProcessBlock` has been applied to blocks whose rows all have the same
number of fields, every temporary file holds, after what it held before, the
records appended for each block, in block order. -/
theorem processBlocks_eq (cols n currentCol L : Nat) :
    ∀ (blocks : List (List Record)) (th : TempFileHelper),
      th.colRanges = colRangesLoop cols n currentCol → th.tempFiles.length = n →
      (∀ b ∈ blocks, ∀ r ∈ b, r.length = L) →
      processBlocks th blocks = some { th with
        tempFiles := List.zipWith
          (fun range file => file ++ blocks.flatMap fun b => appended (transpose b) range)
          th.colRanges th.tempFiles } := by
  intro blocks
  induction blocks with
  | nil =>
    intro th hranges hfiles _
    simp only [processBlocks, List.flatMap_nil]
    rw [zipWith_append_nil _ _ (fun _ => [])
      (by rw [hranges, colRangesLoop_length, hfiles]) (fun _ _ => rfl)]
  | cons b blocks ih =>
    intro th hranges hfiles hrect
    have hb := ProcessBlock_eq th cols n currentCol L b hranges hfiles
      (hrect b (List.mem_cons_self _ _))
    simp only [processBlocks, hb]
    rw [ih { th with
        tempFiles := List.zipWith (fun range file => file ++ appended (transpose b) range)
          th.colRanges th.tempFiles } hranges
      (by simp [List.length_zipWith, hranges, colRangesLoop_length, hfiles])
      (fun b' hb' => hrect b' (List.mem_cons_of_mem _ hb'))]
    simp only [zipWith_append_append, List.flatMap_cons]


/-! ## Slots: how shard records line up with columns -/

theorem slotFields_append (colNum : Nat) (s : Nat) :
    ∀ (A B : List Record) (colIdx : Nat),
      slotFields colNum colIdx (A ++ B) s
        = slotFields colNum colIdx A s ++ slotFields colNum (colIdx + A.length) B s := by
  intro A
  induction A with
  | nil => intro B colIdx; simp [slotFields]
  | cons a A ih =>
    intro B colIdx
    have hidx : colIdx + (a :: A).length = colIdx + 1 + A.length := by
      simp only [List.length_cons]; omega
    rw [hidx]
    simp only [List.cons_append, slotFields, List.append_eq, ih, List.append_assoc]

/-- Within one run of at most `colNum` records that starts at a loop index
divisible by `colNum`, slot `s` receives the record at position `s` of the run. -/
theorem slotFields_run (colNum colIdx s : Nat) (hidx : colIdx % colNum = 0) :
    ∀ (A : List Record) (k : Nat), k + A.length ≤ colNum →
      slotFields colNum (colIdx + k) A s
        = if k ≤ s then contribution A[s - k]? else [] := by
  intro A
  induction A with
  | nil =>
    intro k _
    simp [slotFields, contribution]
  | cons a A ih =>
    intro k hk
    simp only [List.length_cons] at hk
    have hmod : (colIdx + k) % colNum = k := by
      rw [Nat.add_mod, hidx, Nat.zero_add, Nat.mod_mod, Nat.mod_eq_of_lt (by omega)]
    have hstep : slotFields colNum (colIdx + k) (a :: A) s
        = (if !isPlaceholder a && k == s then a else [])
          ++ slotFields colNum (colIdx + (k + 1)) A s := by
      simp only [slotFields, hmod]
      rfl
    rw [hstep, ih (k + 1) (by omega)]
    rcases Nat.lt_trichotomy k s with h | h | h
    · have hbeq : (k == s) = false := by simpa using (show k ≠ s by omega)
      have h2 : k ≤ s := by omega
      have h3 : k + 1 ≤ s := by omega
      have h4 : s - k = (s - (k + 1)) + 1 := by omega
      simp only [hbeq, Bool.and_false, Bool.false_eq_true, if_false, List.nil_append, h2, h3,
        if_true, h4, List.getElem?_cons_succ]
    · subst h
      have h3 : ¬ k + 1 ≤ k := by omega
      simp only [beq_self_eq_true, Bool.and_true, h3, if_false, List.append_nil, le_refl,
        if_true, Nat.sub_self, List.getElem?_cons_zero, contribution]
      cases isPlaceholder a <;> simp
    · have hbeq : (k == s) = false := by simpa using (show k ≠ s by omega)
      have h2 : ¬ k ≤ s := by omega
      have h3 : ¬ k + 1 ≤ s := by omega
      simp only [hbeq, Bool.and_false, Bool.false_eq_true, if_false, List.nil_append, h2, h3]

/-- A shard file made of runs of exactly `colNum` records, one per block: slot `s`
receives, in block order, record `s` of every run. -/
theorem slotFields_flatMap (colNum s : Nat) (run : List Record → List Record) :
    ∀ (blocks : List (List Record)) (colIdx : Nat), colIdx % colNum = 0 →
      (∀ b ∈ blocks, (run b).length = colNum) →
      slotFields colNum colIdx (blocks.flatMap run) s
        = blocks.flatMap fun b => contribution (run b)[s]? := by
  intro blocks
  induction blocks with
  | nil => intro colIdx _ _; simp [slotFields]
  | cons b blocks ih =>
    intro colIdx hidx hlen
    have hb : (run b).length = colNum := hlen b (List.mem_cons_self _ _)
    rw [List.flatMap_cons, List.flatMap_cons, slotFields_append, hb,
      ih (colIdx + colNum) (by rw [Nat.add_mod, hidx]; simp)
        (fun b' hb' => hlen b' (List.mem_cons_of_mem _ hb'))]
    congr 1
    have := slotFields_run colNum colIdx s hidx (run b) 0 (by omega)
    simpa using this


theorem transpose_eq_map (block : List Record) (L : Nat) (hne : block ≠ [])
    (hrect : ∀ r ∈ block, r.length = L) :
    transpose block = (List.range L).map (column block) := by
  cases block with
  | nil => exact absurd rfl hne
  | cons first rest =>
    simp only [transpose, hrect first (List.mem_cons_self _ _)]

theorem length_column (block : List Record) (j : Nat) :
    (column block j).length = block.length := by
  simp [column]

/-- A column of a non-empty block without blank fields is written to its shard as
a record that is read back (it is not a blank line) and is not taken for a
placeholder. -/
theorem column_plain (block : List Record) (L j : Nat) (hne : block ≠ [])
    (hrect : ∀ r ∈ block, r.length = L) (hnb : nonBlank block) (hj : j < L) :
    isPlaceholder (column block j) = false ∧ column block j ≠ [] ∧
      column block j ≠ [""] := by
  cases block with
  | nil => exact absurd rfl hne
  | cons x rest =>
    cases rest with
    | nil =>
      have hx : j < x.length := by rw [hrect x (List.mem_cons_self _ _)]; exact hj
      have hget : x.getD j "" = x[j] := by
        simp [List.getD_eq_getElem?_getD, List.getElem?_eq_getElem hx]
      have hfield : trimSpace x[j] ≠ "" :=
        hnb x (List.mem_cons_self _ _) _ (List.getElem_mem _)
      simp only [column, List.map_cons, List.map_nil, hget, isPlaceholder]
      refine ⟨by simpa using hfield, by simp, ?_⟩
      intro h
      simp only [List.cons.injEq, and_true] at h
      rw [h] at hfield
      exact hfield (by decide)
    | cons y rest =>
      simp [column, isPlaceholder]

/-- Record `s` of the run that `ProcessBlock` appends to the shard with range
`[start, start + cols)`: row `start + s` of the in-memory transpose if there is
one, a placeholder otherwise. -/
theorem getElem?_appended (invertedMatrix : List Record) (start cols s : Nat)
    (hstart : start < invertedMatrix.length) (hs : s < cols) :
    (appended invertedMatrix (start, start + cols))[s]?
      = if start + s < invertedMatrix.length then invertedMatrix[start + s]?
        else some placeholder := by
  simp only [appended]
  rw [if_neg (by omega)]
  have hlen : ((invertedMatrix.drop start).take
      (min (start + cols) invertedMatrix.length - start)).length
        = min (start + cols) invertedMatrix.length - start := by
    simp only [List.length_take, List.length_drop]
    omega
  rw [List.getElem?_append, hlen]
  by_cases h : start + s < invertedMatrix.length
  · have h1 : s < min (start + cols) invertedMatrix.length - start := by omega
    simp only [h1, h, if_true, List.getElem?_take, List.getElem?_drop]
  · have h1 : ¬ s < min (start + cols) invertedMatrix.length - start := by omega
    have h2 : s - (min (start + cols) invertedMatrix.length - start)
        < start + cols - invertedMatrix.length := by omega
    simp only [h1, h, if_false, List.getElem?_replicate, h2, if_true]

theorem flatMap_column (blocks : List (List Record)) (j : Nat) :
    (blocks.flatMap fun b => column b j) = column blocks.flatten j := by
  induction blocks with
  | nil => rfl
  | cons b blocks ih =>
    rw [List.flatMap_cons, ih, List.flatten_cons]
    simp [column]

theorem readBack_plain (file : List Record) (h : ∀ r ∈ file, r ≠ [] ∧ r ≠ [""])
    (hcr : ∀ r ∈ file, ∀ f ∈ r, readField f = f) :
    readBack file = file := by
  unfold readBack
  have hfilter : (file.filter fun record => !(record == [] || record == [""])) = file := by
    rw [List.filter_eq_self]
    intro r hr
    obtain ⟨h1, h2⟩ := h r hr
    simp [h1, h2]
  have hmap : ∀ r ∈ file, r.map readField = id r := by
    intro r hr
    conv_rhs => rw [id, ← List.map_id r]
    exact List.map_congr_left (fun f hf => hcr r hr f hf)
  rw [hfilter, List.map_congr_left hmap, List.map_id]


/-! ## One shard, from the blocks to the rows read back -/

theorem length_transpose (block : List Record) (L : Nat) (hne : block ≠ [])
    (hrect : ∀ r ∈ block, r.length = L) : (transpose block).length = L := by
  rw [transpose_eq_map block L hne hrect]
  simp

theorem getElem?_transpose (block : List Record) (L j : Nat) (hne : block ≠ [])
    (hrect : ∀ r ∈ block, r.length = L) (hj : j < L) :
    (transpose block)[j]? = some (column block j) := by
  rw [transpose_eq_map block L hne hrect, getElem?_range_map, if_pos hj]

theorem mem_transpose (block : List Record) (L : Nat) (hne : block ≠ [])
    (hrect : ∀ r ∈ block, r.length = L) (r : Record) (hr : r ∈ transpose block) :
    ∃ j, j < L ∧ r = column block j := by
  rw [transpose_eq_map block L hne hrect] at hr
  obtain ⟨j, hj, rfl⟩ := List.mem_map.mp hr
  exact ⟨j, List.mem_range.mp hj, rfl⟩

/-- A shard whose range starts at or after the number of columns gets no record. -/
theorem shard_inactive (blocks : List (List Record)) (L : Nat) (range : Nat × Nat)
    (hne : ∀ b ∈ blocks, b ≠ []) (hrect : ∀ b ∈ blocks, ∀ r ∈ b, r.length = L)
    (hstart : L ≤ range.1) :
    (blocks.flatMap fun b => appended (transpose b) range) = [] := by
  induction blocks with
  | nil => rfl
  | cons b blocks ih =>
    rw [List.flatMap_cons,
      ih (fun b' hb' => hne b' (List.mem_cons_of_mem _ hb'))
        (fun b' hb' => hrect b' (List.mem_cons_of_mem _ hb'))]
    have hlen := length_transpose b L (hne b (List.mem_cons_self _ _))
      (hrect b (List.mem_cons_self _ _))
    simp only [appended, List.append_nil]
    rw [if_pos (by omega)]

/-- Every record of a shard of an input without blank fields is read back: none
is written as a blank line. -/
theorem shard_readBack (blocks : List (List Record)) (L : Nat) (range : Nat × Nat)
    (hne : ∀ b ∈ blocks, b ≠ []) (hrect : ∀ b ∈ blocks, ∀ r ∈ b, r.length = L)
    (hnb : ∀ b ∈ blocks, nonBlank b) (hcr : ∀ b ∈ blocks, plainNewlines b) :
    readBack (blocks.flatMap fun b => appended (transpose b) range)
      = blocks.flatMap fun b => appended (transpose b) range := by
  have hrow : ∀ r ∈ blocks.flatMap (fun b => appended (transpose b) range),
      (∃ b ∈ blocks, ∃ j, j < L ∧ r = column b j) ∨ r = placeholder := by
    intro r hr
    obtain ⟨b, hb, hrb⟩ := List.mem_flatMap.mp hr
    simp only [appended] at hrb
    split at hrb
    · simp at hrb
    · rcases List.mem_append.mp hrb with h | h
      · have hmem : r ∈ transpose b := List.mem_of_mem_drop (List.mem_of_mem_take h)
        obtain ⟨j, hj, rfl⟩ := mem_transpose b L (hne b hb) (hrect b hb) r hmem
        exact Or.inl ⟨b, hb, j, hj, rfl⟩
      · exact Or.inr (List.mem_replicate.mp h).2
  apply readBack_plain
  · intro r hr
    rcases hrow r hr with ⟨b, hb, j, hj, rfl⟩ | rfl
    · exact (column_plain b L j (hne b hb) (hrect b hb) (hnb b hb) hj).2
    · decide
  · intro r hr f hf
    rcases hrow r hr with ⟨b, hb, j, hj, rfl⟩ | rfl
    · obtain ⟨row, hrowmem, rfl⟩ := List.mem_map.mp hf
      have hlt : j < row.length := by rw [hrect b hb row hrowmem]; exact hj
      have hget : row.getD j "" = row[j] := by
        simp [List.getD_eq_getElem?_getD, List.getElem?_eq_getElem hlt]
      rw [hget]
      exact hcr b hb row hrowmem _ (List.getElem_mem _)
    · have hf' : f = " " := by simpa [placeholder] using hf
      subst hf'
      decide

/-- Slot `s` of an active shard with range `[start, start + cols)`: once every
block is read back it holds column `start + s` of the whole input if there is
such a column, and nothing otherwise. -/
theorem shard_slot (blocks : List (List Record)) (L start cols s : Nat)
    (hne : ∀ b ∈ blocks, b ≠ []) (hrect : ∀ b ∈ blocks, ∀ r ∈ b, r.length = L)
    (hnb : ∀ b ∈ blocks, nonBlank b) (hstart : start < L) (hs : s < cols) :
    slotFields cols 0 (blocks.flatMap fun b => appended (transpose b) (start, start + cols)) s
      = if start + s < L then column blocks.flatten (start + s) else [] := by
  have hrun : ∀ b ∈ blocks,
      (appended (transpose b) (start, start + cols)).length = cols := by
    intro b hb
    apply length_appended
    rw [length_transpose b L (hne b hb) (hrect b hb)]
    exact hstart
  rw [slotFields_flatMap cols s _ blocks 0 (Nat.zero_mod _) hrun]
  have hcontrib : ∀ b ∈ blocks,
      contribution (appended (transpose b) (start, start + cols))[s]?
        = if start + s < L then column b (start + s) else [] := by
    intro b hb
    have hlen := length_transpose b L (hne b hb) (hrect b hb)
    rw [getElem?_appended _ _ _ _ (by omega) hs, hlen]
    by_cases h : start + s < L
    · rw [if_pos h, if_pos h, getElem?_transpose b L _ (hne b hb) (hrect b hb) h]
      simp only [contribution,
        (column_plain b L _ (hne b hb) (hrect b hb) (hnb b hb) h).1, Bool.false_eq_true,
        if_false]
    · rw [if_neg h, if_neg h]
      rfl
  rw [List.flatMap_def, List.map_congr_left hcontrib, ← List.flatMap_def]
  by_cases h : start + s < L
  · simp only [h, if_true, flatMap_column]
  · simp only [h, if_false]
    induction blocks with
    | nil => rfl
    | cons b blocks ih => simp [List.flatMap_cons]


/-- The rows `StreamOutput` writes for an active shard with range
`[start, start + cols)`. -/
theorem shard_rows (blocks : List (List Record)) (L start cols : Nat)
    (hne : ∀ b ∈ blocks, b ≠ []) (hrect : ∀ b ∈ blocks, ∀ r ∈ b, r.length = L)
    (hnb : ∀ b ∈ blocks, nonBlank b) (hcr : ∀ b ∈ blocks, plainNewlines b)
    (hstart : start < L) :
    fillSlots (List.replicate cols [])
        (slotFields cols 0
          (readBack (blocks.flatMap fun b => appended (transpose b) (start, start + cols))))
      = (List.range cols).map fun s => outputRow blocks.flatten L (start + s) := by
  rw [shard_readBack blocks L _ hne hrect hnb hcr]
  simp only [fillSlots, List.length_replicate]
  apply List.map_congr_left
  intro s hs
  have hs' : s < cols := List.mem_range.mp hs
  rw [shard_slot blocks L start cols s hne hrect hnb hstart hs']
  simp [outputRow, List.getD_eq_getElem?_getD, List.getElem?_replicate, hs']

/-- An active shard of a non-empty input is not empty when it is read back. -/
theorem shard_isEmpty (blocks : List (List Record)) (L start cols : Nat)
    (hblocks : blocks ≠ [])
    (hne : ∀ b ∈ blocks, b ≠ []) (hrect : ∀ b ∈ blocks, ∀ r ∈ b, r.length = L)
    (hnb : ∀ b ∈ blocks, nonBlank b) (hcr : ∀ b ∈ blocks, plainNewlines b)
    (hstart : start < L) (hcols : 0 < cols) :
    (readBack (blocks.flatMap fun b => appended (transpose b) (start, start + cols))).isEmpty
      = false := by
  rw [shard_readBack blocks L _ hne hrect hnb hcr]
  cases blocks with
  | nil => exact absurd rfl hblocks
  | cons b blocks =>
    have hlen : (appended (transpose b) (start, start + cols)).length = cols := by
      apply length_appended
      rw [length_transpose b L (hne b (List.mem_cons_self _ _))
        (hrect b (List.mem_cons_self _ _))]
      exact hstart
    rw [List.flatMap_cons]
    cases happ : appended (transpose b) (start, start + cols) with
    | nil => rw [happ] at hlen; simp at hlen; omega
    | cons r rs => rfl

theorem map_range_append (g : Nat → Record) (a b : Nat) :
    ((List.range a).map fun s => g s) ++ ((List.range b).map fun s => g (a + s))
      = (List.range (a + b)).map g := by
  rw [List.range_add, List.map_append, List.map_map]
  rfl

/-- The first `N ≥ C` slots of the output are the `C` columns followed by `N - C`
rows without fields. -/
theorem map_outputRow (src : List Record) (C N : Nat) (h : C ≤ N) :
    (List.range N).map (outputRow src C)
      = (List.range C).map (column src) ++ List.replicate (N - C) [] := by
  apply List.ext_getElem?
  intro j
  rw [getElem?_range_map, List.getElem?_append, getElem?_range_map]
  simp only [List.length_map, List.length_range, List.getElem?_replicate, outputRow]
  by_cases h1 : j < C
  · have h2 : j < N := by omega
    simp [h1, h2]
  · by_cases h2 : j < N
    · have h3 : j - C < N - C := by omega
      simp [h1, h2, h3]
    · have h3 : ¬ j - C < N - C := by omega
      simp [h1, h2, h3]


/-! ## The whole pipeline on a rectangular input without blank fields -/

theorem emitted_shards (blocks : List (List Record)) (L w : Nat)
    (hblocks : blocks ≠ [])
    (hne : ∀ b ∈ blocks, b ≠ []) (hrect : ∀ b ∈ blocks, ∀ r ∈ b, r.length = L)
    (hnb : ∀ b ∈ blocks, nonBlank b) (hcr : ∀ b ∈ blocks, plainNewlines b)
    (hL : 0 < L) (hw : 0 < w) (hle : L ≤ 3 * w) :
    emitted w
        [blocks.flatMap fun b => appended (transpose b) (0, 0 + w),
         blocks.flatMap fun b => appended (transpose b) (0 + w, 0 + w + w),
         blocks.flatMap fun b => appended (transpose b) (0 + w + w, 0 + w + w + w)]
      = (List.range L).map (column blocks.flatten) ++
        List.replicate
          ((if 2 * w < L then 3 else if w < L then 2 else 1) * w - L) [] := by
  have h0 := shard_rows blocks L 0 w hne hrect hnb hcr hL
  have e0 := shard_isEmpty blocks L 0 w hblocks hne hrect hnb hcr hL hw
  simp only [emitted, e0, Bool.false_eq_true, if_false, h0]
  by_cases h1 : w < L
  · have h1' : 0 + w < L := by omega
    have r1 := shard_rows blocks L (0 + w) w hne hrect hnb hcr h1'
    have e1 := shard_isEmpty blocks L (0 + w) w hblocks hne hrect hnb hcr h1' hw
    simp only [e1, Bool.false_eq_true, if_false, r1]
    by_cases h2 : 2 * w < L
    · have h2' : 0 + w + w < L := by omega
      have r2 := shard_rows blocks L (0 + w + w) w hne hrect hnb hcr h2'
      have e2 := shard_isEmpty blocks L (0 + w + w) w hblocks hne hrect hnb hcr h2' hw
      simp only [e2, Bool.false_eq_true, if_false, r2, List.append_nil, h2, if_true]
      have hcat := map_range_append (outputRow blocks.flatten L) w w
      have hcat2 := map_range_append (outputRow blocks.flatten L) (w + w) w
      simp only [Nat.zero_add] at hcat hcat2 ⊢
      rw [← List.append_assoc, hcat, hcat2,
        map_outputRow blocks.flatten L (w + w + w) (by omega)]
      congr 2
      omega
    · have h2' : L ≤ (0 + w + w, 0 + w + w + w).1 := by simp only; omega
      have i2 := shard_inactive blocks L (0 + w + w, 0 + w + w + w) hne hrect h2'
      rw [i2]
      simp only [readBack, List.filter_nil, List.map_nil, List.isEmpty_nil, if_true, List.append_nil, h2,
        h1, if_false]
      have hcat := map_range_append (outputRow blocks.flatten L) w w
      simp only [Nat.zero_add] at hcat ⊢
      rw [hcat, map_outputRow blocks.flatten L (w + w) (by omega)]
      congr 2
      omega
  · have h1' : L ≤ (0 + w, 0 + w + w).1 := by simp only; omega
    have i1 := shard_inactive blocks L (0 + w, 0 + w + w) hne hrect h1'
    have h2 : ¬ 2 * w < L := by omega
    rw [i1]
    simp only [readBack, List.filter_nil, List.map_nil, List.isEmpty_nil, if_true, List.append_nil, h2,
      h1, if_false]
    simp only [Nat.zero_add]
    rw [map_outputRow blocks.flatten L w (by omega)]
    congr 2
    omega


theorem activeShards_eq (C : Nat) (hC : 0 < C) :
    activeShards C
      = if 2 * shardWidth C < C then 3 else if shardWidth C < C then 2 else 1 := by
  unfold activeShards
  rw [colRanges_eq]
  generalize shardWidth C = w
  by_cases h1 : w < C
  · by_cases h2 : 2 * w < C
    · simp [List.filter, hC, h1, h2]
    · simp [List.filter, hC, h1, h2]
  · have h2 : ¬ 2 * w < C := by omega
    simp [List.filter, hC, h1, h2]

/-- On a rectangular input with at least one row and one column and no blank
field, with a context that is not done while the input is read, `invertMatrix`
returns `nil` and `StreamOutput` writes the columns of the input, in column order,
followed by `padding C` rows without fields. -/
theorem invertMatrix_rectangular (ctx : Ctx) (first : Record) (rest : List Record)
    (hfirst : first ≠ [])
    (hrect : ∀ r ∈ first :: rest, r.length = first.length)
    (hnb : nonBlank (first :: rest)) (hcr : plainNewlines (first :: rest))
    (hctx : ∀ m, m ≤ (first :: rest).length → ctx m = none) :
    invertMatrix ctx (first :: rest) =
      { err := none, httpError := none,
        output := transpose (first :: rest) ++ List.replicate (padding first.length) [],
        fs := createdOnly } := by
  have hC : 0 < first.length := List.length_pos.mpr hfirst
  obtain ⟨hle, -, -⟩ := shardWidth_bounds first.length
  have hw : 0 < shardWidth first.length := by omega
  have hflat := flatten_blocksOf (first :: rest) []
  have hne := blocksOf_ne_nil (first :: rest) []
  have hmem : ∀ b ∈ blocksOf [] (first :: rest), ∀ r ∈ b, r ∈ first :: rest := by
    intro b hb r hr
    have : r ∈ (blocksOf [] (first :: rest)).flatten := List.mem_flatten.mpr ⟨b, hb, hr⟩
    simpa [hflat] using this
  have hrectB : ∀ b ∈ blocksOf [] (first :: rest), ∀ r ∈ b, r.length = first.length :=
    fun b hb r hr => hrect r (hmem b hb r hr)
  have hnbB : ∀ b ∈ blocksOf [] (first :: rest), nonBlank b :=
    fun b hb r hr => hnb r (hmem b hb r hr)
  have hcrB : ∀ b ∈ blocksOf [] (first :: rest), plainNewlines b :=
    fun b hb r hr => hcr r (hmem b hb r hr)
  have hblocks : blocksOf [] (first :: rest) ≠ [] := by
    intro h
    rw [h] at hflat
    simp at hflat
  have hloop := blockLoop_finished ctx first.length (first :: rest) 0 0
    (NewTempFileHelper first.length) [] (Or.inl rfl) hrect
    (fun m _ h => hctx m (by omega))
  have hproc := processBlocks_eq (shardWidth first.length) tmpFileCount 0 first.length
    (blocksOf [] (first :: rest)) (NewTempFileHelper first.length) rfl rfl hrectB
  rw [hproc] at hloop
  have hemit := emitted_shards (blocksOf [] (first :: rest)) first.length
    (shardWidth first.length) hblocks hne hrectB hnbB hcrB hC hw hle
  have hfiles : List.zipWith
      (fun range file => file ++
        (blocksOf [] (first :: rest)).flatMap fun b => appended (transpose b) range)
      (NewTempFileHelper first.length).colRanges (NewTempFileHelper first.length).tempFiles
      = [(blocksOf [] (first :: rest)).flatMap fun b =>
            appended (transpose b) (0, 0 + shardWidth first.length),
         (blocksOf [] (first :: rest)).flatMap fun b =>
            appended (transpose b)
              (0 + shardWidth first.length,
               0 + shardWidth first.length + shardWidth first.length),
         (blocksOf [] (first :: rest)).flatMap fun b =>
            appended (transpose b)
              (0 + shardWidth first.length + shardWidth first.length,
               0 + shardWidth first.length + shardWidth first.length
                 + shardWidth first.length)] := by
    rfl
  simp only [invertMatrix, hloop, TempFileHelper.StreamOutput, hfiles, colNum_eq,
    streamFiles_eq _ hw, hemit, List.nil_append, hflat, padding,
    activeShards_eq first.length hC, createdOnly]
  rfl

/-! ## `sumMatrix` on a field that is not a number -/

theorem sumRecord_error :
    ∀ (record : Record) (sum : Int) (num : String),
      record.find? (fun num => !decide (isNumber num)) = some num →
      sumRecord record sum = .error num := by
  intro record
  induction record with
  | nil => intro sum num h; simp at h
  | cons f record ih =>
    intro sum num h
    by_cases hf : isNumber f
    · have hnum := setString_of_isNumber f hf
      simp only [List.find?_cons, hf, decide_True, Bool.not_true] at h
      simp only [sumRecord, hnum]
      exact ih _ num h
    · simp only [List.find?_cons, hf, decide_False, Bool.not_false, Option.some.injEq] at h
      subst h
      have hnone : setString (trimSpace f) = none := by
        simpa [isNumber] using hf
      simp only [sumRecord, hnone]

theorem firstNonNumber_cons_of_numbers (record : Record) (src : List Record)
    (h : ∀ num ∈ record, isNumber num) :
    firstNonNumber (record :: src) = firstNonNumber src := by
  have hnone : record.find? (fun num => !decide (isNumber num)) = none := by
    rw [List.find?_eq_none]
    intro x hx
    simp [h x hx]
  simp only [firstNonNumber, List.flatten_cons, List.find?_append, hnone, Option.none_or]

theorem firstNonNumber_cons_of_some (record : Record) (src : List Record) (num : String)
    (h : record.find? (fun num => !decide (isNumber num)) = some num) :
    firstNonNumber (record :: src) = some num := by
  simp only [firstNonNumber, List.flatten_cons, List.find?_append, h]
  rfl

/-- A record either holds only numbers or has a first field that is not one. -/
theorem numbers_or_first (record : Record) :
    (∀ num ∈ record, isNumber num) ∨
      ∃ num, record.find? (fun num => !decide (isNumber num)) = some num := by
  cases h : record.find? (fun num => !decide (isNumber num)) with
  | none =>
    left
    rw [List.find?_eq_none] at h
    intro x hx
    simpa using h x hx
  | some num => exact Or.inr ⟨num, rfl⟩

/-- The first field that is not a number ends the loop of `sumMatrix` with the
error that names it, when the context is not done before its row is read. -/
theorem sumLoop_notNumber (ctx : Ctx) (L : Nat) :
    ∀ (src : List Record) (n : Nat) (fieldsPerRecord : Int) (sum : Int) (k : Nat)
      (row : Record),
      (fieldsPerRecord = 0 ∨ fieldsPerRecord = L) →
      (∀ r ∈ src, r.length = L) →
      src[k]? = some row → (∃ num ∈ row, ¬ isNumber num) →
      (∀ m, n ≤ m → m ≤ n + k → ctx m = none) →
      ∃ num, firstNonNumber src = some num ∧
        sumLoop ctx n fieldsPerRecord sum src =
          { err := some (.http 400 (num ++ " is not a number")), httpError := none,
            output := [], fs := [] } := by
  intro src
  induction src with
  | nil => intro n fpr sum k row _ _ hrow; simp at hrow
  | cons r src ih =>
    intro n fpr sum k row hfpr hwf hrow hbad hctx
    have hc : ctx n = none := hctx n (le_refl _) (by omega)
    have hcheck := checkFields_same fpr L r hfpr (hwf r (by simp))
    rcases numbers_or_first r with hnum | ⟨num, hfirst⟩
    · cases k with
      | zero =>
        simp only [List.getElem?_cons_zero, Option.some.injEq] at hrow
        subst hrow
        obtain ⟨num, hmem, hnot⟩ := hbad
        exact absurd (hnum num hmem) hnot
      | succ k =>
        simp only [List.getElem?_cons_succ] at hrow
        obtain ⟨num, hfn, hloop⟩ := ih (n + 1) L (sum + (r.map fieldValue).sum) k row
          (Or.inr rfl) (fun x hx => hwf x (List.mem_cons_of_mem _ hx)) hrow hbad
          (fun m h1 h2 => hctx m (by omega) (by omega))
        refine ⟨num, ?_, ?_⟩
        · rw [firstNonNumber_cons_of_numbers r src hnum, hfn]
        · simp only [sumLoop, hc, hcheck, sumRecord_ok r sum hnum, hloop]
    · refine ⟨num, firstNonNumber_cons_of_some r src num hfirst, ?_⟩
      simp only [sumLoop, hc, hcheck, sumRecord_error r sum num hfirst]

/-- Whatever the context does, `sumMatrix` writes nothing when some field is not a
number. -/
theorem sumLoop_no_output (ctx : Ctx) :
    ∀ (src : List Record) (n : Nat) (fieldsPerRecord : Int) (sum : Int),
      (∃ r ∈ src, ∃ num ∈ r, ¬ isNumber num) →
      (sumLoop ctx n fieldsPerRecord sum src).output = [] := by
  intro src
  induction src with
  | nil => intro n fpr sum h; simp at h
  | cons r src ih =>
    intro n fpr sum hbad
    simp only [sumLoop]
    cases ctx n with
    | some e => rfl
    | none =>
      cases checkFields fpr r with
      | none => rfl
      | some fpr' =>
        rcases numbers_or_first r with hnum | ⟨num, hfirst⟩
        · simp only [sumRecord_ok r sum hnum]
          apply ih
          obtain ⟨r', hr', num, hmem, hnot⟩ := hbad
          rcases List.mem_cons.mp hr' with h | h
          · subst h; exact absurd (hnum num hmem) hnot
          · exact ⟨r', h, num, hmem, hnot⟩
        · simp only [sumRecord_error r sum num hfirst]

/-- C11: for every well-formed input (every row has the same number `L` of fields)
in which some row `k` holds a field that is not a base-10 integer once trimmed:
whatever the context does, `sumMatrix` writes no sum; and when the context is not
done at the check-points up to row `k`, `sumMatrix` returns the error
`echo.NewHTTPError(400, num+" is not a number")` for the first such field `num` in
row-major order. -/
theorem sumMatrix_rejects_non_number (ctx : Ctx) (src : List Record) (L k : Nat)
    (row : Record)
    (hwf : ∀ r ∈ src, r.length = L)
    (hrow : src[k]? = some row) (hbad : ∃ num ∈ row, ¬ isNumber num) :
    (sumMatrix ctx src).output = [] ∧
    ((∀ m, m ≤ k → ctx m = none) →
      ∃ num, firstNonNumber src = some num ∧
        sumMatrix ctx src =
          { err := some (.http 400 (num ++ " is not a number")), httpError := none,
            output := [], fs := [] }) := by
  constructor
  · exact sumLoop_no_output ctx src 0 0 0 ⟨row, List.getElem?_mem hrow, hbad⟩
  · intro hctx
    exact sumLoop_notNumber ctx L src 0 0 0 k row (Or.inl rfl) hwf hrow hbad
      (fun m _ h => hctx m (by omega))

/-- C11 (witness): the rows `[1,a]`, `[3,4]` are refused with `a is not a number`. -/
theorem sumMatrix_rejects_non_number_witness :
    firstNonNumber [["1", "a"], ["3", "4"]] = some "a" ∧
    sumMatrix background [["1", "a"], ["3", "4"]] =
      { err := some (.http 400 "a is not a number"), httpError := none, output := [],
        fs := [] } ∧
    ∃ num, firstNonNumber [["1", "a"], ["3", "4"]] = some num ∧
      sumMatrix background [["1", "a"], ["3", "4"]] =
        { err := some (.http 400 (num ++ " is not a number")), httpError := none,
          output := [], fs := [] } :=
  ⟨by decide, by decide,
    (sumMatrix_rejects_non_number background [["1", "a"], ["3", "4"]] 2 0 ["1", "a"]
      (by decide) rfl ⟨"a", by decide, by decide⟩).2 (fun _ _ => rfl)⟩

/-! ## `echoMatrix` -/

theorem recordsRead_of_not_done (ctx : Ctx) :
    ∀ (src : List Record) (n : Nat),
      (∀ m, n ≤ m → m < n + src.length → ctx m = none) →
      recordsRead ctx n src = src.length := by
  intro src
  induction src with
  | nil => intro n _; rfl
  | cons r src ih =>
    intro n hctx
    have hc : ctx n = none := hctx n (le_refl _) (by simp)
    simp only [recordsRead, hc, Option.isSome_none, Bool.false_eq_true, if_false,
      List.length_cons]
    rw [ih (n + 1) (fun m h1 h2 => hctx m (by omega) (by simp only [List.length_cons]; omega))]

/-- When the loop of `echoMatrix` returns `nil`, it has written, after what was
written before, exactly the records it has read. -/
theorem echoLoop_output (ctx : Ctx) :
    ∀ (src : List Record) (rowCount expectedCols : Nat) (written : List Record),
      (echoLoop ctx rowCount expectedCols written src).err = none →
      (echoLoop ctx rowCount expectedCols written src).output
        = written ++ src.take (recordsRead ctx rowCount src) := by
  intro src
  induction src with
  | nil =>
    intro rowCount expectedCols written _
    simp only [echoLoop, List.take_nil, List.append_nil]
    cases ctx rowCount with
    | some e => rfl
    | none => simp only; split <;> rfl
  | cons r src ih =>
    intro rowCount expectedCols written herr
    simp only [echoLoop, recordsRead] at herr ⊢
    cases hc : ctx rowCount with
    | some e => simp
    | none =>
      simp only [hc] at herr
      simp only [Option.isSome_none, Bool.false_eq_true, if_false, List.take_succ_cons]
      generalize (if rowCount = 0 then r.length else expectedCols) = cols at herr ⊢
      by_cases hlen : r.length ≠ cols
      · simp [hlen] at herr
      · rw [if_neg hlen] at herr ⊢
        rw [ih _ _ _ herr]
        simp

/-- C12: whenever `echoMatrix` returns no error, the rows written to the response
are exactly the rows read from the input, in the same order and with the same
fields; when the context is not done while the input is read, these are all the
rows of the input. -/
theorem echoMatrix_echoes (ctx : Ctx) (src : List Record)
    (herr : (echoMatrix ctx src).err = none) :
    (echoMatrix ctx src).output = src.take (recordsRead ctx 0 src) ∧
    ((∀ m, m ≤ src.length → ctx m = none) → (echoMatrix ctx src).output = src) := by
  have h := echoLoop_output ctx src 0 0 [] herr
  simp only [List.nil_append] at h
  refine ⟨h, ?_⟩
  intro hctx
  have hall := recordsRead_of_not_done ctx src 0 (fun m _ hm => hctx m (by omega))
  rw [echoMatrix, h, hall, List.take_length]

/-- C12 (witness): `[1,2]`, `[3,4]` is echoed as `[1,2]`, `[3,4]`. -/
theorem echoMatrix_echoes_witness :
    (echoMatrix background [["1", "2"], ["3", "4"]]).err = none ∧
    (echoMatrix background [["1", "2"], ["3", "4"]]).output = [["1", "2"], ["3", "4"]] :=
  ⟨by decide,
    (echoMatrix_echoes background [["1", "2"], ["3", "4"]] (by decide)).2 (fun _ _ => rfl)⟩

/-! ## `flushChunk` and `flattenMatrix` -/

theorem flushChunk_nil : flushChunk [] = [] := by
  rw [flushChunk]
  simp

theorem flushChunk_cons (field : String) (data : List String) :
    flushChunk (field :: data)
      = (field :: data).take (minimum 10000 (field :: data).length)
        :: flushChunk ((field :: data).drop (minimum 10000 (field :: data).length)) := by
  rw [flushChunk]
  simp

theorem minimum_bounds (n : Nat) (hn : 0 < n) :
    0 < minimum 10000 n ∧ minimum 10000 n ≤ n ∧ minimum 10000 n ≤ 10000 := by
  unfold minimum
  split <;> omega

/-- The rows `flushChunk` writes hold, one after the other, the fields of `data`;
each has at least 1 and at most 10000 fields. -/
theorem flushChunk_rows :
    ∀ (n : Nat) (data : List String), data.length ≤ n →
      (flushChunk data).flatten = data ∧
      ∀ row ∈ flushChunk data, 0 < row.length ∧ row.length ≤ 10000 := by
  intro n
  induction n with
  | zero =>
    intro data h
    have : data = [] := List.length_eq_zero.mp (by omega)
    subst this
    simp [flushChunk_nil]
  | succ n ih =>
    intro data h
    cases data with
    | nil => simp [flushChunk_nil]
    | cons field data =>
      obtain ⟨h1, h2, h3⟩ := minimum_bounds (field :: data).length (by simp)
      have hdrop : ((field :: data).drop (minimum 10000 (field :: data).length)).length ≤ n := by
        rw [List.length_drop]
        omega
      obtain ⟨ihflat, ihrows⟩ := ih _ hdrop
      rw [flushChunk_cons]
      constructor
      · rw [List.flatten_cons, ihflat, List.take_append_drop]
      · intro row hrow
        rcases List.mem_cons.mp hrow with hr | hr
        · subst hr
          rw [List.length_take]
          omega
        · exact ihrows row hr

/-- When the loop of `flattenMatrix` returns `nil` and the context is not done
while the input is read: the rows written hold, one after the other, what was
written before, then the fields gathered, then the fields still to read; every new
row has at least 1 and fewer than 100000 fields; and when fewer than 100000 fields
are left in all, they are written as one row. -/
theorem flattenLoop_output (ctx : Ctx) :
    ∀ (src : List Record) (rowCount : Nat) (fieldsPerRecord : Int) (expectedCols : Nat)
      (flattenedRecord : List String) (written : List Record),
      (∀ m, rowCount ≤ m → m ≤ rowCount + src.length → ctx m = none) →
      flattenedRecord.length < 100000 →
      (flattenLoop ctx rowCount fieldsPerRecord expectedCols flattenedRecord written src).err
        = none →
      (flattenLoop ctx rowCount fieldsPerRecord expectedCols flattenedRecord written
          src).output.flatten = written.flatten ++ flattenedRecord ++ src.flatten ∧
      (∀ row ∈ (flattenLoop ctx rowCount fieldsPerRecord expectedCols flattenedRecord
          written src).output, row ∈ written ∨ (0 < row.length ∧ row.length < 100000)) ∧
      ((flattenedRecord ++ src.flatten).length < 100000 →
        (flattenLoop ctx rowCount fieldsPerRecord expectedCols flattenedRecord written
          src).output = written ++
            (if 0 < (flattenedRecord ++ src.flatten).length
              then [flattenedRecord ++ src.flatten] else [])) := by
  intro src
  induction src with
  | nil =>
    intro rowCount fpr expectedCols flat written hctx hflat herr
    have hc : ctx rowCount = none := hctx rowCount (le_refl _) (by omega)
    simp only [flattenLoop, hc] at herr ⊢
    by_cases hsq : rowCount ≠ expectedCols
    · simp [hsq] at herr
    · rw [if_neg hsq]
      by_cases hlen : flat.length > 0
      · rw [if_pos hlen]
        refine ⟨by simp, ?_, ?_⟩
        · intro row hrow
          simp only [List.mem_append, List.mem_singleton] at hrow
          rcases hrow with h | h
          · exact Or.inl h
          · subst h; exact Or.inr ⟨hlen, hflat⟩
        · intro _
          simp [hlen]
      · rw [if_neg hlen]
        have hnil : flat = [] := List.length_eq_zero.mp (by omega)
        subst hnil
        refine ⟨by simp, fun row hrow => Or.inl hrow, ?_⟩
        intro _
        simp
  | cons r src ih =>
    intro rowCount fpr expectedCols flat written hctx hflat herr
    have hc : ctx rowCount = none := hctx rowCount (le_refl _) (by omega)
    have hctx' : ∀ m, rowCount + 1 ≤ m → m ≤ rowCount + 1 + src.length → ctx m = none :=
      fun m h1 h2 => hctx m (by omega) (by simp only [List.length_cons]; omega)
    simp only [flattenLoop, hc] at herr ⊢
    cases hcf : checkFields fpr r with
    | none => simp [hcf] at herr
    | some fpr' =>
      simp only [hcf] at herr ⊢
      generalize (if rowCount = 0 then r.length else expectedCols) = cols at herr ⊢
      by_cases hlen : r.length ≠ cols
      · simp [hlen] at herr
      · rw [if_neg hlen] at herr ⊢
        by_cases hflush : (flat ++ r).length ≥ 100000
        · rw [if_pos hflush] at herr ⊢
          obtain ⟨h1, h2, -⟩ := ih (rowCount + 1) fpr' cols [] (written ++ flushChunk (flat ++ r))
            hctx' (by simp) herr
          obtain ⟨hcf1, hcf2⟩ := flushChunk_rows (flat ++ r).length (flat ++ r) (le_refl _)
          refine ⟨?_, ?_, ?_⟩
          · rw [h1]
            simp [hcf1]
          · intro row hrow
            rcases h2 row hrow with h | h
            · rcases List.mem_append.mp h with h' | h'
              · exact Or.inl h'
              · have := hcf2 row h'
                exact Or.inr ⟨this.1, by omega⟩
            · exact Or.inr h
          · intro hsmall
            simp only [List.length_append, List.flatten_cons] at hsmall hflush
            omega
        · rw [if_neg hflush] at herr ⊢
          obtain ⟨h1, h2, h3⟩ := ih (rowCount + 1) fpr' cols (flat ++ r) written hctx'
            (by omega) herr
          refine ⟨?_, h2, ?_⟩
          · rw [h1]
            simp
          · intro hsmall
            simp only [List.flatten_cons, ← List.append_assoc] at hsmall ⊢
            exact h3 hsmall

/-- A square input is accepted by the loop of `flattenMatrix` when the context is
not done while it is read. -/
theorem flattenLoop_accepts (ctx : Ctx) (L : Nat) :
    ∀ (src : List Record) (rowCount : Nat) (fieldsPerRecord : Int) (expectedCols : Nat)
      (flattenedRecord : List String) (written : List Record),
      (∀ m, rowCount ≤ m → m ≤ rowCount + src.length → ctx m = none) →
      (fieldsPerRecord = 0 ∨ fieldsPerRecord = L) →
      (∀ r ∈ src, r.length = L) → rowCount + src.length = L →
      (rowCount = 0 → expectedCols = 0) → (rowCount ≠ 0 → expectedCols = L) →
      (flattenLoop ctx rowCount fieldsPerRecord expectedCols flattenedRecord written src).err
        = none := by
  intro src
  induction src with
  | nil =>
    intro rowCount fpr expectedCols flat written hctx _ _ hsq h0 h1
    have hc : ctx rowCount = none := hctx rowCount (le_refl _) (by omega)
    have heq : rowCount = expectedCols := by
      simp only [List.length_nil, Nat.add_zero] at hsq
      by_cases hz : rowCount = 0
      · rw [h0 hz, hz]
      · rw [h1 hz, hsq]
    have hne : ¬ rowCount ≠ expectedCols := fun h => h heq
    simp only [flattenLoop, hc]
    rw [if_neg hne]
    split <;> rfl
  | cons r src ih =>
    intro rowCount fpr expectedCols flat written hctx hfpr hrect hsq h0 h1
    have hc : ctx rowCount = none := hctx rowCount (le_refl _) (by omega)
    have hctx' : ∀ m, rowCount + 1 ≤ m → m ≤ rowCount + 1 + src.length → ctx m = none :=
      fun m h1 h2 => hctx m (by omega) (by simp only [List.length_cons]; omega)
    have hr : r.length = L := hrect r (List.mem_cons_self _ _)
    have hcheck := checkFields_same fpr L r hfpr hr
    have hcols : (if rowCount = 0 then r.length else expectedCols) = L := by
      by_cases hz : rowCount = 0
      · rw [if_pos hz, hr]
      · rw [if_neg hz, h1 hz]
    have hsq' : rowCount + 1 + src.length = L := by
      simp only [List.length_cons] at hsq
      omega
    have hsame : ¬ r.length ≠ L := fun h => h hr
    simp only [flattenLoop, hc, hcheck]
    rw [hcols, if_neg hsame]
    split
    · exact ih (rowCount + 1) L L [] (written ++ flushChunk (flat ++ r)) hctx' (Or.inr rfl)
        (fun x hx => hrect x (List.mem_cons_of_mem _ hx)) hsq'
        (fun h => absurd h (Nat.succ_ne_zero _)) (fun _ => rfl)
    · exact ih (rowCount + 1) L L (flat ++ r) written hctx' (Or.inr rfl)
        (fun x hx => hrect x (List.mem_cons_of_mem _ hx)) hsq'
        (fun h => absurd h (Nat.succ_ne_zero _)) (fun _ => rfl)

theorem length_flatten_rect (L : Nat) :
    ∀ (src : List Record), (∀ r ∈ src, r.length = L) →
      src.flatten.length = src.length * L := by
  intro src
  induction src with
  | nil => intro _; simp
  | cons r src ih =>
    intro h
    rw [List.flatten_cons, List.length_append, h r (List.mem_cons_self _ _),
      ih (fun x hx => h x (List.mem_cons_of_mem _ hx)), List.length_cons]
    ring

/-- A square input of at least 100000 fields is accepted by `flattenMatrix`, when
the context is not done while it is read, and is written as two rows or more. -/
theorem flattenMatrix_big (ctx : Ctx) (src : List Record) (L : Nat)
    (hctx : ∀ m, m ≤ src.length → ctx m = none)
    (hrect : ∀ r ∈ src, r.length = L) (hsq : src.length = L) (hbig : 100000 ≤ L * L) :
    (flattenMatrix ctx src).err = none ∧ 2 ≤ (flattenMatrix ctx src).output.length := by
  have hacc : (flattenLoop ctx 0 0 0 [] [] src).err = none :=
    flattenLoop_accepts ctx L src 0 0 0 [] [] (fun m _ hm => hctx m (by omega)) (Or.inl rfl)
      hrect (by omega) (fun _ => rfl) (fun h => absurd rfl h)
  obtain ⟨h1, h2, -⟩ := flattenLoop_output ctx src 0 0 0 [] []
    (fun m _ hm => hctx m (by omega)) (by simp) hacc
  have hlen : src.flatten.length = L * L := by
    rw [length_flatten_rect L src hrect, hsq]
  refine ⟨hacc, ?_⟩
  simp only [List.flatten_nil, List.nil_append] at h1
  unfold flattenMatrix
  cases hout : (flattenLoop ctx 0 0 0 [] [] src).output with
  | nil =>
    rw [hout] at h1
    simp only [List.flatten_nil] at h1
    rw [← h1] at hlen
    simp only [List.length_nil] at hlen
    omega
  | cons row rows =>
    cases rows with
    | nil =>
      rw [hout] at h1 h2
      simp only [List.flatten_cons, List.flatten_nil, List.append_nil] at h1
      rcases h2 row (by simp) with h | h
      · simp at h
      · rw [h1, hlen] at h
        omega
    | cons row2 rows => simp

/-- C13 (as the code has it): whenever `flattenMatrix` returns no error, with a
context that is not done while the input is read, the rows written hold, one after
the other, all the fields of the input in row-major order, and each has at least 1
and fewer than 100000 fields; the response is exactly one row when the input has at
least one and fewer than 100000 fields, and no row when it has none. -/
theorem flattenMatrix_flattens (ctx : Ctx) (src : List Record)
    (hctx : ∀ m, m ≤ src.length → ctx m = none)
    (herr : (flattenMatrix ctx src).err = none) :
    (flattenMatrix ctx src).output.flatten = src.flatten ∧
    (∀ row ∈ (flattenMatrix ctx src).output, 0 < row.length ∧ row.length < 100000) ∧
    (src.flatten.length < 100000 →
      (flattenMatrix ctx src).output
        = if 0 < src.flatten.length then [src.flatten] else []) := by
  obtain ⟨h1, h2, h3⟩ := flattenLoop_output ctx src 0 0 0 [] []
    (fun m _ hm => hctx m (by omega)) (by simp) herr
  have h2' : ∀ row ∈ (flattenMatrix ctx src).output, 0 < row.length ∧ row.length < 100000 := by
    intro row hrow
    rcases h2 row hrow with h | h
    · simp at h
    · exact h
  refine ⟨by simpa [flattenMatrix] using h1, h2', ?_⟩
  intro hsmall
  simpa [flattenMatrix] using h3 (by simpa using hsmall)

/-- C13 (witness): `[1,2]`, `[3,4]` gives the single row `[1,2,3,4]`. -/
theorem flattenMatrix_flattens_witness :
    (flattenMatrix background [["1", "2"], ["3", "4"]]).output = [["1", "2", "3", "4"]] :=
  (flattenMatrix_flattens background [["1", "2"], ["3", "4"]] (fun _ _ => rfl)
    (by decide)).2.2 (by decide)

/-- C13 (counterexample): the empty input is accepted and no row is written; the
317 × 317 matrix of ones (100489 fields) is accepted and more than one row is
written. -/
theorem flattenMatrix_not_one_row :
    flattenMatrix background [] =
      { err := none, httpError := none, output := [], fs := [] } ∧
    (flattenMatrix background (List.replicate 317 (List.replicate 317 "1"))).err = none ∧
    (flattenMatrix background
      (List.replicate 317 (List.replicate 317 "1"))).output.length ≠ 1 := by
  have hbig := flattenMatrix_big background (List.replicate 317 (List.replicate 317 "1"))
    317 (fun _ _ => rfl)
    (by
      intro r hr
      rw [(List.mem_replicate.mp hr).2, List.length_replicate])
    (List.length_replicate _ _) (by norm_num)
  refine ⟨by decide, hbig.1, ?_⟩
  have := hbig.2
  omega

/-! ## `fetchFileHeader` -/

theorem lowerRune_eq_iff (c x : Char) (hx : x = '.' ∨ x = 'c' ∨ x = 's' ∨ x = 'v') :
    lowerRune c = x ↔ c.toLower = x := by
  unfold lowerRune
  split
  · rename_i h1
    have hlow : c.toLower = c := by
      simp [Char.toLower, h1]
    rw [hlow]
    constructor
    · intro h
      rcases hx with h' | h' | h' | h' <;> (subst h'; exact absurd h (by decide))
    · intro h
      subst h
      rcases hx with h' | h' | h' | h' <;> (subst h'; exact absurd h1 (by decide))
  · split
    · rename_i h1 h2
      have hlow : c.toLower = c := by
        simp [Char.toLower, h2]
      rw [hlow]
      constructor
      · intro h
        rcases hx with h' | h' | h' | h' <;> (subst h'; exact absurd h (by decide))
      · intro h
        subst h
        rcases hx with h' | h' | h' | h' <;> (subst h'; exact absurd h2 (by decide))
    · exact Iff.rfl

/-- The test of `validateFileType` accepts exactly the extensions that equal `.csv`
ignoring case. -/
theorem ToLower_eq_csv (ext : String) :
    ToLower ext = ".csv" ↔ equalsIgnoringCase ext ".csv" := by
  have hmk : ToLower ext = ".csv" ↔ ext.data.map lowerRune = ['.', 'c', 's', 'v'] := by
    unfold ToLower
    constructor
    · intro h
      have := congrArg String.data h
      simpa using this
    · intro h
      rw [h]
  have hspec : equalsIgnoringCase ext ".csv"
      ↔ ext.data.map Char.toLower = ['.', 'c', 's', 'v'] := by
    unfold equalsIgnoringCase
    exact Iff.rfl
  rw [hmk, hspec]
  rcases ext.data with _ | ⟨w, _ | ⟨x, _ | ⟨y, _ | ⟨z, _ | ⟨u, t⟩⟩⟩⟩⟩
  · simp
  · simp
  · simp
  · simp
  · simp only [List.map_cons, List.map_nil, List.cons.injEq, and_true,
      lowerRune_eq_iff w '.' (Or.inl rfl), lowerRune_eq_iff x 'c' (Or.inr (Or.inl rfl)),
      lowerRune_eq_iff y 's' (Or.inr (Or.inr (Or.inl rfl))),
      lowerRune_eq_iff z 'v' (Or.inr (Or.inr (Or.inr rfl)))]
  · simp

/-- C14: `fetchFileHeader` returns the first file under the form key `file` if and
only if there is such a file, its size is non-zero and the extension of its file
name equals `.csv` ignoring case; otherwise it fails with `no files found in the
form` when there is no file, else with `empty file` when the size of the first file
is zero, else with `only csv file supported`. -/
theorem fetchFileHeader_spec (files : List FileHeader) :
    (∀ fileHeader, fetchFileHeader files = .ok fileHeader ↔
      (files.head? = some fileHeader ∧ fileHeader.Size ≠ 0 ∧
        equalsIgnoringCase (Ext fileHeader.Filename) ".csv")) ∧
    (files = [] → fetchFileHeader files = .error "no files found in the form") ∧
    (∀ fileHeader, files.head? = some fileHeader → fileHeader.Size = 0 →
      fetchFileHeader files = .error "empty file") ∧
    (∀ fileHeader, files.head? = some fileHeader → fileHeader.Size ≠ 0 →
      ¬ equalsIgnoringCase (Ext fileHeader.Filename) ".csv" →
      fetchFileHeader files = .error "only csv file supported") := by
  cases files with
  | nil =>
    refine ⟨?_, fun _ => rfl, ?_, ?_⟩
    · intro fileHeader
      simp [fetchFileHeader]
    · intro fileHeader h
      simp at h
    · intro fileHeader h
      simp at h
  | cons first rest =>
    refine ⟨?_, ?_, ?_, ?_⟩
    · intro fileHeader
      simp only [fetchFileHeader, validateFileType, List.head?_cons, Option.some.injEq]
      by_cases hsize : first.Size = 0
      · simp only [hsize, if_true]
        constructor
        · intro h; cases h
        · rintro ⟨h1, h2, -⟩
          subst h1
          exact absurd hsize h2
      · by_cases hcsv : ToLower (Ext first.Filename) = ".csv"
        · simp only [hsize, if_false, hcsv, ne_eq, not_true_eq_false]
          constructor
          · intro h
            have h' : first = fileHeader := by
              injection h
            subst h'
            exact ⟨rfl, hsize, (ToLower_eq_csv _).mp hcsv⟩
          · rintro ⟨h1, -, -⟩
            rw [h1]
        · simp only [hsize, if_false, hcsv, ne_eq, not_false_eq_true, if_true]
          constructor
          · intro h; cases h
          · rintro ⟨h1, -, h3⟩
            subst h1
            exact absurd ((ToLower_eq_csv _).mpr h3) hcsv
    · intro h
      cases h
    · intro fileHeader h hsize
      simp only [List.head?_cons, Option.some.injEq] at h
      subst h
      simp [fetchFileHeader, hsize]
    · intro fileHeader h hsize hcsv
      simp only [List.head?_cons, Option.some.injEq] at h
      subst h
      have hne : ToLower (Ext first.Filename) ≠ ".csv" :=
        fun h => hcsv ((ToLower_eq_csv _).mp h)
      simp [fetchFileHeader, validateFileType, hsize, hne]

/-- C14 (witness): `test.CSV` of 3 bytes is returned, `test.txt` is refused with
`only csv file supported`, an empty `empty.csv` with `empty file`, and a form
without file with `no files found in the form`. -/
theorem fetchFileHeader_spec_witness :
    fetchFileHeader [⟨"test.CSV", 3⟩, ⟨"other.csv", 5⟩] = .ok ⟨"test.CSV", 3⟩ ∧
    fetchFileHeader [⟨"test.txt", 15⟩] = .error "only csv file supported" ∧
    fetchFileHeader [⟨"empty.csv", 0⟩] = .error "empty file" ∧
    fetchFileHeader [] = .error "no files found in the form" :=
  ⟨((fetchFileHeader_spec [⟨"test.CSV", 3⟩, ⟨"other.csv", 5⟩]).1 ⟨"test.CSV", 3⟩).mpr
      ⟨rfl, by decide, by decide⟩,
    (fetchFileHeader_spec [⟨"test.txt", 15⟩]).2.2.2 ⟨"test.txt", 15⟩ rfl (by decide)
      (by decide),
    (fetchFileHeader_spec [⟨"empty.csv", 0⟩]).2.2.1 ⟨"empty.csv", 0⟩ rfl rfl,
    (fetchFileHeader_spec []).2.1 rfl⟩

/-! ## The behaviour of the transposition pipeline -/

theorem shardWidth_eq_ceilDiv (totalCols : Nat) :
    shardWidth totalCols = ceilDiv totalCols 3 := by
  simp only [shardWidth, ceilDiv, tmpFileCount]
  split <;> omega

theorem padding_pos_iff (C : Nat) : 0 < padding C ↔ 5 ≤ C ∧ C % 3 ≠ 0 := by
  by_cases hC : 0 < C
  · simp only [padding, activeShards_eq C hC]
    simp only [shardWidth, tmpFileCount]
    split <;> split <;> (try split) <;> omega
  · have h0 : C = 0 := by omega
    subst h0
    simp [padding, shardWidth, tmpFileCount]

/-- After `ProcessBlock` has been applied, in order, to non-empty blocks that make
up a rectangular input with `L ≥ 1` columns and no blank field, `StreamOutput`
writes the columns of the input, in column order, followed by `padding L` rows
without fields. -/
theorem streamOutput_blocks (blocks : List (List Record)) (L : Nat)
    (hblocks : blocks ≠ [])
    (hne : ∀ b ∈ blocks, b ≠ []) (hrect : ∀ b ∈ blocks, ∀ r ∈ b, r.length = L)
    (hnb : ∀ b ∈ blocks, nonBlank b) (hcr : ∀ b ∈ blocks, plainNewlines b)
    (hL : 0 < L) :
    (processBlocks (NewTempFileHelper L) blocks).bind TempFileHelper.StreamOutput
      = some ((List.range L).map (column blocks.flatten)
          ++ List.replicate (padding L) []) := by
  obtain ⟨hle, -, -⟩ := shardWidth_bounds L
  have hw : 0 < shardWidth L := by omega
  have hproc := processBlocks_eq (shardWidth L) tmpFileCount 0 L blocks
    (NewTempFileHelper L) rfl rfl hrect
  have hemit := emitted_shards blocks L (shardWidth L) hblocks hne hrect hnb hcr hL hw hle
  have hfiles : List.zipWith
      (fun range file => file ++ blocks.flatMap fun b => appended (transpose b) range)
      (NewTempFileHelper L).colRanges (NewTempFileHelper L).tempFiles
      = [blocks.flatMap fun b => appended (transpose b) (0, 0 + shardWidth L),
         blocks.flatMap fun b =>
            appended (transpose b) (0 + shardWidth L, 0 + shardWidth L + shardWidth L),
         blocks.flatMap fun b =>
            appended (transpose b)
              (0 + shardWidth L + shardWidth L,
               0 + shardWidth L + shardWidth L + shardWidth L)] := by
    rfl
  rw [hproc]
  simp only [Option.some_bind, TempFileHelper.StreamOutput, hfiles, colNum_eq,
    streamFiles_eq _ hw, hemit, List.nil_append, padding, activeShards_eq L hL]

/-- Where the shards are read back as they were written: for every rectangular input
with at least one row, `C ≥ 1` columns, no empty or white-space-only field and no
field that holds `\r\n`, `StreamOutput`, after `ProcessBlock` has been
applied to every consecutive block of up to 6 rows, writes the `C` columns of the
input in column order, row `j` being `[input[0][j], ..., input[R-1][j]]`, followed
by exactly `k` rows with no fields, where `k = m * ceil(C/3) - C` and `m` is the
number of shards whose range starts below `C`; and `k > 0` exactly when `C ≥ 5` and
`C % 3 ≠ 0`.  With a context that is not done while the input is read, this is
what `invertMatrix` writes. -/
theorem streamOutput_columns_then_padding (first : Record) (rest : List Record)
    (hfirst : first ≠ [])
    (hrect : ∀ r ∈ first :: rest, r.length = first.length)
    (hnb : nonBlank (first :: rest)) (hcr : plainNewlines (first :: rest)) :
    ((blocksOf [] (first :: rest)).flatten = first :: rest ∧
      ∀ b ∈ blocksOf [] (first :: rest), 0 < b.length ∧ b.length ≤ blockSize) ∧
    (processBlocks (NewTempFileHelper first.length)
        (blocksOf [] (first :: rest))).bind TempFileHelper.StreamOutput
      = some ((List.range first.length).map (column (first :: rest))
          ++ List.replicate (padding first.length) []) ∧
    padding first.length
      = ((NewTempFileHelper first.length).colRanges.filter
          fun range => range.1 < first.length).length * ceilDiv first.length 3
        - first.length ∧
    (0 < padding first.length ↔ 5 ≤ first.length ∧ first.length % 3 ≠ 0) ∧
    ∀ ctx : Ctx, (∀ m, m ≤ (first :: rest).length → ctx m = none) →
      (invertMatrix ctx (first :: rest)).output
        = (List.range first.length).map (column (first :: rest))
          ++ List.replicate (padding first.length) [] := by
  have hC : 0 < first.length := List.length_pos.mpr hfirst
  have hflat := flatten_blocksOf (first :: rest) []
  have hne := blocksOf_ne_nil (first :: rest) []
  have hmem : ∀ b ∈ blocksOf [] (first :: rest), ∀ r ∈ b, r ∈ first :: rest := by
    intro b hb r hr
    have : r ∈ (blocksOf [] (first :: rest)).flatten := List.mem_flatten.mpr ⟨b, hb, hr⟩
    simpa [hflat] using this
  have hrectB : ∀ b ∈ blocksOf [] (first :: rest), ∀ r ∈ b, r.length = first.length :=
    fun b hb r hr => hrect r (hmem b hb r hr)
  have hnbB : ∀ b ∈ blocksOf [] (first :: rest), nonBlank b :=
    fun b hb r hr => hnb r (hmem b hb r hr)
  have hcrB : ∀ b ∈ blocksOf [] (first :: rest), plainNewlines b :=
    fun b hb r hr => hcr r (hmem b hb r hr)
  have hblocks : blocksOf [] (first :: rest) ≠ [] := by
    intro h
    rw [h] at hflat
    simp at hflat
  have hstream := streamOutput_blocks (blocksOf [] (first :: rest)) first.length hblocks hne
    hrectB hnbB hcrB hC
  rw [hflat] at hstream
  refine ⟨⟨by simpa using hflat, ?_⟩, hstream, ?_, padding_pos_iff _, ?_⟩
  · intro b hb
    exact ⟨List.length_pos.mpr (hne b hb),
      blocksOf_length_le (first :: rest) [] (by simp [blockSize]) b hb⟩
  · rw [← shardWidth_eq_ceilDiv]
    rfl
  · intro ctx hctx
    rw [invertMatrix_rectangular ctx first rest hfirst hrect hnb hcr hctx]
    rfl

/-- The 1 × 5 input `1,2,3,4,5` gives the five columns and then one row with no
fields. -/
theorem streamOutput_columns_then_padding_witness :
    (processBlocks (NewTempFileHelper 5)
        (blocksOf [] [["1", "2", "3", "4", "5"]])).bind TempFileHelper.StreamOutput
      = some [["1"], ["2"], ["3"], ["4"], ["5"], []] ∧
    padding 5 = 1 :=
  ⟨(streamOutput_columns_then_padding ["1", "2", "3", "4", "5"] [] (by decide) (by decide)
      (by decide) (by decide)).2.1,
    by decide⟩

/-- C15 (failing input): the 1 × 1 input whose field is `a\r\nb` is rectangular and
has no empty or white-space-only field; its only column is `[a\r\nb]` and no row
without fields is due (`padding 1 = 0`).  The shard is read back with `\r\n`
rewritten to `\n`, so `StreamOutput` writes the row `[a\nb]`, and so does
`invertMatrix`. -/
theorem streamOutput_rewrites_newline :
    nonBlank [["a\r\nb"]] ∧
    (List.range 1).map (column [["a\r\nb"]]) ++ List.replicate (padding 1) []
      = [["a\r\nb"]] ∧
    (processBlocks (NewTempFileHelper 1) (blocksOf [] [["a\r\nb"]])).bind
        TempFileHelper.StreamOutput
      = some [["a\nb"]] ∧
    (invertMatrix background [["a\r\nb"]]).output = [["a\nb"]] := by
  decide

/-- C20: for every `totalCols ≥ 1`, each of the 3 ranges computed by
`NewTempFileHelper` has the same width `w = ceil(totalCols / 3) ≥ 1`, range `i`
being `[i*w, (i+1)*w)`; the nominal total `3*w` is at least `totalCols` and exceeds
it exactly when `totalCols % 3 ≠ 0`. -/
theorem colRanges_uniform_width (totalCols : Nat) (h : 1 ≤ totalCols) :
    (NewTempFileHelper totalCols).colRanges
      = (List.range tmpFileCount).map
          (fun i => (i * ceilDiv totalCols 3, (i + 1) * ceilDiv totalCols 3)) ∧
    (∀ range ∈ (NewTempFileHelper totalCols).colRanges,
      width range = ceilDiv totalCols 3) ∧
    1 ≤ ceilDiv totalCols 3 ∧
    totalCols ≤ 3 * ceilDiv totalCols 3 ∧
    (totalCols < 3 * ceilDiv totalCols 3 ↔ totalCols % 3 ≠ 0) := by
  obtain ⟨hle, hlt, hiff⟩ := shardWidth_bounds totalCols
  rw [colRanges_eq, shardWidth_eq_ceilDiv] at *
  refine ⟨?_, ?_, by omega, hle, by omega⟩
  · simp only [tmpFileCount, List.range, List.range.loop, List.map_cons, List.map_nil,
      List.cons.injEq, Prod.mk.injEq, and_true]
    omega
  · intro range hrange
    simp only [List.mem_cons, List.mem_singleton, List.not_mem_nil, or_false] at hrange
    rcases hrange with hr | hr | hr <;> subst hr <;> simp only [width] <;> omega

/-- C20 (witness): for 4 columns the ranges are `[0,2)`, `[2,4)`, `[4,6)`. -/
theorem colRanges_uniform_width_witness :
    (NewTempFileHelper 4).colRanges = [(0, 2), (2, 4), (4, 6)] ∧ ceilDiv 4 3 = 2 :=
  ⟨(colRanges_uniform_width 4 (by decide)).1, by decide⟩

/-! ## What `ProcessBlock` appends to each shard -/

theorem colRangesLoop_end (cols : Nat) :
    ∀ (n currentCol : Nat), ∀ range ∈ colRangesLoop cols n currentCol,
      range.2 = range.1 + cols := by
  intro n
  induction n with
  | zero => intro c range h; simp [colRangesLoop] at h
  | succ n ih =>
    intro c range h
    simp only [colRangesLoop, List.mem_cons] at h
    rcases h with h | h
    · subst h; rfl
    · exact ih _ range h

theorem getElem?_zipWith_append (g : Nat × Nat → List Record) :
    ∀ (ranges : List (Nat × Nat)) (files : List (List Record)) (i : Nat)
      (range : Nat × Nat) (file : List Record),
      ranges[i]? = some range → files[i]? = some file →
      (List.zipWith (fun range file => file ++ g range) ranges files)[i]?
        = some (file ++ g range) := by
  intro ranges
  induction ranges with
  | nil => intro files i range file h; simp at h
  | cons r ranges ih =>
    intro files i range file hr hf
    cases files with
    | nil => simp at hf
    | cons f files =>
      cases i with
      | zero =>
        simp only [List.getElem?_cons_zero, Option.some.injEq] at hr hf
        subst hr hf
        simp
      | succ i =>
        simp only [List.getElem?_cons_succ] at hr hf
        simpa using ih files i range file hr hf

/-- The file of shard `i` after `ProcessBlock`: what it held, then the records
`appended (transpose block) range` of its range. -/
theorem ProcessBlock_file (C : Nat) (block : List Record) (files : List (List Record))
    (hrect : ∀ r ∈ block, r.length = C) (hfiles : files.length = tmpFileCount) :
    ∃ th', ({ NewTempFileHelper C with tempFiles := files }).ProcessBlock block = some th' ∧
      ∀ (i : Nat) (range : Nat × Nat) (file : List Record),
        (NewTempFileHelper C).colRanges[i]? = some range → files[i]? = some file →
        th'.tempFiles[i]? = some (file ++ appended (transpose block) range) := by
  have h := ProcessBlock_eq { NewTempFileHelper C with tempFiles := files }
    (shardWidth C) tmpFileCount 0 C block rfl hfiles hrect
  refine ⟨_, h, ?_⟩
  intro i range file hr hf
  exact getElem?_zipWith_append _ _ _ i range file hr hf

theorem take_drop_transpose (block : List Record) (C start n : Nat) (hblock : block ≠ [])
    (hrect : ∀ r ∈ block, r.length = C) (hn : n = 0 ∨ start + n ≤ C) :
    ((transpose block).drop start).take n
      = (List.range n).map fun t => column block (start + t) := by
  apply List.ext_getElem?
  intro t
  rw [List.getElem?_take, List.getElem?_drop, getElem?_range_map]
  by_cases ht : t < n
  · rw [if_pos ht, if_pos ht, getElem?_transpose block C _ hblock hrect (by omega)]
  · rw [if_neg ht, if_neg ht]

/-- C16 (counterexample): for the block `1,2,3,4` (4 columns) the ranges are
`[0,2)`, `[2,4)`, `[4,6)` and `ProcessBlock` appends two rows to each of the first
two shards and nothing to the third, whose range has width 2. -/
theorem ProcessBlock_skips_shard :
    (NewTempFileHelper 4).colRanges = [(0, 2), (2, 4), (4, 6)] ∧
    ((NewTempFileHelper 4).ProcessBlock [["1", "2", "3", "4"]]).map
        (fun th => th.tempFiles)
      = some [[["1"], ["2"]], [["3"], ["4"]], []] := by
  decide

/-- C16 (as the code has it): for every non-empty block whose rows have `C` fields
and every shard with range `[start, end)`: when `start < C`, `ProcessBlock` appends
exactly `end - start` rows to the shard, `min(end, C) - start` rows of the block's
transpose followed by `end - C` placeholder rows (none unless `end > C`), so all
these shards get the same number of row-slots per block; when `start ≥ C` the loop
has stopped and the shard gets no row. -/
theorem ProcessBlock_row_slots (C : Nat) (block : List Record)
    (files : List (List Record)) (hblock : block ≠ [])
    (hrect : ∀ r ∈ block, r.length = C) (hfiles : files.length = tmpFileCount) :
    ∃ th', ({ NewTempFileHelper C with tempFiles := files }).ProcessBlock block = some th' ∧
      ∀ (i : Nat) (range : Nat × Nat) (file : List Record),
        (NewTempFileHelper C).colRanges[i]? = some range → files[i]? = some file →
        (range.1 < C →
          ∃ rows, th'.tempFiles[i]? =
              some (file ++ rows ++ List.replicate (range.2 - C) placeholder) ∧
            rows.length = min range.2 C - range.1 ∧
            rows.length + (range.2 - C) = range.2 - range.1 ∧
            range.2 - range.1 = shardWidth C) ∧
        (C ≤ range.1 → th'.tempFiles[i]? = some file) := by
  obtain ⟨th', hth', hfile⟩ := ProcessBlock_file C block files hrect hfiles
  refine ⟨th', hth', ?_⟩
  intro i range file hr hf
  have hlen := length_transpose block C hblock hrect
  have hend : range.2 = range.1 + shardWidth C :=
    colRangesLoop_end (shardWidth C) tmpFileCount 0 range (List.getElem?_mem hr)
  have h := hfile i range file hr hf
  simp only [appended, hlen] at h
  constructor
  · intro hstart
    rw [if_neg (by omega)] at h
    refine ⟨((transpose block).drop range.1).take (min range.2 C - range.1), ?_, ?_, ?_, ?_⟩
    · rw [h, List.append_assoc]
    · rw [List.length_take, List.length_drop, hlen]
      omega
    · rw [List.length_take, List.length_drop, hlen]
      omega
    · omega
  · intro hstart
    rw [if_pos (by omega), List.append_nil] at h
    exact h

/-- C16 (witness): the block `1,2,3,4,5` and three empty shards. -/
theorem ProcessBlock_row_slots_witness :
    ∃ th', ({ NewTempFileHelper 5 with tempFiles := [[], [], []] }).ProcessBlock
        [["1", "2", "3", "4", "5"]] = some th' ∧
      ∀ (i : Nat) (range : Nat × Nat) (file : List Record),
        (NewTempFileHelper 5).colRanges[i]? = some range →
        ([[], [], []] : List (List Record))[i]? = some file →
        (range.1 < 5 →
          ∃ rows, th'.tempFiles[i]? =
              some (file ++ rows ++ List.replicate (range.2 - 5) placeholder) ∧
            rows.length = min range.2 5 - range.1 ∧
            rows.length + (range.2 - 5) = range.2 - range.1 ∧
            range.2 - range.1 = shardWidth 5) ∧
        (5 ≤ range.1 → th'.tempFiles[i]? = some file) :=
  ProcessBlock_row_slots 5 [["1", "2", "3", "4", "5"]] [[], [], []] (by decide) (by decide)
    rfl

/-- C17: for every non-empty block whose rows have `C` fields and every shard `i`
with range `[start, end)`, the rows of the block's in-memory transpose that
`ProcessBlock` appends to shard `i` (before the placeholder rows) are exactly its
rows `start .. min(end, C) - 1`, in that order, row `j` being column `j` of the
block; there is none when `start ≥ C`, and no row from outside `[start, end)` is
written to the shard. -/
theorem ProcessBlock_rows_of_range (C : Nat) (block : List Record)
    (files : List (List Record)) (hblock : block ≠ [])
    (hrect : ∀ r ∈ block, r.length = C) (hfiles : files.length = tmpFileCount) :
    invertInMemory block = some (transpose block) ∧
    ∃ th', ({ NewTempFileHelper C with tempFiles := files }).ProcessBlock block = some th' ∧
      ∀ (i : Nat) (range : Nat × Nat) (file : List Record),
        (NewTempFileHelper C).colRanges[i]? = some range → files[i]? = some file →
        ∃ rows, th'.tempFiles[i]? =
            some (file ++ rows ++
              List.replicate (if range.1 < C then range.2 - C else 0) placeholder) ∧
          rows = ((transpose block).drop range.1).take (min range.2 C - range.1) ∧
          rows = (List.range (min range.2 C - range.1)).map
            (fun t => column block (range.1 + t)) ∧
          (C ≤ range.1 → rows = []) ∧
          ∀ t, t < rows.length → range.1 + t < range.2 ∧ range.1 + t < C ∧
            rows[t]? = (transpose block)[range.1 + t]? := by
  refine ⟨invertInMemory_eq_transpose block C hrect, ?_⟩
  obtain ⟨th', hth', hfile⟩ := ProcessBlock_file C block files hrect hfiles
  refine ⟨th', hth', ?_⟩
  intro i range file hr hf
  have hlen := length_transpose block C hblock hrect
  have h := hfile i range file hr hf
  simp only [appended, hlen] at h
  have hrows : ((transpose block).drop range.1).take (min range.2 C - range.1)
      = (List.range (min range.2 C - range.1)).map
          (fun t => column block (range.1 + t)) :=
    take_drop_transpose block C range.1 _ hblock hrect (by omega)
  refine ⟨((transpose block).drop range.1).take (min range.2 C - range.1), ?_, rfl, hrows,
    ?_, ?_⟩
  · by_cases hstart : range.1 < C
    · rw [if_neg (by omega)] at h
      rw [h, if_pos hstart, List.append_assoc]
    · have h0 : min range.2 C - range.1 = 0 := by omega
      rw [if_pos (by omega), List.append_nil] at h
      rw [h, if_neg hstart, h0]
      simp
  · intro hstart
    have h0 : min range.2 C - range.1 = 0 := by omega
    rw [h0]
    rfl
  · intro t ht
    rw [List.length_take, List.length_drop, hlen] at ht
    refine ⟨by omega, by omega, ?_⟩
    rw [List.getElem?_take, List.getElem?_drop, if_pos (by omega)]

/-- C17 (witness): the block `1,2,3,4,5` and three empty shards. -/
theorem ProcessBlock_rows_of_range_witness :
    ({ NewTempFileHelper 5 with tempFiles := [[], [], []] }).ProcessBlock
        [["1", "2", "3", "4", "5"]]
      = some { NewTempFileHelper 5 with
          tempFiles := [[["1"], ["2"]], [["3"], ["4"]], [["5"], placeholder]] } ∧
    invertInMemory [["1", "2", "3", "4", "5"]]
      = some (transpose [["1", "2", "3", "4", "5"]]) :=
  ⟨by decide,
    (ProcessBlock_rows_of_range 5 [["1", "2", "3", "4", "5"]] [[], [], []] (by decide)
      (by decide) rfl).1⟩

/-! ## Slots in `StreamOutput` -/

theorem readFile_append (colNum : Nat) :
    ∀ (A B : List Record) (colIdx : Nat) (row : List Record),
      readFile colNum colIdx (A ++ B) row
        = (readFile colNum colIdx A row).bind fun row' =>
            readFile colNum (colIdx + A.length) B row' := by
  intro A
  induction A with
  | nil => intro B colIdx row; simp [readFile]
  | cons a A ih =>
    intro B colIdx row
    have hidx : colIdx + (a :: A).length = colIdx + 1 + A.length := by
      simp only [List.length_cons]; omega
    rw [hidx]
    simp only [List.cons_append, readFile]
    split
    · exact ih B (colIdx + 1) row
    · split
      · rfl
      · exact ih B (colIdx + 1) _

/-- C18 (counterexample): on the shard rows `[x]`, placeholder, `[y]`, placeholder
with `colNum = 2` (what shard 2 holds after two blocks of a 5-column input), the
code appends `[y]` to slot `2 % 2 = 0`, after `[x]`; counting only the rows that
are not placeholders would put it in slot `1 % 2 = 1`. -/
theorem readFile_counts_placeholders :
    readFile 2 0 [["x"], placeholder, ["y"], placeholder] [[], []]
      = some [["x", "y"], []] ∧
    readFileCountingReal 2 0 [["x"], placeholder, ["y"], placeholder] [[], []]
      = some [["x"], ["y"]] ∧
    readFile 2 0 [["x"], placeholder, ["y"], placeholder] [[], []]
      ≠ readFileCountingReal 2 0 [["x"], placeholder, ["y"], placeholder] [[], []] := by
  decide

/-- C18 (as the code has it): in `StreamOutput`, with `colNum > 0`, a shard row that
is not a placeholder is appended to slot `colIdx % colNum`, where `colIdx` is the
number of rows read before it from that shard, placeholders included; a
placeholder row is skipped without contributing any field, but it advances the
counter like any other row. -/
theorem readFile_slot (colNum : Nat) (hcol : 0 < colNum) (before after : List Record)
    (record : Record) (row : List Record) :
    readFile colNum 0 (before ++ record :: after) row =
      (readFile colNum 0 before row).bind fun row' =>
        if isPlaceholder record then readFile colNum (before.length + 1) after row'
        else
          readFile colNum (before.length + 1) after
            (row'.modify (fun slot => slot ++ record) (before.length % colNum)) := by
  rw [readFile_append]
  congr 1
  funext row'
  have hc : ¬ colNum = 0 := by omega
  simp only [Nat.zero_add, readFile, hc, if_false]

/-- C18 (witness): the shard rows `[x]`, placeholder, `[y]`, placeholder. -/
theorem readFile_slot_witness :
    readFile 2 0 ([["x"], placeholder] ++ ["y"] :: [placeholder]) [[], []] =
      (readFile 2 0 [["x"], placeholder] [[], []]).bind fun row' =>
        if isPlaceholder ["y"] then readFile 2 (2 + 1) [placeholder] row'
        else
          readFile 2 (2 + 1) [placeholder]
            (row'.modify (fun slot => slot ++ ["y"]) (2 % 2)) :=
  readFile_slot 2 (by decide) [["x"], placeholder] [placeholder] ["y"] [[], []]

theorem slotFields_eq_filter (colNum s : Nat) :
    ∀ (records : List Record) (colIdx : Nat),
      slotFields colNum colIdx records s
        = (((records.enumFrom colIdx).filter
            fun pr => decide (pr.1 % colNum = s) && !isPlaceholder pr.2).map
              Prod.snd).flatten := by
  intro records
  induction records with
  | nil => intro colIdx; rfl
  | cons r records ih =>
    intro colIdx
    simp only [slotFields, List.enumFrom_cons, List.filter_cons, ih]
    by_cases hp : isPlaceholder r = true
    · simp [hp]
    · have hp' : isPlaceholder r = false := by simpa using hp
      by_cases hs : colIdx % colNum = s
      · simp [hp', hs]
      · simp [hp', hs]

theorem isPlaceholder_iff (record : Record) :
    isPlaceholder record = true ↔ ∃ field, record = [field] ∧ trimSpace field = "" := by
  cases record with
  | nil => simp [isPlaceholder]
  | cons f rest =>
    cases rest with
    | nil => simp [isPlaceholder]
    | cons g rest => simp [isPlaceholder]

/-- In terms of the rows read: for every shard from which the rows `records` are
read, not none, and `colNum > 0`: `StreamOutput` writes exactly `colNum` rows for the shard, in slot
order, before it goes on to the next shard, and for every slot `s < colNum` the
`s`-th of them holds the fields of all rows at positions `p` with
`p % colNum = s` that are not placeholder rows, in shard order, a placeholder
being a row with a single field that is blank after trimming. -/
theorem streamFiles_shard (colNum : Nat) (file : List Record)
    (files : List (List Record)) (out : List Record) (records : List Record)
    (hcol : 0 < colNum) (hread : readBack file = records) (hne : records ≠ []) :
    (∀ record, isPlaceholder record = true ↔
      ∃ field, record = [field] ∧ trimSpace field = "") ∧
    ∃ rows, readFile colNum 0 records (List.replicate colNum []) = some rows ∧
      rows.length = colNum ∧
      (∀ s, s < colNum → rows[s]? = some (slotSpec colNum records s)) ∧
      streamFiles colNum (file :: files) out = streamFiles colNum files (out ++ rows) := by
  refine ⟨isPlaceholder_iff, ?_⟩
  refine ⟨fillSlots (List.replicate colNum []) (slotFields colNum 0 records),
    readFile_eq colNum hcol records 0 _, ?_, ?_, ?_⟩
  · rw [length_fillSlots, List.length_replicate]
  · intro s hs
    rw [getElem?_fillSlots, List.length_replicate, if_pos hs, slotFields_eq_filter]
    simp [slotSpec, List.enum, List.getD_eq_getElem?_getD, List.getElem?_replicate, hs]
  · cases hrec : records with
    | nil => exact absurd hrec hne
    | cons r rs =>
      rw [hrec] at hread
      simp only [streamFiles, hread, readFile_eq colNum hcol]

/-- The shard rows `[x]`, placeholder, `[y]`, placeholder with `colNum = 2` give the
rows `[x, y]` and `[]`. -/
theorem streamFiles_shard_witness :
    streamFiles 2 [[["x"], placeholder, ["y"], placeholder]] [] = some [["x", "y"], []] ∧
    ∃ rows, readFile 2 0 [["x"], placeholder, ["y"], placeholder] (List.replicate 2 [])
        = some rows ∧
      rows.length = 2 ∧
      (∀ s, s < 2 → rows[s]? =
        some (slotSpec 2 [["x"], placeholder, ["y"], placeholder] s)) ∧
      streamFiles 2 ([["x"], placeholder, ["y"], placeholder] :: []) []
        = streamFiles 2 [] ([] ++ rows) :=
  ⟨by decide,
    (streamFiles_shard 2 [["x"], placeholder, ["y"], placeholder] [] []
      [["x"], placeholder, ["y"], placeholder] (by decide) (by decide) (by decide)).2⟩

/-- C19 (failing input): on the one-row input `,a,b,c` `ProcessBlock` writes the rows
`[""]`, `[a]` to the first shard, whose `colNum` is 2.  By position the field `a`
belongs to slot 1 and slot 0 holds no field (`slotSpec`); but the row `[""]` is
written as a blank line, which the reader skips, so `StreamOutput` emits `a` in
slot 0 and nothing in slot 1, and `invertMatrix` answers `a`, blank, `b`, `c`.  On
the input `,x` the first shard holds the single row `[""]`: it is not empty, yet no
row is emitted for it and the shard after it is not read. -/
theorem streamOutput_blank_line_shifts_slots :
    ((NewTempFileHelper 4).ProcessBlock [["", "a", "b", "c"]]).map
        (fun th => (th.tempFiles, th.colNum))
      = some ([[[""], ["a"]], [["b"], ["c"]], []], 2) ∧
    slotSpec 2 [[""], ["a"]] 0 = [] ∧ slotSpec 2 [[""], ["a"]] 1 = ["a"] ∧
    streamFiles 2 [[[""], ["a"]]] [] = some [["a"], []] ∧
    (invertMatrix background [["", "a", "b", "c"]]).output = [["a"], [], ["b"], ["c"]] ∧
    ((NewTempFileHelper 2).ProcessBlock [["", "x"]]).map
        (fun th => (th.tempFiles, th.colNum))
      = some ([[[""]], [["x"]], []], 1) ∧
    streamFiles 1 [[[""]], [["x"]], []] [] = some [] ∧
    (invertMatrix background [["", "x"]]).output = [] := by
  decide

/-! ## The in-memory transposition, entry by entry -/

/-- C21: for a block of `R` rows that each have `C` fields, `invertInMemory` returns
a result (no index is out of range); for a non-empty block the result has exactly
`C` rows with exactly `R` fields each and `result[j][i] = block[i][j]` for all
`i < R` and `j < C`; for the empty block the result is empty. -/
theorem invertInMemory_transposes (block : List Record) (R C : Nat)
    (hR : block.length = R) (hC : ∀ row ∈ block, row.length = C) :
    ∃ result, invertInMemory block = some result ∧
      (block = [] → result = []) ∧
      (block ≠ [] →
        result.length = C ∧ (∀ row ∈ result, row.length = R) ∧
        ∀ i j, i < R → j < C →
          ∃ v, (block[i]?.bind fun row => row[j]?) = some v ∧
            (result[j]?.bind fun row => row[i]?) = some v) := by
  refine ⟨transpose block, invertInMemory_eq_transpose block C hC, ?_, ?_⟩
  · rintro rfl
    rfl
  · intro hne
    refine ⟨length_transpose block C hne hC, ?_, ?_⟩
    · intro row hrow
      obtain ⟨j, _, rfl⟩ := mem_transpose block C hne hC row hrow
      rw [length_column, hR]
    · intro i j hi hj
      have hi' : i < block.length := by omega
      have hrow : (block[i]).length = C := hC _ (List.getElem_mem _)
      have hj' : j < (block[i]).length := by omega
      refine ⟨(block[i])[j], ?_, ?_⟩
      · rw [List.getElem?_eq_getElem hi', Option.some_bind, List.getElem?_eq_getElem hj']
      · rw [getElem?_transpose block C j hne hC hj, Option.some_bind]
        simp only [column, List.getElem?_map, List.getElem?_eq_getElem hi', Option.map_some',
          List.getD_eq_getElem?_getD, List.getElem?_eq_getElem hj', Option.getD_some]

/-- C21 (witness): the block `[1,2,3]`, `[4,5,6]` of 2 rows and 3 fields gives 3 rows
of 2 fields each. -/
theorem invertInMemory_transposes_witness :
    ∃ result, invertInMemory [["1", "2", "3"], ["4", "5", "6"]] = some result ∧
      (([["1", "2", "3"], ["4", "5", "6"]] : List Record) = [] → result = []) ∧
      (([["1", "2", "3"], ["4", "5", "6"]] : List Record) ≠ [] →
        result.length = 3 ∧ (∀ row ∈ result, row.length = 2) ∧
        ∀ i j, i < 2 → j < 3 →
          ∃ v, (([["1", "2", "3"], ["4", "5", "6"]] : List Record)[i]?.bind
              fun row => row[j]?) = some v ∧
            (result[j]?.bind fun row => row[i]?) = some v) :=
  invertInMemory_transposes [["1", "2", "3"], ["4", "5", "6"]] 2 3 (by decide) (by decide)

/-! ## The shape check of `echoMatrix` -/

/-- On rows that all have `C` fields the loop of `echoMatrix` reaches the end of
the input, where it compares the number of rows with `C`. -/
theorem echoLoop_rectangular (ctx : Ctx) (C : Nat) :
    ∀ (src : List Record) (rowCount expectedCols : Nat) (written : List Record),
      (∀ m, rowCount ≤ m → m ≤ rowCount + src.length → ctx m = none) →
      (∀ r ∈ src, r.length = C) →
      (rowCount = 0 → expectedCols = 0 ∧ (src = [] → C = 0)) →
      (rowCount ≠ 0 → expectedCols = C) →
      (echoLoop ctx rowCount expectedCols written src).err
        = if rowCount + src.length ≠ C then
            some (.http 400 (notAMatrix (rowCount + src.length) C))
          else none := by
  intro src
  induction src with
  | nil =>
    intro rowCount expectedCols written hctx _ h0 h1
    have hc : ctx rowCount = none := hctx rowCount (le_refl _) (by omega)
    have heq : expectedCols = C := by
      by_cases hz : rowCount = 0
      · rw [(h0 hz).1, (h0 hz).2 rfl]
      · exact h1 hz
    simp only [echoLoop, hc, heq, List.length_nil, Nat.add_zero]
    split <;> rfl
  | cons r src ih =>
    intro rowCount expectedCols written hctx hrect h0 h1
    have hc : ctx rowCount = none := hctx rowCount (le_refl _) (by omega)
    have hctx' : ∀ m, rowCount + 1 ≤ m → m ≤ rowCount + 1 + src.length → ctx m = none :=
      fun m h1 h2 => hctx m (by omega) (by simp only [List.length_cons]; omega)
    have hr : r.length = C := hrect r (List.mem_cons_self _ _)
    have hcols : (if rowCount = 0 then r.length else expectedCols) = C := by
      by_cases hz : rowCount = 0
      · rw [if_pos hz, hr]
      · rw [if_neg hz, h1 hz]
    have hsame : ¬ r.length ≠ C := fun h => h hr
    simp only [echoLoop, hc]
    rw [hcols, if_neg hsame,
      ih (rowCount + 1) C (written ++ [r]) hctx'
        (fun x hx => hrect x (List.mem_cons_of_mem _ hx))
        (fun h => absurd h (Nat.succ_ne_zero _)) (fun _ => rfl)]
    have hlen : rowCount + 1 + src.length = rowCount + (r :: src).length := by
      simp only [List.length_cons]
      omega
    rw [hlen]

/-- The loop of `echoMatrix` stops at the first row whose number of fields is not
that of the first row. -/
theorem echoLoop_inconsistent (ctx : Ctx) (C : Nat) (bad : Record) (post : List Record)
    (hbad : bad.length ≠ C) :
    ∀ (pre : List Record) (rowCount expectedCols : Nat) (written : List Record),
      (∀ m, rowCount ≤ m → m ≤ rowCount + pre.length → ctx m = none) →
      (∀ r ∈ pre, r.length = C) →
      (rowCount = 0 → pre ≠ []) →
      (rowCount ≠ 0 → expectedCols = C) →
      (echoLoop ctx rowCount expectedCols written (pre ++ bad :: post)).err
        = some (.http 400 (columnInconsistent (rowCount + pre.length) C)) := by
  intro pre
  induction pre with
  | nil =>
    intro rowCount expectedCols written hctx _ h0 h1
    have hc : ctx rowCount = none := hctx rowCount (le_refl _) (by omega)
    have hz : rowCount ≠ 0 := fun h => h0 h rfl
    simp only [List.nil_append, echoLoop, hc, if_neg hz, h1 hz, List.length_nil, Nat.add_zero]
    rw [if_pos hbad]
  | cons r pre ih =>
    intro rowCount expectedCols written hctx hrect h0 h1
    have hc : ctx rowCount = none := hctx rowCount (le_refl _) (by omega)
    have hctx' : ∀ m, rowCount + 1 ≤ m → m ≤ rowCount + 1 + pre.length → ctx m = none :=
      fun m h1 h2 => hctx m (by omega) (by simp only [List.length_cons]; omega)
    have hr : r.length = C := hrect r (List.mem_cons_self _ _)
    have hcols : (if rowCount = 0 then r.length else expectedCols) = C := by
      by_cases hz : rowCount = 0
      · rw [if_pos hz, hr]
      · rw [if_neg hz, h1 hz]
    have hsame : ¬ r.length ≠ C := fun h => h hr
    rw [List.cons_append]
    simp only [echoLoop, hc]
    rw [hcols, if_neg hsame,
      ih (rowCount + 1) C (written ++ [r]) hctx'
        (fun x hx => hrect x (List.mem_cons_of_mem _ hx))
        (fun h => absurd h (Nat.succ_ne_zero _)) (fun _ => rfl)]
    have hlen : rowCount + 1 + pre.length = rowCount + (r :: pre).length := by
      simp only [List.length_cons]
      omega
    rw [hlen]

/-- A list with an element that fails `p` splits at the first such element. -/
theorem split_at_first {α : Type} (p : α → Prop) :
    ∀ (l : List α), (¬ ∀ x ∈ l, p x) →
      ∃ pre bad post, l = pre ++ bad :: post ∧ (∀ x ∈ pre, p x) ∧ ¬ p bad := by
  intro l
  induction l with
  | nil => intro h; exact absurd (fun x hx => absurd hx (List.not_mem_nil x)) h
  | cons a l ih =>
    intro h
    by_cases ha : p a
    · have hl : ¬ ∀ x ∈ l, p x := by
        intro hall
        apply h
        intro x hx
        rcases List.mem_cons.mp hx with rfl | hx
        · exact ha
        · exact hall x hx
      obtain ⟨pre, bad, post, heq, hpre, hbad⟩ := ih hl
      refine ⟨a :: pre, bad, post, by rw [heq]; rfl, ?_, hbad⟩
      intro x hx
      rcases List.mem_cons.mp hx with rfl | hx
      · exact ha
      · exact hpre x hx
    · exact ⟨[], a, l, rfl, fun x hx => absurd hx (List.not_mem_nil x), ha⟩

/-- C22: with a context that is not done while the input is read, `echoMatrix`
returns no error if and only if every row has as many fields as the first row and
the number of rows equals that number of fields; `R` rows of one width `C` with
`R ≠ C` are rejected at the end of the input with the 400 error
`Not a matrix: line: R, columns: C`, and the first row whose width is not the width
`C` of the first row, row number `k`, with the 400 error
`column number inconsistent: row: k expects C colums`. -/
theorem echoMatrix_accepts_square (ctx : Ctx) (src : List Record)
    (hctx : ∀ m, m ≤ src.length → ctx m = none) :
    ((echoMatrix ctx src).err = none ↔
        (∀ row ∈ src, row.length = (src.headD []).length) ∧
          src.length = (src.headD []).length) ∧
    ((∀ row ∈ src, row.length = (src.headD []).length) →
        src.length ≠ (src.headD []).length →
        (echoMatrix ctx src).err
          = some (.http 400 ("Not a matrix: line: " ++ toString src.length
              ++ ", columns: " ++ toString (src.headD []).length))) ∧
    (∀ pre bad post, src = pre ++ bad :: post →
        (∀ row ∈ pre, row.length = (src.headD []).length) →
        bad.length ≠ (src.headD []).length →
        (echoMatrix ctx src).err
          = some (.http 400 ("column number inconsistent: row: "
              ++ toString (pre.length + 1) ++ " expects "
              ++ toString (src.headD []).length ++ " colums"))) := by
  have hrect : (∀ row ∈ src, row.length = (src.headD []).length) →
      (echoMatrix ctx src).err
        = if src.length ≠ (src.headD []).length then
            some (.http 400 (notAMatrix src.length (src.headD []).length))
          else none := by
    intro hall
    have h := echoLoop_rectangular ctx (src.headD []).length src 0 0 []
      (fun m _ hm => hctx m (by omega)) hall
      (fun _ => ⟨rfl, fun h => by rw [h]; rfl⟩) (fun h => absurd rfl h)
    simpa only [Nat.zero_add] using h
  have hbad : ∀ pre bad post, src = pre ++ bad :: post →
      (∀ row ∈ pre, row.length = (src.headD []).length) →
      bad.length ≠ (src.headD []).length →
      (echoMatrix ctx src).err
        = some (.http 400 (columnInconsistent pre.length (src.headD []).length)) := by
    intro pre bad post heq hpre hb
    have hne : pre ≠ [] := by
      rintro rfl
      apply hb
      rw [heq]
      rfl
    have h := echoLoop_inconsistent ctx (src.headD []).length bad post hb pre 0 0 []
      (fun m _ hm => hctx m (by rw [heq, List.length_append]; omega)) hpre
      (fun _ => hne) (fun h => absurd rfl h)
    rw [echoMatrix]
    rw [Nat.zero_add] at h
    rw [← h, ← heq]
  simp only [notAMatrix] at hrect
  simp only [columnInconsistent] at hbad
  refine ⟨⟨?_, ?_⟩, ?_, hbad⟩
  · intro herr
    by_cases hall : ∀ row ∈ src, row.length = (src.headD []).length
    · refine ⟨hall, ?_⟩
      by_contra hne
      rw [hrect hall, if_pos hne] at herr
      exact absurd herr (by simp)
    · obtain ⟨pre, bad, post, heq, hpre, hb⟩ :=
        split_at_first (fun row : Record => row.length = (src.headD []).length) src hall
      rw [hbad pre bad post heq hpre hb] at herr
      exact absurd herr (by simp)
  · rintro ⟨hall, hsq⟩
    rw [hrect hall, if_neg (fun h => h hsq)]
  · intro hall hne
    rw [hrect hall, if_pos hne]

/-- C22 (witness): the 2 x 2 input `[1,2]`, `[3,4]` is accepted, the 2 x 3 input
`[1,2,3]`, `[4,5,6]` is rejected with `Not a matrix: line: 2, columns: 3`, and the rows
`[1,2]`, `[3]` with `column number inconsistent: row: 2 expects 2 colums`. -/
theorem echoMatrix_accepts_square_witness :
    (echoMatrix background [["1", "2"], ["3", "4"]]).err = none ∧
    (echoMatrix background [["1", "2", "3"], ["4", "5", "6"]]).err
      = some (.http 400 "Not a matrix: line: 2, columns: 3") ∧
    (echoMatrix background [["1", "2"], ["3"]]).err
      = some (.http 400 "column number inconsistent: row: 2 expects 2 colums") :=
  ⟨(echoMatrix_accepts_square background [["1", "2"], ["3", "4"]] (fun _ _ => rfl)).1.2
      (by decide),
    ((echoMatrix_accepts_square background [["1", "2", "3"], ["4", "5", "6"]]
      (fun _ _ => rfl)).2.1 (by decide) (by decide)).trans (by decide),
    ((echoMatrix_accepts_square background [["1", "2"], ["3"]] (fun _ _ => rfl)).2.2
      [["1", "2"]] ["3"] [] rfl (by decide) (by decide)).trans (by decide)⟩

/-! ## The zero short-circuit of `multiplyMatrix` -/

theorem multiplyRecordNoShortCircuit_ok :
    ∀ (record : Record) (product : Int), (∀ num ∈ record, isNumber num) →
      multiplyRecordNoShortCircuit record product
        = .ok (product * (record.map fieldValue).prod) := by
  intro record
  induction record with
  | nil => intro product _; simp [multiplyRecordNoShortCircuit]
  | cons num record ih =>
    intro product h
    have hnum := setString_of_isNumber num (h num (by simp))
    simp only [multiplyRecordNoShortCircuit, hnum]
    rw [ih _ (fun x hx => h x (List.mem_cons_of_mem _ hx))]
    simp [mul_assoc]

theorem multiplyRecordNoShortCircuit_error :
    ∀ (record : Record) (product : Int) (num : String),
      record.find? (fun num => !decide (isNumber num)) = some num →
      multiplyRecordNoShortCircuit record product = .error num := by
  intro record
  induction record with
  | nil => intro product num h; simp at h
  | cons f record ih =>
    intro product num h
    by_cases hf : isNumber f
    · have hnum := setString_of_isNumber f hf
      simp only [List.find?_cons, hf, decide_True, Bool.not_true] at h
      simp only [multiplyRecordNoShortCircuit, hnum]
      exact ih _ num h
    · simp only [List.find?_cons, hf, decide_False, Bool.not_false, Option.some.injEq] at h
      subst h
      have hnone : setString (trimSpace f) = none := by
        simpa [isNumber] using hf
      simp only [multiplyRecordNoShortCircuit, hnone]

theorem multiplyLoopNoShortCircuit_ok (ctx : Ctx) (L : Nat) :
    ∀ (src : List Record) (n : Nat) (fieldsPerRecord : Int) (product : Int),
      (fieldsPerRecord = 0 ∨ fieldsPerRecord = L) →
      (∀ r ∈ src, r.length = L) → (∀ r ∈ src, ∀ num ∈ r, isNumber num) →
      (∀ m, n ≤ m → m ≤ n + src.length → ctx m = none) →
      multiplyLoopNoShortCircuit ctx n fieldsPerRecord product src =
        { err := none, httpError := none,
          output := [[toString (product * exactProduct src)]], fs := [] } := by
  intro src
  induction src with
  | nil =>
    intro n fpr product _ _ _ hctx
    have hc : ctx n = none := hctx n (le_refl _) (by omega)
    simp [multiplyLoopNoShortCircuit, hc, exactProduct]
  | cons r src ih =>
    intro n fpr product hfpr hwf hnum hctx
    have hc : ctx n = none := hctx n (le_refl _) (by omega)
    have hcheck := checkFields_same fpr L r hfpr (hwf r (by simp))
    have hrec := multiplyRecordNoShortCircuit_ok r product (hnum r (by simp))
    simp only [multiplyLoopNoShortCircuit, hc, hcheck, hrec]
    rw [ih (n + 1) L _ (Or.inr rfl) (fun x hx => hwf x (List.mem_cons_of_mem _ hx))
      (fun x hx => hnum x (List.mem_cons_of_mem _ hx))
      (fun m h1 h2 => hctx m (by omega) (by simp only [List.length_cons]; omega))]
    rw [exactProduct_cons, mul_assoc]

/-- The first field that is not a number ends the scan of every field with the
error that names it, when the context is not done before its row is read. -/
theorem multiplyLoopNoShortCircuit_notNumber (ctx : Ctx) (L : Nat) :
    ∀ (src : List Record) (n : Nat) (fieldsPerRecord : Int) (product : Int) (k : Nat)
      (row : Record),
      (fieldsPerRecord = 0 ∨ fieldsPerRecord = L) →
      (∀ r ∈ src, r.length = L) →
      src[k]? = some row → (∃ num ∈ row, ¬ isNumber num) →
      (∀ m, n ≤ m → m ≤ n + k → ctx m = none) →
      ∃ num, firstNonNumber src = some num ∧
        multiplyLoopNoShortCircuit ctx n fieldsPerRecord product src =
          { err := some (.http 400 (num ++ " is not a number")), httpError := none,
            output := [], fs := [] } := by
  intro src
  induction src with
  | nil => intro n fpr product k row _ _ hrow; simp at hrow
  | cons r src ih =>
    intro n fpr product k row hfpr hwf hrow hbad hctx
    have hc : ctx n = none := hctx n (le_refl _) (by omega)
    have hcheck := checkFields_same fpr L r hfpr (hwf r (by simp))
    rcases numbers_or_first r with hnum | ⟨num, hfirst⟩
    · cases k with
      | zero =>
        simp only [List.getElem?_cons_zero, Option.some.injEq] at hrow
        subst hrow
        obtain ⟨num, hmem, hnot⟩ := hbad
        exact absurd (hnum num hmem) hnot
      | succ k =>
        simp only [List.getElem?_cons_succ] at hrow
        obtain ⟨num, hfn, hloop⟩ := ih (n + 1) L (product * (r.map fieldValue).prod) k row
          (Or.inr rfl) (fun x hx => hwf x (List.mem_cons_of_mem _ hx)) hrow hbad
          (fun m h1 h2 => hctx m (by omega) (by omega))
        refine ⟨num, ?_, ?_⟩
        · rw [firstNonNumber_cons_of_numbers r src hnum, hfn]
        · simp only [multiplyLoopNoShortCircuit, hc, hcheck,
            multiplyRecordNoShortCircuit_ok r product hnum, hloop]
    · refine ⟨num, firstNonNumber_cons_of_some r src num hfirst, ?_⟩
      simp only [multiplyLoopNoShortCircuit, hc, hcheck,
        multiplyRecordNoShortCircuit_error r product num hfirst]

/-- On one record, from a product that is not zero: the loop of `multiplyMatrix`
returns at a zero product, or it ends as the scan of every field does. -/
theorem multiplyRecord_cases :
    ∀ (record : Record) (product : Int), product ≠ 0 →
      multiplyRecord record product = .zero ∨
      (∃ q, q ≠ 0 ∧ multiplyRecord record product = .next q ∧
        multiplyRecordNoShortCircuit record product = .ok q) ∨
      (∃ num, multiplyRecord record product = .notNumber num ∧
        multiplyRecordNoShortCircuit record product = .error num) := by
  intro record
  induction record with
  | nil =>
    intro product hp
    exact Or.inr (Or.inl ⟨product, hp, rfl, rfl⟩)
  | cons f record ih =>
    intro product hp
    cases hset : setString (trimSpace f) with
    | none =>
      refine Or.inr (Or.inr ⟨f, ?_, ?_⟩)
      · simp only [multiplyRecord, hset]
      · simp only [multiplyRecordNoShortCircuit, hset]
    | some tmp =>
      by_cases hz : product * tmp = 0
      · left
        simp only [multiplyRecord, hset, if_pos hz]
      · simp only [multiplyRecord, multiplyRecordNoShortCircuit, hset, if_neg hz]
        exact ih (product * tmp) hz

/-- The outcome of `multiplyMatrix` is that of the scan of every field, or the
answer `0` of the short-circuit. -/
theorem multiplyLoop_cases (ctx : Ctx) :
    ∀ (src : List Record) (n : Nat) (fieldsPerRecord : Int) (product : Int),
      product ≠ 0 →
      multiplyLoop ctx n fieldsPerRecord product src
          = multiplyLoopNoShortCircuit ctx n fieldsPerRecord product src ∨
        multiplyLoop ctx n fieldsPerRecord product src
          = { err := none, httpError := none, output := [["0"]], fs := [] } := by
  intro src
  induction src with
  | nil =>
    intro n fpr product _
    left
    simp only [multiplyLoop, multiplyLoopNoShortCircuit]
  | cons r src ih =>
    intro n fpr product hp
    simp only [multiplyLoop, multiplyLoopNoShortCircuit]
    cases ctx n with
    | some e => exact Or.inl rfl
    | none =>
      cases checkFields fpr r with
      | none => exact Or.inl rfl
      | some fpr' =>
        rcases multiplyRecord_cases r product hp with hzero | ⟨q, hq, h1, h2⟩ | ⟨num, h1, h2⟩
        · right
          simp only [hzero]
        · simp only [h1, h2]
          exact ih (n + 1) fpr' q hq
        · left
          simp only [h1, h2]

theorem mem_takeWhile_append_left {α : Type} (p : α → Bool) (l₂ : List α) (x : α) :
    ∀ (l₁ : List α), x ∈ l₁.takeWhile p → x ∈ (l₁ ++ l₂).takeWhile p := by
  intro l₁
  induction l₁ with
  | nil => intro h; simp at h
  | cons a l₁ ih =>
    intro h
    by_cases ha : p a = true
    · simp only [List.takeWhile_cons, ha, if_true, List.mem_cons, List.cons_append] at h ⊢
      rcases h with h | h
      · exact Or.inl h
      · exact Or.inr (ih h)
    · simp [List.takeWhile_cons, ha] at h

theorem mem_takeWhile_append_right {α : Type} (p : α → Bool) (l₂ : List α) (x : α) :
    ∀ (l₁ : List α), (∀ a ∈ l₁, p a = true) → x ∈ l₂.takeWhile p →
      x ∈ (l₁ ++ l₂).takeWhile p := by
  intro l₁
  induction l₁ with
  | nil => intro _ h; exact h
  | cons a l₁ ih =>
    intro hall h
    have ha : p a = true := hall a (List.mem_cons_self _ _)
    simp only [List.cons_append, List.takeWhile_cons, ha, if_true, List.mem_cons]
    exact Or.inr (ih (fun b hb => hall b (List.mem_cons_of_mem _ hb)) h)

/-- On one record whose fields before the first that is not a number are not zero,
from a product that is not zero: the loop of `multiplyMatrix` ends as the scan of
every field does. -/
theorem multiplyRecord_no_zero :
    ∀ (record : Record) (product : Int), product ≠ 0 →
      (∀ num ∈ record.takeWhile (fun num => decide (isNumber num)), fieldValue num ≠ 0) →
      (∃ q, q ≠ 0 ∧ multiplyRecord record product = .next q ∧
        multiplyRecordNoShortCircuit record product = .ok q ∧
        ∀ num ∈ record, isNumber num) ∨
      (∃ num, multiplyRecord record product = .notNumber num ∧
        multiplyRecordNoShortCircuit record product = .error num) := by
  intro record
  induction record with
  | nil =>
    intro product hp _
    exact Or.inl ⟨product, hp, rfl, rfl, fun _ h => absurd h (List.not_mem_nil _)⟩
  | cons f record ih =>
    intro product hp hnz
    by_cases hf : isNumber f
    · have hset := setString_of_isNumber f hf
      have hdec : decide (isNumber f) = true := by simpa using hf
      have hfz : fieldValue f ≠ 0 :=
        hnz f (by simp only [List.takeWhile_cons, hdec, if_true]; exact List.mem_cons_self _ _)
      have hz : product * fieldValue f ≠ 0 := mul_ne_zero hp hfz
      have hrest : ∀ num ∈ record.takeWhile (fun num => decide (isNumber num)),
          fieldValue num ≠ 0 := by
        intro num hmem
        apply hnz
        simp only [List.takeWhile_cons, hdec, if_true]
        exact List.mem_cons_of_mem _ hmem
      simp only [multiplyRecord, multiplyRecordNoShortCircuit, hset, if_neg hz]
      rcases ih (product * fieldValue f) hz hrest with ⟨q, hq, h1, h2, h3⟩ | h
      · refine Or.inl ⟨q, hq, h1, h2, ?_⟩
        intro num hmem
        rcases List.mem_cons.mp hmem with rfl | hmem
        · exact hf
        · exact h3 num hmem
      · exact Or.inr h
    · have hnone : setString (trimSpace f) = none := by
        simpa [isNumber] using hf
      refine Or.inr ⟨f, ?_, ?_⟩
      · simp only [multiplyRecord, hnone]
      · simp only [multiplyRecordNoShortCircuit, hnone]

/-- When no zero field comes before the first field that is not a number, the
loop of `multiplyMatrix` ends as the scan of every field does. -/
theorem multiplyLoop_no_zero (ctx : Ctx) :
    ∀ (src : List Record) (n : Nat) (fieldsPerRecord : Int) (product : Int),
      product ≠ 0 →
      (∀ num ∈ src.flatten.takeWhile (fun num => decide (isNumber num)),
        fieldValue num ≠ 0) →
      multiplyLoop ctx n fieldsPerRecord product src
        = multiplyLoopNoShortCircuit ctx n fieldsPerRecord product src := by
  intro src
  induction src with
  | nil =>
    intro n fpr product _ _
    simp only [multiplyLoop, multiplyLoopNoShortCircuit]
  | cons r src ih =>
    intro n fpr product hp hnz
    simp only [multiplyLoop, multiplyLoopNoShortCircuit]
    cases ctx n with
    | some e => rfl
    | none =>
      cases checkFields fpr r with
      | none => rfl
      | some fpr' =>
        have hr : ∀ num ∈ r.takeWhile (fun num => decide (isNumber num)),
            fieldValue num ≠ 0 := by
          intro num hmem
          apply hnz
          rw [List.flatten_cons]
          exact mem_takeWhile_append_left _ _ _ r hmem
        rcases multiplyRecord_no_zero r product hp hr with ⟨q, hq, h1, h2, h3⟩ | ⟨num, h1, h2⟩
        · simp only [h1, h2]
          apply ih (n + 1) fpr' q hq
          intro num hmem
          apply hnz
          rw [List.flatten_cons]
          exact mem_takeWhile_append_right _ _ _ r
            (fun a ha => by simpa using h3 a ha) hmem
        · simp only [h1, h2]

/-- On a record in which a zero field comes after fields that are numbers other than
zero, the loop of `multiplyMatrix` returns at the zero field, whatever follows it. -/
theorem multiplyRecord_zero (z : String) (b : List String) (hz : isNumber z)
    (hz0 : fieldValue z = 0) :
    ∀ (a : List String) (product : Int), product ≠ 0 →
      (∀ num ∈ a, isNumber num ∧ fieldValue num ≠ 0) →
      multiplyRecord (a ++ z :: b) product = .zero := by
  intro a
  induction a with
  | nil =>
    intro product _ _
    have hset := setString_of_isNumber z hz
    simp [multiplyRecord, hset, hz0]
  | cons f a ih =>
    intro product hp h
    obtain ⟨hf, hf0⟩ := h f (List.mem_cons_self _ _)
    have hset := setString_of_isNumber f hf
    have hne : product * fieldValue f ≠ 0 := mul_ne_zero hp hf0
    rw [List.cons_append]
    simp only [multiplyRecord, hset, if_neg hne]
    exact ih _ hne (fun x hx => h x (List.mem_cons_of_mem _ hx))

/-- On a record whose fields are numbers other than zero the loop of `multiplyMatrix`
hands a product that is not zero to the next record. -/
theorem multiplyRecord_next :
    ∀ (record : Record) (product : Int), product ≠ 0 →
      (∀ num ∈ record, isNumber num ∧ fieldValue num ≠ 0) →
      ∃ q, q ≠ 0 ∧ multiplyRecord record product = .next q := by
  intro record
  induction record with
  | nil =>
    intro product hp _
    exact ⟨product, hp, rfl⟩
  | cons f record ih =>
    intro product hp h
    obtain ⟨hf, hf0⟩ := h f (List.mem_cons_self _ _)
    have hset := setString_of_isNumber f hf
    have hne : product * fieldValue f ≠ 0 := mul_ne_zero hp hf0
    simp only [multiplyRecord, hset, if_neg hne]
    exact ih _ hne (fun x hx => h x (List.mem_cons_of_mem _ hx))

/-- At the first zero field the loop of `multiplyMatrix` writes `0` and returns
`nil`: neither the fields `b` after it in its row nor the rows `post` after that row
are read. -/
theorem multiplyLoop_zero (ctx : Ctx) (L : Nat) (a : List String) (z : String)
    (b : List String) (post : List Record) (hz : isNumber z) (hz0 : fieldValue z = 0)
    (ha : ∀ num ∈ a, isNumber num ∧ fieldValue num ≠ 0)
    (hlen : (a ++ z :: b).length = L) :
    ∀ (pre : List Record) (n : Nat) (fieldsPerRecord : Int) (product : Int),
      product ≠ 0 → (fieldsPerRecord = 0 ∨ fieldsPerRecord = L) →
      (∀ r ∈ pre, r.length = L) →
      (∀ r ∈ pre, ∀ num ∈ r, isNumber num ∧ fieldValue num ≠ 0) →
      (∀ m, n ≤ m → m ≤ n + pre.length → ctx m = none) →
      multiplyLoop ctx n fieldsPerRecord product (pre ++ (a ++ z :: b) :: post)
        = { err := none, httpError := none, output := [["0"]], fs := [] } := by
  intro pre
  induction pre with
  | nil =>
    intro n fpr product hp hfpr _ _ hctx
    have hc : ctx n = none := hctx n (le_refl _) (by omega)
    have hcheck := checkFields_same fpr L (a ++ z :: b) hfpr hlen
    rw [List.nil_append]
    simp only [multiplyLoop, hc, hcheck, multiplyRecord_zero z b hz hz0 a product hp ha]
  | cons r pre ih =>
    intro n fpr product hp hfpr hwf hnum hctx
    have hc : ctx n = none := hctx n (le_refl _) (by omega)
    have hcheck := checkFields_same fpr L r hfpr (hwf r (List.mem_cons_self _ _))
    obtain ⟨q, hq, hrec⟩ := multiplyRecord_next r product hp (hnum r (List.mem_cons_self _ _))
    rw [List.cons_append]
    simp only [multiplyLoop, hc, hcheck, hrec]
    exact ih (n + 1) L q hq (Or.inr rfl) (fun x hx => hwf x (List.mem_cons_of_mem _ hx))
      (fun x hx => hnum x (List.mem_cons_of_mem _ hx))
      (fun m h1 h2 => hctx m (by omega) (by simp only [List.length_cons]; omega))

/-- C23 (counterexample): on the rows `[2,0]`, `[3,x]` the scan of every field
rejects `x`, and `multiplyMatrix` returns `nil` and writes `0`: the field that is
not a number comes after a zero field and is never read. -/
theorem multiplyMatrix_hides_non_number :
    multiplyMatrixNoShortCircuit background [["2", "0"], ["3", "x"]] =
      { err := some (.http 400 "x is not a number"), httpError := none, output := [],
        fs := [] } ∧
    multiplyMatrix background [["2", "0"], ["3", "x"]] =
      { err := none, httpError := none, output := [["0"]], fs := [] } ∧
    multiplyMatrix background [["2", "0"], ["3", "x"]]
      ≠ multiplyMatrixNoShortCircuit background [["2", "0"], ["3", "x"]] := by
  decide

/-- C23 (as the code has it): the outcome of `multiplyMatrix` is that of the scan of
every field without the short-circuit, or else `nil` with the single field `0` written;
the two outcomes are equal whenever no zero field comes before the first field that
is not a number, and whenever every field is a number, every row has the same
number of fields and the context is not done while the input is read; a field that
is not a number is rejected with "is not a number" when no zero field comes before
it (and its row is reached).  At the first zero field `z` (the fields before it are
numbers other than zero, the rows up to its row have one width and the context is
not done before its row is read) `multiplyMatrix` returns `nil` and writes `0`,
whatever the fields `b` after it and the rows `post` after its row hold: they are not
read.  The scan of every field, on the other hand, rejects the first field that is
not a number wherever it stands. -/
theorem multiplyMatrix_short_circuit (ctx : Ctx) (src : List Record) :
    (multiplyMatrix ctx src = multiplyMatrixNoShortCircuit ctx src ∨
      multiplyMatrix ctx src
        = { err := none, httpError := none, output := [["0"]], fs := [] }) ∧
    ((∀ num ∈ src.flatten.takeWhile (fun num => decide (isNumber num)),
        fieldValue num ≠ 0) →
      multiplyMatrix ctx src = multiplyMatrixNoShortCircuit ctx src) ∧
    (∀ L, (∀ r ∈ src, r.length = L) → (∀ r ∈ src, ∀ num ∈ r, isNumber num) →
      (∀ m, m ≤ src.length → ctx m = none) →
      multiplyMatrix ctx src = multiplyMatrixNoShortCircuit ctx src) ∧
    (∀ L k row, (∀ r ∈ src, r.length = L) → src[k]? = some row →
      (∃ num ∈ row, ¬ isNumber num) → (∀ m, m ≤ k → ctx m = none) →
      (∀ num ∈ src.flatten.takeWhile (fun num => decide (isNumber num)),
        fieldValue num ≠ 0) →
      ∃ num, firstNonNumber src = some num ∧
        multiplyMatrix ctx src =
          { err := some (.http 400 (num ++ " is not a number")), httpError := none,
            output := [], fs := [] }) ∧
    (∀ pre a z b post, src = pre ++ (a ++ z :: b) :: post →
      (∀ r ∈ pre, r.length = (a ++ z :: b).length) →
      (∀ r ∈ pre, ∀ num ∈ r, isNumber num ∧ fieldValue num ≠ 0) →
      (∀ num ∈ a, isNumber num ∧ fieldValue num ≠ 0) →
      isNumber z → fieldValue z = 0 →
      (∀ m, m ≤ pre.length → ctx m = none) →
      multiplyMatrix ctx src
        = { err := none, httpError := none, output := [["0"]], fs := [] }) ∧
    (∀ L k row, (∀ r ∈ src, r.length = L) → src[k]? = some row →
      (∃ num ∈ row, ¬ isNumber num) → (∀ m, m ≤ k → ctx m = none) →
      ∃ num, firstNonNumber src = some num ∧
        multiplyMatrixNoShortCircuit ctx src =
          { err := some (.http 400 (num ++ " is not a number")), httpError := none,
            output := [], fs := [] }) := by
  refine ⟨multiplyLoop_cases ctx src 0 0 1 one_ne_zero,
    multiplyLoop_no_zero ctx src 0 0 1 one_ne_zero, ?_, ?_, ?_, ?_⟩
  · intro L hwf hnum hctx
    have h1 := multiplyLoop_ok ctx L src 0 0 1 one_ne_zero (Or.inl rfl) hwf hnum
      (fun m _ h => hctx m (by omega))
    have h2 := multiplyLoopNoShortCircuit_ok ctx L src 0 0 1 (Or.inl rfl) hwf hnum
      (fun m _ h => hctx m (by omega))
    rw [multiplyMatrix, multiplyMatrixNoShortCircuit, h1, h2]
  · intro L k row hwf hrow hbad hctx hnz
    obtain ⟨num, hfn, hfull⟩ := multiplyLoopNoShortCircuit_notNumber ctx L src 0 0 1 k row
      (Or.inl rfl) hwf hrow hbad (fun m _ h => hctx m (by omega))
    refine ⟨num, hfn, ?_⟩
    rw [multiplyMatrix, multiplyLoop_no_zero ctx src 0 0 1 one_ne_zero hnz, hfull]
  · intro pre a z b post heq hwf hnum ha hz hz0 hctx
    rw [multiplyMatrix, heq]
    exact multiplyLoop_zero ctx (a ++ z :: b).length a z b post hz hz0 ha rfl pre 0 0 1
      one_ne_zero (Or.inl rfl) hwf hnum (fun m _ h => hctx m (by omega))
  · intro L k row hwf hrow hbad hctx
    exact multiplyLoopNoShortCircuit_notNumber ctx L src 0 0 1 k row
      (Or.inl rfl) hwf hrow hbad (fun m _ h => hctx m (by omega))

/-- C23 (witness): on `[2,0]`, `[3,4]` both give `0`; on `[2,x]`, `[0,4]`, where the
field `x` comes before the zero, both reject `x`; on `[2,0]`, `[3,x]`, where it comes
after the zero, `multiplyMatrix` writes `0` and the scan of every field rejects
`x`. -/
theorem multiplyMatrix_short_circuit_witness :
    multiplyMatrix background [["2", "0"], ["3", "4"]]
      = multiplyMatrixNoShortCircuit background [["2", "0"], ["3", "4"]] ∧
    (∃ num, firstNonNumber [["2", "x"], ["0", "4"]] = some num ∧
      multiplyMatrix background [["2", "x"], ["0", "4"]] =
        { err := some (.http 400 (num ++ " is not a number")), httpError := none,
          output := [], fs := [] }) ∧
    multiplyMatrix background [["2", "0"], ["3", "x"]]
      = { err := none, httpError := none, output := [["0"]], fs := [] } ∧
    ∃ num, firstNonNumber [["2", "0"], ["3", "x"]] = some num ∧
      multiplyMatrixNoShortCircuit background [["2", "0"], ["3", "x"]] =
        { err := some (.http 400 (num ++ " is not a number")), httpError := none,
          output := [], fs := [] } :=
  ⟨(multiplyMatrix_short_circuit background [["2", "0"], ["3", "4"]]).2.2.1 2
      (by decide) (by decide) (fun _ _ => rfl),
    (multiplyMatrix_short_circuit background [["2", "x"], ["0", "4"]]).2.2.2.1 2 0 ["2", "x"]
      (by decide) rfl ⟨"x", by decide, by decide⟩ (fun _ _ => rfl) (by decide),
    (multiplyMatrix_short_circuit background [["2", "0"], ["3", "x"]]).2.2.2.2.1
      [] ["2"] "0" [] [["3", "x"]] rfl (by decide) (by decide) (by decide) (by decide)
      (by decide) (fun _ _ => rfl),
    (multiplyMatrix_short_circuit background [["2", "0"], ["3", "x"]]).2.2.2.2.2 2 1
      ["3", "x"] (by decide) rfl ⟨"x", by decide, by decide⟩ (fun _ _ => rfl)⟩

/-! ## The rows of `flushChunk` -/

/-- The number of rows `flushChunk` writes, and the width of every row but the
last. -/
theorem flushChunk_count :
    ∀ (n : Nat) (data : List String), data.length ≤ n →
      (flushChunk data).length = ceilDiv data.length 10000 ∧
      ∀ row ∈ (flushChunk data).dropLast, row.length = 10000 := by
  intro n
  induction n with
  | zero =>
    intro data h
    have : data = [] := List.length_eq_zero.mp (by omega)
    subst this
    simp [flushChunk_nil, ceilDiv]
  | succ n ih =>
    intro data h
    cases data with
    | nil => simp [flushChunk_nil, ceilDiv]
    | cons field data =>
      obtain ⟨h1, h2, h3⟩ := minimum_bounds (field :: data).length (by simp)
      have hmin : minimum 10000 (field :: data).length
          = if 10000 < (field :: data).length then 10000 else (field :: data).length := rfl
      have hdroplen : ((field :: data).drop (minimum 10000 (field :: data).length)).length
          = (field :: data).length - minimum 10000 (field :: data).length := List.length_drop _ _
      obtain ⟨ihlen, ihrows⟩ := ih ((field :: data).drop (minimum 10000 (field :: data).length))
        (by rw [hdroplen]; omega)
      rw [flushChunk_cons]
      constructor
      · rw [List.length_cons, ihlen, hdroplen]
        unfold ceilDiv
        split at hmin <;> omega
      · intro row hrow
        cases hrest : flushChunk ((field :: data).drop (minimum 10000 (field :: data).length)) with
        | nil =>
          rw [hrest] at hrow
          simp at hrow
        | cons y l =>
          rw [hrest] at hrow ihrows ihlen
          rw [List.dropLast_cons₂] at hrow
          rcases List.mem_cons.mp hrow with hr | hr
          · subst hr
            rw [List.length_take]
            rw [hdroplen] at ihlen
            unfold ceilDiv at ihlen
            simp only [List.length_cons] at ihlen hmin h1 h2 h3 ⊢
            split at hmin <;> omega
          · exact ihrows row hr

/-- C24: for every list of fields `data`, `flushChunk` (a total function: its loop
terminates) writes `ceil(len(data) / 10000)` rows, each with at least 1 and at most
10000 fields, all but the last with exactly 10000, whose concatenation in order is
`data`; for empty `data` it writes no row. -/
theorem flushChunk_chunks (data : List String) :
    (flushChunk data).length = ceilDiv data.length 10000 ∧
      (∀ row ∈ flushChunk data, 1 ≤ row.length ∧ row.length ≤ 10000) ∧
      (∀ row ∈ (flushChunk data).dropLast, row.length = 10000) ∧
      (flushChunk data).flatten = data ∧
      flushChunk [] = [] :=
  ⟨(flushChunk_count data.length data (le_refl _)).1,
    (flushChunk_rows data.length data (le_refl _)).2,
    (flushChunk_count data.length data (le_refl _)).2,
    (flushChunk_rows data.length data (le_refl _)).1,
    flushChunk_nil⟩

/-! ## The handlers when `prepareReaderWriter` fails -/

/-- When the form is parsed and `prepareReaderWriter` fails with `perr`,
`printMatrix` returns the 400 error with the message `perr`, and `calcMatrix`
panics. -/
theorem calcMatrix_prepare_error (c : Request) (perr : String)
    (hform : c.formError = none) (hprep : prepareReaderWriter c = .error perr)
    (printOption method : String) :
    printMatrix c printOption
      = { err := some (.http 400 perr), httpError := none, output := [], fs := [] } ∧
    calcMatrix c method
      = { err := some .panic, httpError := none, output := [], fs := [] } := by
  simp only [printMatrix, calcMatrix, hform, hprep, and_self]

/-- A missing file, an empty file and a file that is not a `.csv` file make
`prepareReaderWriter` fail. -/
theorem prepareReaderWriter_fails (c : Request) :
    (c.files = [] → prepareReaderWriter c = .error "no files found in the form") ∧
    (∀ fileHeader, c.files.head? = some fileHeader → fileHeader.Size = 0 →
      prepareReaderWriter c = .error "empty file") ∧
    (∀ fileHeader, c.files.head? = some fileHeader → fileHeader.Size ≠ 0 →
      ToLower (Ext fileHeader.Filename) ≠ ".csv" →
      prepareReaderWriter c = .error "only csv file supported") := by
  refine ⟨?_, ?_, ?_⟩
  · intro h
    simp only [prepareReaderWriter, h, fetchFileHeader]
  · intro fileHeader h hsize
    cases hfiles : c.files with
    | nil => rw [hfiles] at h; simp at h
    | cons first rest =>
      rw [hfiles] at h
      simp only [List.head?_cons, Option.some.injEq] at h
      subst h
      simp only [prepareReaderWriter, hfiles, fetchFileHeader, hsize, if_true]
  · intro fileHeader h hsize hcsv
    cases hfiles : c.files with
    | nil => rw [hfiles] at h; simp at h
    | cons first rest =>
      rw [hfiles] at h
      simp only [List.head?_cons, Option.some.injEq] at h
      subst h
      simp only [prepareReaderWriter, hfiles, fetchFileHeader, hsize, if_false,
        validateFileType, hcsv, ne_eq, not_false_eq_true, if_true]

/-- C25 (failing input): on the upload of `test.txt` (as on a form without file and
on an empty file) `prepareReaderWriter` fails; `printMatrix`, behind `/echo`, returns the 400
error with the message of that failure; `calcMatrix`, behind `/sum` and `/multiply`,
dereferences the nil `err` and panics instead of returning that error. -/
theorem calcMatrix_nil_dereference :
    Echo txtUpload
      = { err := some (.http 400 "only csv file supported"), httpError := none,
          output := [], fs := [] } ∧
    Sum txtUpload = { err := some .panic, httpError := none, output := [], fs := [] } ∧
    Multiply txtUpload
      = { err := some .panic, httpError := none, output := [], fs := [] } ∧
    Echo noUpload
      = { err := some (.http 400 "no files found in the form"), httpError := none,
          output := [], fs := [] } ∧
    Sum noUpload = { err := some .panic, httpError := none, output := [], fs := [] } ∧
    Echo emptyUpload
      = { err := some (.http 400 "empty file"), httpError := none, output := [],
          fs := [] } ∧
    Sum emptyUpload = { err := some .panic, httpError := none, output := [], fs := [] } := by
  decide

end MatrixService
